import Mathlib

/-!
Verification of `advanced-vector/vector.h`

A shallow embedding of the two class templates of `vector.h`:

* `RawMemory<T>`: owner of a block of raw storage;
* `Vector<T>`: owner of one `RawMemory<T>` and of the constructed prefix of it.

Storage is modelled slot by slot.  A slot is `none` while it is raw,
unconstructed memory and `some x` while it holds a constructed `T` of value
`x`.  Every operation is a function from the state before the call to an
outcome: normal return, a C++ exception together with the state the
exception leaves behind, or undefined behaviour (a failed `assert`, an access
outside the block, the use of an unconstructed slot as an object).

Exceptions are injected through the `World`: it carries the number of
throwing-capable element operations and of allocations that still succeed,
and the log of every block handed back to `operator delete`, with the slot
contents the block had at that moment.

Iterators and references into a vector are slot indices.  The argument of
`Emplace` and of `Insert(pos, const T&)` is an `Arg`: a reference to an
object outside the vector, or to the element in a given slot of the vector
itself (`v.Insert(pos, v[j])`); it is read at the point where the code
constructs `T(args...)`, on the slots as they are at that point.  The
argument of `PushBack` and of `EmplaceBack` is copied or moved into its slot
before any element of the vector is written, and an rvalue reference
(`T&& value`) is taken to be the only reference to its object, as for the
standard containers; these arguments are given by their value.

Sizes and indices are natural numbers.  The one product that the caller
controls, `n * sizeof(T)` in `RawMemory::Allocate`, is computed in `size_t`:
the `World` carries `SIZE_MAX`, and the block that `operator new` returns has
as many slots as the wrapped byte count holds.  The doubling
`Capacity() * 2` is not wrapped: a block that exists has at most
`PTRDIFF_MAX` bytes, so twice its capacity is representable.
`size_max = none` stands for a `size_t` without bound; it is assumed only in
theorems about operations whose request is derived from the size of a block
that exists (the doubled capacity of `PushBack`, the size of the vector that
is copied), never for `Reserve`, `Resize` or `Vector(size)`.
-/

namespace AdvancedVector

/-- The two kinds of exception that can leave an operation of the container:
`std::bad_alloc` from `operator new`, and an exception thrown by an operation
of the element type. -/
inductive Fault where
  | bad_alloc
  | element_op
  deriving DecidableEq, Repr

/-- Outcome of a call: `ok r s` is a normal return of `r` in state `s`,
`thrown f s` an exception `f` leaving the state `s`, `ub` undefined behaviour. -/
inductive Res (σ ρ : Type) where
  | ok (r : ρ) (s : σ)
  | thrown (f : Fault) (s : σ)
  | ub
  deriving DecidableEq, Repr

/-- The call ends in the state `s`, by a normal return or by an exception. -/
def Res.leaves {σ ρ : Type} : Res σ ρ → σ → Prop
  | .ok _ s1, s => s1 = s
  | .thrown _ s1, s => s1 = s
  | .ub, _ => False

instance {σ ρ : Type} [DecidableEq σ] (r : Res σ ρ) (s : σ) : Decidable (r.leaves s) := by
  cases r <;> unfold Res.leaves <;> infer_instance

/-- What the algorithms of `vector.h` ask of the element type `T`: the two
traits tested by `if constexpr`, the state a moved-from object is left in,
the value of a value-initialised object (`T()`), whether
default-initialisation (`new (p) T`) performs no initialisation at all, the
indeterminate value an object left uninitialised in slot `i` then has, and
`sizeof(T)`. -/
structure ElemType (α : Type) where
  nothrow_move_constructible : Bool
  copy_constructible : Bool
  moved_from : α → α
  default_value : α
  trivially_default_constructible : Bool
  indeterminate : Nat → α
  size_of : Nat

/-- A block of raw storage returned by `operator new`, slot by slot. -/
abbrev Block (α : Type) := List (Option α)

/-- Ambient state: `ops_left` and `allocs_left` are the numbers of
throwing-capable element operations and of allocations that still succeed
(`none`: all of them do); `released` logs the blocks passed to
`operator delete`, most recent first, as they were when released;
`size_max` is `SIZE_MAX`, the largest value of `size_t` (`none`: sizes are
not bounded). -/
structure World (α : Type) where
  ops_left : Option Nat
  allocs_left : Option Nat
  released : List (Block α)
  size_max : Option Nat
  deriving DecidableEq, Repr

/-- One throwing-capable element operation: `none` when it throws. -/
def World.tick {α : Type} (w : World α) : Option (World α) :=
  match w.ops_left with
  | none => some w
  | some 0 => none
  | some (k + 1) => some { w with ops_left := some k }

/-- One call of `operator new` for a non-empty block: `none` when it throws. -/
def World.new_call {α : Type} (w : World α) : Option (World α) :=
  match w.allocs_left with
  | none => some w
  | some 0 => none
  | some (k + 1) => some { w with allocs_left := some k }

/-- No exception is injected and no size computation wraps. -/
def World.fault_free {α : Type} (w : World α) : Prop :=
  w.ops_left = none ∧ w.allocs_left = none ∧ w.size_max = none

instance {α : Type} (w : World α) : Decidable w.fault_free := by
  unfold World.fault_free; infer_instance

/-- The budget of element operations covers `n` of them. -/
def World.affords {α : Type} (w : World α) (n : Nat) : Bool :=
  match w.ops_left with
  | none => true
  | some k => decide (n ≤ k)

/-- The world after `n` element operations that succeeded. -/
def World.spend {α : Type} (w : World α) (n : Nat) : World α :=
  { w with ops_left := w.ops_left.map (fun k => k - n) }

/-- The world once the budget of element operations is used up. -/
def World.exhaust {α : Type} (w : World α) : World α :=
  { w with ops_left := w.ops_left.map (fun _ => 0) }

/-- The number of whole objects of type `T` in a block of `n * sizeof(T)`
bytes, the product being computed in `size_t`, that is modulo
`SIZE_MAX + 1`. -/
def World.block_slots {α : Type} (w : World α) (T : ElemType α) (n : Nat) : Nat :=
  match w.size_max with
  | none => n
  | some M => n * T.size_of % (M + 1) / T.size_of

/-- The product `n * sizeof(T)` is representable in `size_t`. -/
def World.fits {α : Type} (w : World α) (T : ElemType α) (n : Nat) : Prop :=
  match w.size_max with
  | none => True
  | some M => 0 < T.size_of ∧ n * T.size_of ≤ M

instance {α : Type} (w : World α) (T : ElemType α) (n : Nat) : Decidable (w.fits T n) := by
  unfold World.fits; split <;> infer_instance

/-! ## Slots -/

/-- The object in slot `i`; `none` when `i` is outside the block or the slot
is not constructed. -/
def Block.read {α : Type} (b : Block α) (i : Nat) : Option α :=
  match b[i]? with
  | some (some x) => some x
  | _ => none

/-- Construction of an object of value `x` in the raw slot `i`
(placement `new`); `none` when `i` is outside the block or the slot already
holds an object (which would be lost without being destroyed). -/
def Block.construct {α : Type} (b : Block α) (i : Nat) (x : α) : Option (Block α) :=
  match b[i]? with
  | some none => some (b.set i (some x))
  | _ => none

/-- Destructor call on slot `i`; `none` when there is no object there. -/
def Block.destroy {α : Type} (b : Block α) (i : Nat) : Option (Block α) :=
  match b[i]? with
  | some (some _) => some (b.set i none)
  | _ => none

/-- Overwrites the object in slot `i` with value `x` (the effect of an
assignment on its left operand, or of a move on its source); `none` when
there is no object there. -/
def Block.assign {α : Type} (b : Block α) (i : Nat) (x : α) : Option (Block α) :=
  match b[i]? with
  | some (some _) => some (b.set i (some x))
  | _ => none

/-! ## The standard algorithms used by `vector.h`

Each loop is written out element by element.  An element operation that
throws leaves its operands as they were.  The `uninitialized_*` algorithms
destroy what they have constructed before the exception leaves them, as the
standard requires. -/

/-- A move construction: it can throw only when `T` is not nothrow move
constructible. -/
def World.move_tick {α : Type} (T : ElemType α) (w : World α) : Option (World α) :=
  if T.nothrow_move_constructible then some w else w.tick

/-- Call `std::destroy_n(b + first, n)`. -/
def destroy_n {α : Type} : Block α → Nat → Nat → Option (Block α)
  | b, _, 0 => some b
  | b, first, n + 1 =>
    match b.destroy first with
    | none => none
    | some b1 => destroy_n b1 (first + 1) n

/-- Call `std::uninitialized_copy_n(src + first, n, dst + d)`, source and
destination in different blocks.  The state is the destination block. -/
def uninitialized_copy_n {α : Type} (src : Block α) :
    Nat → Nat → Block α → Nat → World α → Res (Block α × World α) Unit
  | _, 0, dst, _, w => .ok () (dst, w)
  | first, n + 1, dst, d, w =>
    match src.read first with
    | none => .ub
    | some x =>
      match w.tick with
      | none => .thrown .element_op (dst, w)
      | some w1 =>
        match dst.construct d x with
        | none => .ub
        | some dst1 =>
          match uninitialized_copy_n src (first + 1) n dst1 (d + 1) w1 with
          | .ok r s => .ok r s
          | .ub => .ub
          | .thrown f (dst2, w2) =>
            match dst2.destroy d with
            | none => .ub
            | some dst3 => .thrown f (dst3, w2)

/-- Call `std::uninitialized_move_n(src + first, n, dst + d)`, source and
destination in different blocks.  The state is the source block, the
destination block and the world. -/
def uninitialized_move_n {α : Type} (T : ElemType α) :
    Block α → Nat → Nat → Block α → Nat → World α →
      Res (Block α × Block α × World α) Unit
  | src, _, 0, dst, _, w => .ok () (src, dst, w)
  | src, first, n + 1, dst, d, w =>
    match src.read first with
    | none => .ub
    | some x =>
      match w.move_tick T with
      | none => .thrown .element_op (src, dst, w)
      | some w1 =>
        match dst.construct d x, src.assign first (T.moved_from x) with
        | some dst1, some src1 =>
          match uninitialized_move_n T src1 (first + 1) n dst1 (d + 1) w1 with
          | .ok r s => .ok r s
          | .ub => .ub
          | .thrown f (src2, dst2, w2) =>
            match dst2.destroy d with
            | none => .ub
            | some dst3 => .thrown f (src2, dst3, w2)
        | _, _ => .ub

/-- Call `std::uninitialized_move_n(b + first, n, b + d)`, source and
destination in the same block. -/
def uninitialized_move_n_within {α : Type} (T : ElemType α) :
    Block α → Nat → Nat → Nat → World α → Res (Block α × World α) Unit
  | b, _, 0, _, w => .ok () (b, w)
  | b, first, n + 1, d, w =>
    match b.read first with
    | none => .ub
    | some x =>
      match w.move_tick T with
      | none => .thrown .element_op (b, w)
      | some w1 =>
        match b.construct d x with
        | none => .ub
        | some b1 =>
          match b1.assign first (T.moved_from x) with
          | none => .ub
          | some b2 =>
            match uninitialized_move_n_within T b2 (first + 1) n (d + 1) w1 with
            | .ok r s => .ok r s
            | .ub => .ub
            | .thrown f (b3, w3) =>
              match b3.destroy d with
              | none => .ub
              | some b4 => .thrown f (b4, w3)

/-- Call `std::copy_n(src + first, n, dst + d)`, source and destination in
different blocks: `n` copy assignments.  Returns the offset one past the last
slot assigned. -/
def copy_n {α : Type} (src : Block α) :
    Nat → Nat → Block α → Nat → World α → Res (Block α × World α) Nat
  | _, 0, dst, d, w => .ok d (dst, w)
  | first, n + 1, dst, d, w =>
    match src.read first with
    | none => .ub
    | some x =>
      match w.tick with
      | none => .thrown .element_op (dst, w)
      | some w1 =>
        match dst.assign d x with
        | none => .ub
        | some dst1 => copy_n src (first + 1) n dst1 (d + 1) w1

/-- The loop of `std::move_backward`: `n` move assignments, the last element
of the source range first; the source range is `[first, first + n)` and the
destination range ends at `d_last`. -/
def move_backward_loop {α : Type} (T : ElemType α) (first : Nat) :
    Nat → Block α → Nat → World α → Res (Block α × World α) Unit
  | 0, b, _, w => .ok () (b, w)
  | _ + 1, _, 0, _ => .ub
  | n + 1, b, d + 1, w =>
    match b.read (first + n) with
    | none => .ub
    | some x =>
      match w.tick with
      | none => .thrown .element_op (b, w)
      | some w1 =>
        match b.assign d x with
        | none => .ub
        | some b1 =>
          match b1.assign (first + n) (T.moved_from x) with
          | none => .ub
          | some b2 => move_backward_loop T first n b2 d w1

/-- Call `std::move_backward(b + first, b + last, b + d_last)`. -/
def move_backward {α : Type} (T : ElemType α) (b : Block α) (first last d_last : Nat)
    (w : World α) : Res (Block α × World α) Unit :=
  if first ≤ last then move_backward_loop T first (last - first) b d_last w else .ub

/-- The loop of the algorithm `std::move`: `n` move assignments, from
`first` upwards, onto `d_first` upwards. -/
def std_move_loop {α : Type} (T : ElemType α) :
    Nat → Block α → Nat → Nat → World α → Res (Block α × World α) Unit
  | 0, b, _, _, w => .ok () (b, w)
  | n + 1, b, first, d_first, w =>
    match b.read first with
    | none => .ub
    | some x =>
      match w.tick with
      | none => .thrown .element_op (b, w)
      | some w1 =>
        match b.assign d_first x with
        | none => .ub
        | some b1 =>
          match b1.assign first (T.moved_from x) with
          | none => .ub
          | some b2 => std_move_loop T n b2 (first + 1) (d_first + 1) w1

/-- Call `std::move(b + first, b + last, b + d_first)` (the algorithm). -/
def std_move {α : Type} (T : ElemType α) (b : Block α) (first last d_first : Nat)
    (w : World α) : Res (Block α × World α) Unit :=
  if first ≤ last then std_move_loop T (last - first) b first d_first w else .ub

/-- Call `std::uninitialized_value_construct_n(b + first, n)`: each object is
value-initialised.  For a trivially default constructible `T` this is
zero-initialisation, which cannot throw. -/
def uninitialized_value_construct_n {α : Type} (T : ElemType α) :
    Block α → Nat → Nat → World α → Res (Block α × World α) Unit
  | b, _, 0, w => .ok () (b, w)
  | b, first, n + 1, w =>
    match (if T.trivially_default_constructible then some w else w.tick) with
    | none => .thrown .element_op (b, w)
    | some w1 =>
      match b.construct first T.default_value with
      | none => .ub
      | some b1 =>
        match uninitialized_value_construct_n T b1 (first + 1) n w1 with
        | .ok r s => .ok r s
        | .ub => .ub
        | .thrown f (b2, w2) =>
          match b2.destroy first with
          | none => .ub
          | some b3 => .thrown f (b3, w2)

/-- The value of the object that default-initialisation (`new (p) T`) leaves
in slot `i`: the value the default constructor gives, or an indeterminate
value when `T` is trivially default constructible. -/
def ElemType.default_initialized {α : Type} (T : ElemType α) (i : Nat) : α :=
  if T.trivially_default_constructible then T.indeterminate i else T.default_value

/-- Call `std::uninitialized_default_construct_n(b + first, n)`: each object is
default-initialised.  For a trivially default constructible `T` this runs no
code, so it cannot throw. -/
def uninitialized_default_construct_n {α : Type} (T : ElemType α) :
    Block α → Nat → Nat → World α → Res (Block α × World α) Unit
  | b, _, 0, w => .ok () (b, w)
  | b, first, n + 1, w =>
    match (if T.trivially_default_constructible then some w else w.tick) with
    | none => .thrown .element_op (b, w)
    | some w1 =>
      match b.construct first (T.default_initialized first) with
      | none => .ub
      | some b1 =>
        match uninitialized_default_construct_n T b1 (first + 1) n w1 with
        | .ok r s => .ok r s
        | .ub => .ub
        | .thrown f (b2, w2) =>
          match b2.destroy first with
          | none => .ub
          | some b3 => .thrown f (b3, w2)

/-! ## `RawMemory<T>` -/

/-- Class `RawMemory<T>`: `buffer_` is `none` for `nullptr` and otherwise the
block it points to. -/
structure RawMemory (α : Type) where
  buffer_ : Option (Block α)
  capacity_ : Nat
  deriving DecidableEq, Repr

/-- Static `RawMemory::Allocate(n)`: `operator new(n * sizeof(T))` is called
only when `n != 0`; the block it returns has the size of the product as
computed in `size_t`. -/
def RawMemory.Allocate {α : Type} (T : ElemType α) (n : Nat) (w : World α) :
    Res (World α) (Option (Block α)) :=
  if n ≠ 0 then
    match w.new_call with
    | none => .thrown .bad_alloc w
    | some w1 => .ok (some (List.replicate (w.block_slots T n) none)) w1
  else .ok none w

/-- Static `RawMemory::Deallocate(buf)`: `operator delete(buf)`, which does
nothing on `nullptr`. -/
def RawMemory.Deallocate {α : Type} (buf : Option (Block α)) (w : World α) : World α :=
  match buf with
  | none => w
  | some b => { w with released := b :: w.released }

/-- Constructor `RawMemory()`. -/
def RawMemory.empty {α : Type} : RawMemory α := ⟨none, 0⟩

/-- Constructor `RawMemory(size_t capacity)`. -/
def RawMemory.create {α : Type} (T : ElemType α) (capacity : Nat) (w : World α) :
    Res (World α) (RawMemory α) :=
  match RawMemory.Allocate T capacity w with
  | .ok buf w1 => .ok ⟨buf, capacity⟩ w1
  | .thrown f w1 => .thrown f w1
  | .ub => .ub

/-- Destructor `~RawMemory()`. -/
def RawMemory.destructor {α : Type} (m : RawMemory α) (w : World α) : World α :=
  RawMemory.Deallocate m.buffer_ w

/-- Move constructor `RawMemory(RawMemory&& other)`: the new object and what
is left of `other`. -/
def RawMemory.move_construct {α : Type} (other : RawMemory α) :
    RawMemory α × RawMemory α :=
  (⟨other.buffer_, other.capacity_⟩, ⟨none, 0⟩)

/-- Move assignment `operator=(RawMemory&& rhs)` for `rhs` another object:
the assigned object, what is left of `rhs`, and the world. -/
def RawMemory.move_assign {α : Type} (self rhs : RawMemory α) (w : World α) :
    RawMemory α × RawMemory α × World α :=
  let w1 := RawMemory.Deallocate self.buffer_ w
  (⟨rhs.buffer_, rhs.capacity_⟩, ⟨none, 0⟩, w1)

/-- Move assignment `operator=(RawMemory&& rhs)` when `rhs` is the object
itself. -/
def RawMemory.move_assign_self {α : Type} (self : RawMemory α) (w : World α) :
    RawMemory α × World α :=
  let w1 := RawMemory.Deallocate self.buffer_ w
  (⟨none, 0⟩, w1)

/-- Member `RawMemory::Swap(other)`: the object and `other` afterwards. -/
def RawMemory.Swap {α : Type} (self other : RawMemory α) : RawMemory α × RawMemory α :=
  (⟨other.buffer_, other.capacity_⟩, ⟨self.buffer_, self.capacity_⟩)

/-- Member `RawMemory::Capacity()`. -/
def RawMemory.Capacity {α : Type} (m : RawMemory α) : Nat := m.capacity_

/-- The slots addressed through `GetAddress()`; `nullptr` addresses none. -/
def RawMemory.slots {α : Type} (m : RawMemory α) : Block α := m.buffer_.getD []

/-- The object after its block has been written through `GetAddress()`. -/
def RawMemory.store {α : Type} (m : RawMemory α) (b : Block α) : RawMemory α :=
  { m with buffer_ := m.buffer_.map (fun _ => b) }

/-- Member `operator[](index)`: the slot referred to, under
`assert(index < capacity_)`. -/
def RawMemory.index {α : Type} (m : RawMemory α) (index : Nat) : Option Nat :=
  if index < m.capacity_ then some index else none

/-- Call `std::swap(a, b)` on two distinct `RawMemory` objects: a temporary
is move-constructed from `a`, then two move assignments, then the temporary
is destroyed. -/
def RawMemory.std_swap {α : Type} (a b : RawMemory α) (w : World α) :
    RawMemory α × RawMemory α × World α :=
  let (tmp, a1) := RawMemory.move_construct a
  let (a2, b1, w1) := RawMemory.move_assign a1 b w
  let (b2, tmp1, w2) := RawMemory.move_assign b1 tmp w1
  (a2, b2, RawMemory.destructor tmp1 w2)

/-- Call `std::swap(a, a)` on one `RawMemory` object. -/
def RawMemory.std_swap_self {α : Type} (a : RawMemory α) (w : World α) :
    RawMemory α × World α :=
  let (tmp, a1) := RawMemory.move_construct a
  let (a2, w1) := RawMemory.move_assign_self a1 w
  let (a3, tmp1, w2) := RawMemory.move_assign a2 tmp w1
  (a3, RawMemory.destructor tmp1 w2)

/-! ## `Vector<T>`

Iterators and references are slot indices into the block of `data_`. -/

/-- Class `Vector<T>`. -/
structure Vector (α : Type) where
  data_ : RawMemory α
  size_ : Nat
  deriving DecidableEq, Repr

/-- What the argument of `Emplace(pos, args...)` or of
`Insert(pos, const T& value)` refers to: an object of value `value` outside
the vector, or the element in slot `j` of the vector itself. -/
inductive Arg (α : Type) where
  | object (value : α)
  | element (j : Nat)
  deriving DecidableEq, Repr

/-- The value that `T(std::forward<Args>(args)...)` copies when the slots of
the vector are `b`; `none` when the argument refers to a slot that holds no
object. -/
def Arg.read {α : Type} (arg : Arg α) (b : Block α) : Option α :=
  match arg with
  | .object value => some value
  | .element j => b.read j

namespace Vector

variable {α : Type}

/-- Constructor `Vector()`. -/
def empty : Vector α := ⟨RawMemory.empty, 0⟩

/-- Member `Size()`. -/
def Size (self : Vector α) : Nat := self.size_

/-- Member `Capacity()`. -/
def Capacity (self : Vector α) : Nat := self.data_.Capacity

/-- Member `operator[](index)`: the object referred to, under
`assert(index < size_)` and the assertion of `RawMemory::operator[]`. -/
def index (self : Vector α) (i : Nat) : Option α :=
  if i < self.size_ then
    match self.data_.index i with
    | none => none
    | some j => self.data_.slots.read j
  else none

/-- The values of the live range: the slots `[begin(), end())` read in
order; `none` when one of them holds no object. -/
def values (self : Vector α) : Option (List α) :=
  (List.range self.size_).mapM (fun i => self.data_.slots.read i)

/-- Constructor `Vector(size_t size)`.  When the element construction throws,
the member `data_` is destroyed. -/
def sized (T : ElemType α) (size : Nat) (w : World α) : Res (World α) (Vector α) :=
  match RawMemory.create T size w with
  | .thrown f w1 => .thrown f w1
  | .ub => .ub
  | .ok data w1 =>
    match uninitialized_value_construct_n T data.slots 0 size w1 with
    | .ok _ (b, w2) => .ok ⟨data.store b, size⟩ w2
    | .thrown f (b, w2) => .thrown f ((data.store b).destructor w2)
    | .ub => .ub

/-- Copy constructor `Vector(const Vector& other)`. -/
def copy_construct (T : ElemType α) (other : Vector α) (w : World α) :
    Res (World α) (Vector α) :=
  match RawMemory.create T other.size_ w with
  | .thrown f w1 => .thrown f w1
  | .ub => .ub
  | .ok data w1 =>
    match uninitialized_copy_n other.data_.slots 0 other.size_ data.slots 0 w1 with
    | .ok _ (b, w2) => .ok ⟨data.store b, other.size_⟩ w2
    | .thrown f (b, w2) => .thrown f ((data.store b).destructor w2)
    | .ub => .ub

/-- Move constructor `Vector(Vector&& other)`: the new object and what is
left of `other`. -/
def move_construct (other : Vector α) : Vector α × Vector α :=
  let (data, other_data) := RawMemory.move_construct other.data_
  (⟨data, other.size_⟩, ⟨other_data, 0⟩)

/-- Destructor `~Vector()`: `std::destroy_n` on the live range, then the
destructor of the member `data_`.  `none` stands for undefined behaviour. -/
def destructor (self : Vector α) (w : World α) : Option (World α) :=
  match destroy_n self.data_.slots 0 self.size_ with
  | none => none
  | some b => some ((self.data_.store b).destructor w)

/-- Private member `CopyAndSwap(new_data)`.  The state is the vector, the
argument `new_data` (passed by reference) and the world. -/
def CopyAndSwap (T : ElemType α) (self : Vector α) (new_data : RawMemory α)
    (w : World α) : Res (Vector α × RawMemory α × World α) Unit :=
  let transferred : Res (Block α × Block α × World α) Unit :=
    if T.nothrow_move_constructible || !T.copy_constructible then
      uninitialized_move_n T self.data_.slots 0 self.size_ new_data.slots 0 w
    else
      match uninitialized_copy_n self.data_.slots 0 self.size_ new_data.slots 0 w with
      | .ok r (dst, w1) => .ok r (self.data_.slots, dst, w1)
      | .thrown f (dst, w1) => .thrown f (self.data_.slots, dst, w1)
      | .ub => .ub
  match transferred with
  | .ub => .ub
  | .thrown f (src, dst, w1) =>
    .thrown f ({ self with data_ := self.data_.store src }, new_data.store dst, w1)
  | .ok _ (src, dst, w1) =>
    match destroy_n src 0 self.size_ with
    | none => .ub
    | some src1 =>
      let (data1, new_data1) := (self.data_.store src1).Swap (new_data.store dst)
      .ok () ({ self with data_ := data1 }, new_data1, w1)

/-- Member `Reserve(new_capacity)`. -/
def Reserve (T : ElemType α) (self : Vector α) (new_capacity : Nat) (w : World α) :
    Res (Vector α × World α) Unit :=
  if new_capacity ≤ self.Capacity then .ok () (self, w)
  else
    match RawMemory.create T new_capacity w with
    | .thrown f w1 => .thrown f (self, w1)
    | .ub => .ub
    | .ok new_data w1 =>
      match CopyAndSwap T self new_data w1 with
      | .ub => .ub
      | .thrown f (self1, new_data1, w2) => .thrown f (self1, new_data1.destructor w2)
      | .ok _ (self1, new_data1, w2) => .ok () (self1, new_data1.destructor w2)

/-- Member `Swap(other)` for `other` another object: `std::swap` on the two
`data_` members, then on the two sizes. -/
def Swap (self other : Vector α) (w : World α) : Vector α × Vector α × World α :=
  let (d1, d2, w1) := RawMemory.std_swap self.data_ other.data_ w
  (⟨d1, other.size_⟩, ⟨d2, self.size_⟩, w1)

/-- Member `Swap(other)` when `other` is the object itself. -/
def Swap_self (self : Vector α) (w : World α) : Vector α × World α :=
  let (d1, w1) := RawMemory.std_swap_self self.data_ w
  (⟨d1, self.size_⟩, w1)

/-- Copy assignment `operator=(const Vector& rhs)`; `rhs = none` stands for
`this == &rhs`.  The local `rhs_copy` of the first branch is destroyed on
return. -/
def copy_assign (T : ElemType α) (self : Vector α) (rhs : Option (Vector α))
    (w : World α) : Res (Vector α × World α) Unit :=
  match rhs with
  | none => .ok () (self, w)
  | some rhs =>
    if rhs.size_ > self.Capacity then
      match copy_construct T rhs w with
      | .ub => .ub
      | .thrown f w1 => .thrown f (self, w1)
      | .ok rhs_copy w1 =>
        match Swap self rhs_copy w1 with
        | (self1, rhs_copy1, w2) =>
          match rhs_copy1.destructor w2 with
          | none => .ub
          | some w3 => .ok () (self1, w3)
    else if rhs.size_ ≤ self.size_ then
      match copy_n rhs.data_.slots 0 rhs.size_ self.data_.slots 0 w with
      | .ub => .ub
      | .thrown f (b, w1) => .thrown f ({ self with data_ := self.data_.store b }, w1)
      | .ok it (b, w1) =>
        match destroy_n b it (self.size_ - rhs.size_) with
        | none => .ub
        | some b1 => .ok () (⟨self.data_.store b1, rhs.size_⟩, w1)
    else
      match copy_n rhs.data_.slots 0 self.size_ self.data_.slots 0 w with
      | .ub => .ub
      | .thrown f (b, w1) => .thrown f ({ self with data_ := self.data_.store b }, w1)
      | .ok it (b, w1) =>
        match uninitialized_copy_n rhs.data_.slots self.size_ (rhs.size_ - self.size_)
            b it w1 with
        | .ub => .ub
        | .thrown f (b1, w2) => .thrown f ({ self with data_ := self.data_.store b1 }, w2)
        | .ok _ (b1, w2) => .ok () (⟨self.data_.store b1, rhs.size_⟩, w2)

/-- Move assignment `operator=(Vector&& rhs)` for `rhs` another object: the
assigned object, what is left of `rhs`, and the world. -/
def move_assign (self rhs : Vector α) (w : World α) : Vector α × Vector α × World α :=
  let (d1, d2, w1) := RawMemory.move_assign self.data_ rhs.data_ w
  (⟨d1, rhs.size_⟩, ⟨d2, 0⟩, w1)

/-- Move assignment `operator=(Vector&& rhs)` when `rhs` is the object
itself. -/
def move_assign_self (self : Vector α) (w : World α) : Vector α × World α :=
  let (d1, w1) := RawMemory.move_assign_self self.data_ w
  (⟨d1, 0⟩, w1)

/-- Member `Resize(new_size)`. -/
def Resize (T : ElemType α) (self : Vector α) (new_size : Nat) (w : World α) :
    Res (Vector α × World α) Unit :=
  if new_size < self.size_ then
    match destroy_n self.data_.slots new_size (self.size_ - new_size) with
    | none => .ub
    | some b => .ok () (⟨self.data_.store b, new_size⟩, w)
  else
    match Reserve T self new_size w with
    | .ub => .ub
    | .thrown f s => .thrown f s
    | .ok _ (self1, w1) =>
      match uninitialized_default_construct_n T self1.data_.slots self1.size_
          (new_size - self1.size_) w1 with
      | .ub => .ub
      | .thrown f (b, w2) => .thrown f ({ self1 with data_ := self1.data_.store b }, w2)
      | .ok _ (b, w2) => .ok () (⟨self1.data_.store b, new_size⟩, w2)

/-- Member `PushBack(const T& value)`.  The argument is a single constructed
object, the one-slot block `[some value]`: it is copied into a raw slot
before any element of the vector is written, so the copy has the value of
the argument at the call also when the argument is an element of the
vector. -/
def PushBack (T : ElemType α) (self : Vector α) (value : α) (w : World α) :
    Res (Vector α × World α) Unit :=
  if self.size_ = self.Capacity then
    match RawMemory.create T (if self.size_ = 0 then 1 else self.Capacity * 2) w with
    | .ub => .ub
    | .thrown f w1 => .thrown f (self, w1)
    | .ok new_data w1 =>
      match uninitialized_copy_n [some value] 0 1 new_data.slots self.size_ w1 with
      | .ub => .ub
      | .thrown f (b, w2) => .thrown f (self, (new_data.store b).destructor w2)
      | .ok _ (b, w2) =>
        match CopyAndSwap T self (new_data.store b) w2 with
        | .ub => .ub
        | .thrown f (self1, new_data1, w3) => .thrown f (self1, new_data1.destructor w3)
        | .ok _ (self1, new_data1, w3) =>
          .ok () ({ self1 with size_ := self1.size_ + 1 }, new_data1.destructor w3)
  else
    match uninitialized_copy_n [some value] 0 1 self.data_.slots self.size_ w with
    | .ub => .ub
    | .thrown f (b, w1) => .thrown f ({ self with data_ := self.data_.store b }, w1)
    | .ok _ (b, w1) => .ok () (⟨self.data_.store b, self.size_ + 1⟩, w1)

/-- Member `PushBack(T&& value)`.  The rvalue reference is the only reference
to its object, which is therefore an object outside the vector; what the
move leaves in it is not part of the state. -/
def PushBack_move (T : ElemType α) (self : Vector α) (value : α) (w : World α) :
    Res (Vector α × World α) Unit :=
  if self.size_ = self.Capacity then
    match RawMemory.create T (if self.size_ = 0 then 1 else self.Capacity * 2) w with
    | .ub => .ub
    | .thrown f w1 => .thrown f (self, w1)
    | .ok new_data w1 =>
      match uninitialized_move_n T [some value] 0 1 new_data.slots self.size_ w1 with
      | .ub => .ub
      | .thrown f (_, b, w2) => .thrown f (self, (new_data.store b).destructor w2)
      | .ok _ (_, b, w2) =>
        match CopyAndSwap T self (new_data.store b) w2 with
        | .ub => .ub
        | .thrown f (self1, new_data1, w3) => .thrown f (self1, new_data1.destructor w3)
        | .ok _ (self1, new_data1, w3) =>
          .ok () ({ self1 with size_ := self1.size_ + 1 }, new_data1.destructor w3)
  else
    match uninitialized_move_n T [some value] 0 1 self.data_.slots self.size_ w with
    | .ub => .ub
    | .thrown f (_, b, w1) => .thrown f ({ self with data_ := self.data_.store b }, w1)
    | .ok _ (_, b, w1) => .ok () (⟨self.data_.store b, self.size_ + 1⟩, w1)

/-- Member `PopBack()`. -/
def PopBack (self : Vector α) (w : World α) : Res (Vector α × World α) Unit :=
  if self.size_ ≠ 0 then
    match destroy_n self.data_.slots (self.size_ - 1) 1 with
    | none => .ub
    | some b => .ok () (⟨self.data_.store b, self.size_ - 1⟩, w)
  else .ub

/-- Member `EmplaceBack(args...)`, `value` being the value of `T(args...)`;
that construction can throw, and it takes place before any element of the
vector is written.  Returns the slot referred to by the result. -/
def EmplaceBack (T : ElemType α) (self : Vector α) (value : α) (w : World α) :
    Res (Vector α × World α) Nat :=
  let constructed : Res (Vector α × World α) Unit :=
    if self.size_ = self.Capacity then
      match RawMemory.create T (if self.size_ = 0 then 1 else self.Capacity * 2) w with
      | .ub => .ub
      | .thrown f w1 => .thrown f (self, w1)
      | .ok new_data w1 =>
        match w1.tick with
        | none => .thrown .element_op (self, new_data.destructor w1)
        | some w2 =>
          match new_data.slots.construct self.size_ value with
          | none => .ub
          | some b =>
            match CopyAndSwap T self (new_data.store b) w2 with
            | .ub => .ub
            | .thrown f (self1, new_data1, w3) => .thrown f (self1, new_data1.destructor w3)
            | .ok _ (self1, new_data1, w3) => .ok () (self1, new_data1.destructor w3)
    else
      match w.tick with
      | none => .thrown .element_op (self, w)
      | some w1 =>
        match self.data_.slots.construct self.size_ value with
        | none => .ub
        | some b => .ok () ({ self with data_ := self.data_.store b }, w1)
  match constructed with
  | .ub => .ub
  | .thrown f s => .thrown f s
  | .ok _ (self1, w1) =>
    let self2 : Vector α := { self1 with size_ := self1.size_ + 1 }
    match self2.data_.index (self2.size_ - 1) with
    | none => .ub
    | some r => .ok r (self2, w1)

/-- Member `Emplace(pos, args...)`, `pos` being the slot index `pos - begin()`.
The construction `T(args...)` reads the argument where the code has it: on
the slots of the vector before any element is moved in the growth branch and
in the branch `num == size_`, and after the elements from `num` on have been
shifted in the branch `num != size_`; that construction can throw.  Returns
the slot index of the returned iterator. -/
def Emplace (T : ElemType α) (self : Vector α) (pos : Nat) (arg : Arg α) (w : World α) :
    Res (Vector α × World α) Nat :=
  if pos ≤ self.size_ then
    let num := pos
    let emplaced : Res (Vector α × World α) Unit :=
      if self.size_ = self.Capacity then
        match RawMemory.create T (if self.size_ = 0 then 1 else self.Capacity * 2) w with
        | .ub => .ub
        | .thrown f w1 => .thrown f (self, w1)
        | .ok new_data w1 =>
          match arg.read self.data_.slots with
          | none => .ub
          | some value =>
            match w1.tick with
            | none => .thrown .element_op (self, new_data.destructor w1)
            | some w2 =>
              match new_data.slots.construct num value with
              | none => .ub
              | some b0 =>
                let transferred : Res (Block α × Block α × World α) Unit :=
                  if T.nothrow_move_constructible || !T.copy_constructible then
                    match uninitialized_move_n T self.data_.slots 0 num b0 0 w2 with
                    | .ub => .ub
                    | .thrown f s => .thrown f s
                    | .ok _ (src, dst, w3) =>
                      uninitialized_move_n T src num (self.size_ - num) dst (num + 1) w3
                  else
                    match uninitialized_copy_n self.data_.slots 0 num b0 0 w2 with
                    | .ub => .ub
                    | .thrown f (dst, w3) => .thrown f (self.data_.slots, dst, w3)
                    | .ok _ (dst, w3) =>
                      match uninitialized_copy_n self.data_.slots num (self.size_ - num)
                          dst (num + 1) w3 with
                      | .ub => .ub
                      | .thrown f (dst1, w4) => .thrown f (self.data_.slots, dst1, w4)
                      | .ok r (dst1, w4) => .ok r (self.data_.slots, dst1, w4)
                match transferred with
                | .ub => .ub
                | .thrown f (src, dst, w3) =>
                  .thrown f ({ self with data_ := self.data_.store src },
                    (new_data.store dst).destructor w3)
                | .ok _ (src, dst, w3) =>
                  match destroy_n src 0 self.size_ with
                  | none => .ub
                  | some src1 =>
                    let (data1, new_data1) :=
                      (self.data_.store src1).Swap (new_data.store dst)
                    .ok () ({ self with data_ := data1 }, new_data1.destructor w3)
      else
        if num ≠ self.size_ then
          match uninitialized_move_n_within T self.data_.slots (self.size_ - 1) 1
              self.size_ w with
          | .ub => .ub
          | .thrown f (b, w1) => .thrown f ({ self with data_ := self.data_.store b }, w1)
          | .ok _ (b, w1) =>
            match move_backward T b num (self.size_ - 1) self.size_ w1 with
            | .ub => .ub
            | .thrown f (b1, w2) => .thrown f ({ self with data_ := self.data_.store b1 }, w2)
            | .ok _ (b1, w2) =>
              match arg.read b1 with
              | none => .ub
              | some value =>
                match w2.tick with
                | none => .thrown .element_op ({ self with data_ := self.data_.store b1 }, w2)
                | some w3 =>
                  match self.data_.index num with
                  | none => .ub
                  | some i =>
                    match w3.tick with
                    | none =>
                      .thrown .element_op ({ self with data_ := self.data_.store b1 }, w3)
                    | some w4 =>
                      match b1.assign i value with
                      | none => .ub
                      | some b2 => .ok () ({ self with data_ := self.data_.store b2 }, w4)
        else
          match arg.read self.data_.slots with
          | none => .ub
          | some value =>
            match w.tick with
            | none => .thrown .element_op (self, w)
            | some w1 =>
              match self.data_.slots.construct num value with
              | none => .ub
              | some b => .ok () ({ self with data_ := self.data_.store b }, w1)
    match emplaced with
    | .ub => .ub
    | .thrown f s => .thrown f s
    | .ok _ (self1, w1) => .ok num ({ self1 with size_ := self1.size_ + 1 }, w1)
  else .ub

/-- Member `Insert(pos, const T& value)`: `Emplace(pos, value)`, the reference
being forwarded as it is. -/
def Insert (T : ElemType α) (self : Vector α) (pos : Nat) (value : Arg α) (w : World α) :
    Res (Vector α × World α) Nat :=
  Emplace T self pos value w

/-- Member `Insert(pos, T&& value)`: `Emplace(pos, std::move(value))`.  The
rvalue reference is the only reference to its object, which is therefore an
object outside the vector. -/
def Insert_move (T : ElemType α) (self : Vector α) (pos : Nat) (value : α) (w : World α) :
    Res (Vector α × World α) Nat :=
  Emplace T self pos (.object value) w

/-- Member `Erase(pos)`, `pos` being the slot index `pos - begin()`.  Returns
the slot index of the returned iterator. -/
def Erase (T : ElemType α) (self : Vector α) (pos : Nat) (w : World α) :
    Res (Vector α × World α) Nat :=
  if pos < self.size_ then
    let num := pos
    match std_move T self.data_.slots (num + 1) self.size_ num w with
    | .ub => .ub
    | .thrown f (b, w1) => .thrown f ({ self with data_ := self.data_.store b }, w1)
    | .ok _ (b, w1) =>
      match destroy_n b (self.size_ - 1) 1 with
      | none => .ub
      | some b1 => .ok num (⟨self.data_.store b1, self.size_ - 1⟩, w1)
  else .ub

end Vector

/-- A sequence of `PushBack` calls, one per entry of `calls`; the flag of an
entry tells whether the call is `PushBack(T&&)` or `PushBack(const T&)`. -/
def Vector.push_all {α : Type} (T : ElemType α) :
    List (Bool × α) → Vector α → World α → Res (Vector α × World α) Unit
  | [], self, w => .ok () (self, w)
  | (by_move, value) :: calls, self, w =>
    match (if by_move then Vector.PushBack_move T self value w
           else Vector.PushBack T self value w) with
    | .ub => .ub
    | .thrown f s => .thrown f s
    | .ok _ (self1, w1) => Vector.push_all T calls self1 w1

/-! ## Representation -/

/-- The vector `v` is at rest and holds the value sequence `xs`: its size is
the length of `xs`, its buffer is null exactly when its capacity is 0, the
slots `[0, size)` hold the values of `xs` in order and the slots
`[size, capacity)` are raw. -/
def Holds {α : Type} (v : Vector α) (xs : List α) : Prop :=
  v.size_ = xs.length ∧ xs.length ≤ v.data_.capacity_ ∧
    v.data_.buffer_ =
      (if v.data_.capacity_ = 0 then none
       else some (xs.map some ++ List.replicate (v.data_.capacity_ - xs.length) none))

instance {α : Type} [DecidableEq α] (v : Vector α) (xs : List α) : Decidable (Holds v xs) := by
  unfold Holds; infer_instance

/-- The vector `v` is at rest: it holds some sequence of values. -/
def AtRest {α : Type} (v : Vector α) : Prop := ∃ xs, Holds v xs

/-- The vector at rest that holds the values `xs` in a buffer of capacity
`cap`. -/
def Vector.of_values {α : Type} (xs : List α) (cap : Nat) : Vector α :=
  ⟨⟨if cap = 0 then none
     else some (xs.map some ++ List.replicate (cap - xs.length) none), cap⟩, xs.length⟩

/-- The slots that hold a constructed element are exactly those of the live
range `[0, Size())`. -/
def Vector.live_range_exact {α : Type} (v : Vector α) : Prop :=
  ∀ i, i < v.data_.slots.length → ((v.data_.slots.read i).isSome ↔ i < v.size_)

instance {α : Type} (v : Vector α) : Decidable v.live_range_exact := by
  unfold Vector.live_range_exact; infer_instance

/-- An element type for `int`: moving an `int` copies it, `int()` is 0,
default-initialisation leaves the value indeterminate (here the value found
in slot `i` is `-1 - i`), and `sizeof(int)` is 4. -/
def intType : ElemType Int where
  nothrow_move_constructible := true
  copy_constructible := true
  moved_from := id
  default_value := 0
  trivially_default_constructible := true
  indeterminate := fun i => -1 - (i : Int)
  size_of := 4

/-- An element type with copy operations that can throw and no move
operations of its own: it is copy constructible, not nothrow move
constructible, and a move is a copy, which leaves its source as it was.  Its
default constructor gives the value 0, and its size is 8. -/
def copyOnlyType : ElemType Int where
  nothrow_move_constructible := false
  copy_constructible := true
  moved_from := id
  default_value := 0
  trivially_default_constructible := false
  indeterminate := fun _ => 0
  size_of := 8

/-- An element type that cannot be copied and whose move constructor can
throw; a moved-from object holds 0.  Its default constructor gives the value
0, and its size is 8. -/
def moveOnlyType : ElemType Int where
  nothrow_move_constructible := false
  copy_constructible := false
  moved_from := fun _ => 0
  default_value := 0
  trivially_default_constructible := false
  indeterminate := fun _ => 0
  size_of := 8

/-- An element type in the manner of `std::shared_ptr`: copy constructible,
nothrow move constructible, and a moved-from object holds 0. -/
def handleType : ElemType Int where
  nothrow_move_constructible := true
  copy_constructible := true
  moved_from := fun _ => 0
  default_value := 0
  trivially_default_constructible := false
  indeterminate := fun _ => 0
  size_of := 16

/-! ## Slot lemmas -/

theorem getElem?_mid {β : Type} (A : List β) (x : β) (B : List β) :
    (A ++ x :: B)[A.length]? = some x := by
  induction A with
  | nil => simp
  | cons a A ih => simpa using ih

theorem set_mid {β : Type} (A : List β) (x y : β) (B : List β) :
    (A ++ x :: B).set A.length y = A ++ y :: B := by
  induction A with
  | nil => rfl
  | cons a A ih => simp [ih]

theorem Block.read_mid {α : Type} (A : Block α) (x : α) (B : Block α) (i : Nat)
    (hi : i = A.length) : Block.read (A ++ some x :: B) i = some x := by
  subst hi; unfold Block.read; rw [getElem?_mid]

theorem Block.construct_mid {α : Type} (A : Block α) (x : α) (B : Block α) (i : Nat)
    (hi : i = A.length) :
    Block.construct (A ++ none :: B) i x = some (A ++ some x :: B) := by
  subst hi; unfold Block.construct; rw [getElem?_mid, set_mid]

theorem Block.destroy_mid {α : Type} (A : Block α) (x : α) (B : Block α) (i : Nat)
    (hi : i = A.length) :
    Block.destroy (A ++ some x :: B) i = some (A ++ none :: B) := by
  subst hi; unfold Block.destroy; rw [getElem?_mid, set_mid]

theorem Block.assign_mid {α : Type} (A : Block α) (x y : α) (B : Block α) (i : Nat)
    (hi : i = A.length) :
    Block.assign (A ++ some x :: B) i y = some (A ++ some y :: B) := by
  subst hi; unfold Block.assign; rw [getElem?_mid, set_mid]

theorem World.tick_of_none {α : Type} (w : World α) (h : w.ops_left = none) :
    w.tick = some w := by
  simp [World.tick, h]

theorem World.move_tick_ok {α : Type} (T : ElemType α) (w : World α)
    (h : T.nothrow_move_constructible = true ∨ w.ops_left = none) :
    w.move_tick T = some w := by
  unfold World.move_tick
  rcases h with h | h
  · simp [h]
  · simp [World.tick_of_none w h]

/-! ## Effect of the algorithms -/

theorem destroy_n_mid {α : Type} (ys : List α) :
    ∀ (A B : Block α) (first : Nat), first = A.length →
      destroy_n (A ++ (ys.map some ++ B)) first ys.length =
        some (A ++ (List.replicate ys.length none ++ B)) := by
  induction ys with
  | nil => intro A B first _; simp [destroy_n]
  | cons y ys ih =>
    intro A B first hf
    have h2 := ih (A ++ [none]) B (first + 1) (by simp [hf])
    simp only [List.map_cons, List.cons_append, List.length_cons, destroy_n,
      Block.destroy_mid A y _ first hf]
    simpa [List.replicate_succ] using h2

theorem uninitialized_copy_n_eq {α : Type} (src : Block α) (ys : List α) :
    ∀ (A B C D : Block α) (first d : Nat) (w : World α),
      first = A.length → d = C.length → src = A ++ (ys.map some ++ B) →
      uninitialized_copy_n src first ys.length
          (C ++ (List.replicate ys.length none ++ D)) d w =
        if w.affords ys.length then .ok () (C ++ (ys.map some ++ D), w.spend ys.length)
        else .thrown .element_op (C ++ (List.replicate ys.length none ++ D), w.exhaust) := by
  induction ys with
  | nil =>
    intro A B C D first d w _ _ _
    rcases w with ⟨_ | k, al, rel, sm⟩ <;>
      simp [uninitialized_copy_n, World.affords, World.spend]
  | cons y ys ih =>
    intro A B C D first d w hf hd hs
    have hr : src.read first = some y := by
      rw [hs]; exact Block.read_mid A y _ first hf
    have h2 := fun w1 => ih (A ++ [some y]) B (C ++ [some y]) D (first + 1) (d + 1) w1
      (by simp [hf]) (by simp [hd]) (by simp [hs])
    simp only [List.append_assoc, List.singleton_append] at h2
    simp only [List.length_cons, List.replicate_succ, List.cons_append,
      uninitialized_copy_n, hr]
    rcases w with ⟨_ | _ | k, al, rel, sm⟩
    · simp [World.tick, Block.construct_mid C y _ d hd, h2, World.affords, World.spend]
    · simp [World.tick, World.affords, World.exhaust]
    · simp only [World.tick, Block.construct_mid C y _ d hd, h2]
      by_cases hk : ys.length ≤ k
      · simp [World.affords, World.spend, hk]
      · simp [World.affords, World.exhaust, hk, Block.destroy_mid C y _ d hd]

theorem uninitialized_move_n_ok {α : Type} (T : ElemType α) (ys : List α) :
    ∀ (A B C D : Block α) (first d : Nat) (w : World α),
      first = A.length → d = C.length →
      (T.nothrow_move_constructible = true ∨ w.ops_left = none) →
      uninitialized_move_n T (A ++ (ys.map some ++ B)) first ys.length
          (C ++ (List.replicate ys.length none ++ D)) d w =
        .ok () (A ++ ((ys.map T.moved_from).map some ++ B), C ++ (ys.map some ++ D), w) := by
  induction ys with
  | nil => intro A B C D first d w _ _ _; simp [uninitialized_move_n]
  | cons y ys ih =>
    intro A B C D first d w hf hd hm
    have h2 := ih (A ++ [some (T.moved_from y)]) B (C ++ [some y]) D (first + 1) (d + 1) w
      (by simp [hf]) (by simp [hd]) hm
    simp only [List.append_assoc, List.singleton_append] at h2
    simp only [List.length_cons, List.replicate_succ, List.cons_append, List.map_cons,
      uninitialized_move_n, Block.read_mid A y _ first hf, World.move_tick_ok T w hm,
      Block.construct_mid C y _ d hd, Block.assign_mid A y _ _ first hf, h2]

theorem uninitialized_move_n_within_one {α : Type} (T : ElemType α) (A B : Block α)
    (y : α) (first d : Nat) (w : World α) (hf : first = A.length) (hd : d = A.length + 1)
    (hm : T.nothrow_move_constructible = true ∨ w.ops_left = none) :
    uninitialized_move_n_within T (A ++ some y :: none :: B) first 1 d w =
      .ok () (A ++ some (T.moved_from y) :: some y :: B, w) := by
  have hc := Block.construct_mid (A ++ [some y]) y B d (by simp [hd])
  simp only [List.append_assoc, List.singleton_append] at hc
  simp only [uninitialized_move_n_within, Block.read_mid A y _ first hf,
    World.move_tick_ok T w hm, hc, Block.assign_mid A y _ _ first hf]

/-- Moving the range `ys` one slot to the right, onto the slot that held `z`:
the first slot of the range is left with the moved-from first element (with
`z` itself when the range is empty). -/
theorem move_backward_loop_ok {α : Type} (T : ElemType α) (ys : List α) :
    ∀ (A B : Block α) (z : α) (first d_last : Nat) (w : World α),
      first = A.length → d_last = A.length + ys.length + 1 → w.ops_left = none →
      move_backward_loop T first ys.length (A ++ (ys.map some ++ some z :: B)) d_last w =
        .ok () (A ++ some ((ys.head?.map T.moved_from).getD z) :: (ys.map some ++ B), w) := by
  induction ys using List.reverseRecOn with
  | nil => intro A B z first d_last w _ _ _; simp [move_backward_loop]
  | append_singleton ys y ih =>
    intro A B z first d_last w hf hd hw
    have h2 := ih A (some y :: B) (T.moved_from y) first (d_last - 1) w hf
      (by simp at hd; omega) hw
    obtain ⟨d, rfl⟩ : ∃ d, d_last = d + 1 := ⟨d_last - 1, by simp at hd; omega⟩
    have hd2 : d = (A ++ List.map some ys ++ [some y]).length := by
      simp at hd ⊢; omega
    have hf2 : first + ys.length = (A ++ List.map some ys).length := by simp [hf]
    have hr := Block.read_mid (A ++ List.map some ys) y (some z :: B) _ hf2
    have ha := Block.assign_mid (A ++ List.map some ys ++ [some y]) z y B d hd2
    have hb := Block.assign_mid (A ++ List.map some ys) y (T.moved_from y) (some y :: B) _ hf2
    simp only [List.append_assoc, List.singleton_append, List.cons_append,
      List.nil_append] at hr ha hb
    simp only [List.length_append, List.length_singleton, List.map_append, List.map_cons,
      List.map_nil, List.append_assoc, List.singleton_append, List.cons_append,
      List.nil_append, move_backward_loop, hr, World.tick_of_none w hw, ha, hb]
    simp only [Nat.add_sub_cancel] at h2
    rw [h2]
    cases ys <;> simp

/-- Moving the range `ys` one slot to the left, onto the slot that held `z`:
the last slot of the range is left with the moved-from last element (with
`z` itself when the range is empty). -/
theorem std_move_loop_ok {α : Type} (T : ElemType α) (ys : List α) :
    ∀ (A B : Block α) (z : α) (first d_first : Nat) (w : World α),
      first = A.length + 1 → d_first = A.length → w.ops_left = none →
      std_move_loop T ys.length (A ++ some z :: (ys.map some ++ B)) first d_first w =
        .ok () (A ++ (ys.map some ++ some ((ys.getLast?.map T.moved_from).getD z) :: B), w) := by
  induction ys with
  | nil => intro A B z first d_first w _ _ _; simp [std_move_loop]
  | cons y ys ih =>
    intro A B z first d_first w hf hd hw
    have h2 := ih (A ++ [some y]) B (T.moved_from y) (first + 1) (d_first + 1) w
      (by simp [hf]) (by simp [hd]) hw
    have hf2 : first = (A ++ [some z]).length := by simp [hf]
    have hf3 : first = (A ++ [some y]).length := by simp [hf]
    have hr := Block.read_mid (A ++ [some z]) y (ys.map some ++ B) first hf2
    have ha := Block.assign_mid A z y (some y :: (ys.map some ++ B)) d_first hd
    have hb := Block.assign_mid (A ++ [some y]) y (T.moved_from y) (ys.map some ++ B) first hf3
    simp only [List.append_assoc, List.singleton_append, List.cons_append,
      List.nil_append] at hr ha hb h2
    simp only [List.length_cons, List.map_cons, List.cons_append, std_move_loop, hr,
      World.tick_of_none w hw, ha, hb, h2]
    cases ys with
    | nil => simp
    | cons a t =>
      obtain ⟨u, hu⟩ : ∃ u, (a :: t).getLast? = some u :=
        ⟨_, List.getLast?_eq_getLast (a :: t) (by simp)⟩
      simp [List.getLast?_cons_cons, hu]

/-! ## Vectors at rest -/

theorem Holds_iff {α : Type} (v : Vector α) (xs : List α) :
    Holds v xs ↔ xs.length ≤ v.Capacity ∧ v = Vector.of_values xs v.Capacity := by
  rcases v with ⟨⟨buf, cap⟩, size⟩
  simp only [Holds, Vector.of_values, Vector.Capacity, RawMemory.Capacity, Vector.mk.injEq,
    RawMemory.mk.injEq, and_true]
  constructor
  · rintro ⟨h1, h2, h3⟩; exact ⟨h2, h3, h1⟩
  · rintro ⟨h2, h3, h1⟩; exact ⟨h1, h2, h3⟩

theorem Holds_of_values {α : Type} (xs : List α) (cap : Nat) (h : xs.length ≤ cap) :
    Holds (Vector.of_values xs cap) xs := by
  simp [Holds, Vector.of_values, h]

theorem slots_of_values {α : Type} (xs : List α) (cap : Nat) (h : xs.length ≤ cap) :
    (Vector.of_values xs cap).data_.slots =
      xs.map some ++ List.replicate (cap - xs.length) none := by
  unfold Vector.of_values RawMemory.slots
  by_cases hc : cap = 0
  · subst hc
    have : xs = [] := List.length_eq_zero.mp (Nat.le_zero.mp h)
    subst this; simp
  · simp [hc]

theorem store_of_values {α : Type} (xs : List α) (cap : Nat) (b : Block α) :
    (Vector.of_values xs cap).data_.store b = ⟨if cap = 0 then none else some b, cap⟩ := by
  unfold Vector.of_values RawMemory.store
  by_cases hc : cap = 0 <;> simp [hc]

theorem World.spend_of_none {α : Type} (w : World α) (n : Nat) (h : w.ops_left = none) :
    w.spend n = w := by
  rcases w with ⟨ops, al, rel, sm⟩
  simp only at h; subst h; rfl

theorem World.affords_of_none {α : Type} (w : World α) (n : Nat) (h : w.ops_left = none) :
    w.affords n = true := by
  simp [World.affords, h]

/-- The transfer of `CopyAndSwap` when no element operation throws: the new
buffer receives the values, the object passed as `new_data` is left with the
old buffer, every slot of which has been destroyed. -/
theorem CopyAndSwap_ok {α : Type} (T : ElemType α) (xs : List α) (cap n : Nat)
    (D : Block α) (w : World α) (h : xs.length ≤ cap) (hw : w.ops_left = none) :
    Vector.CopyAndSwap T (Vector.of_values xs cap)
        ⟨some (List.replicate xs.length none ++ D), n⟩ w =
      .ok () (⟨⟨some (xs.map some ++ D), n⟩, xs.length⟩,
        ⟨if cap = 0 then none else some (List.replicate cap none), cap⟩, w) := by
  have hm := uninitialized_move_n_ok T xs [] (List.replicate (cap - xs.length) none) [] D 0 0 w
    rfl rfl (Or.inr hw)
  have hc := uninitialized_copy_n_eq (xs.map some ++ List.replicate (cap - xs.length) none)
    xs [] (List.replicate (cap - xs.length) none) [] D 0 0 w rfl rfl rfl
  have hd := destroy_n_mid (xs.map T.moved_from) [] (List.replicate (cap - xs.length) none) 0 rfl
  have hd2 := destroy_n_mid xs [] (List.replicate (cap - xs.length) none) 0 rfl
  have hrep : List.replicate xs.length (none : Option α) ++
      List.replicate (cap - xs.length) none = List.replicate cap none := by
    rw [← List.replicate_add]; congr 1; omega
  simp only [List.nil_append, List.length_map, World.affords_of_none w _ hw,
    World.spend_of_none w _ hw, if_true] at hm hc hd hd2
  unfold Vector.CopyAndSwap
  simp only [slots_of_values xs cap h, store_of_values]
  have hsz : (Vector.of_values xs cap).size_ = xs.length := rfl
  by_cases hT : (T.nothrow_move_constructible || !T.copy_constructible) = true
  · simp only [hT, if_true, hsz, RawMemory.slots, Option.getD_some, hm, hd, hrep]
    simp [RawMemory.store, RawMemory.Swap, Vector.of_values]
  · simp only [hT, hsz, RawMemory.slots, Option.getD_some, hc, hd2, hrep]
    simp [RawMemory.store, RawMemory.Swap, Vector.of_values, hd2, hrep]

theorem replicate_split {β : Type} (a : β) (k n : Nat) (h : k ≤ n) :
    List.replicate n a = List.replicate k a ++ List.replicate (n - k) a := by
  rw [← List.replicate_add]; congr 1; omega

theorem replicate_split_succ {β : Type} (a : β) (k n : Nat) (h : k < n) :
    List.replicate n a = List.replicate k a ++ a :: List.replicate (n - k - 1) a := by
  rw [← List.replicate_succ, ← List.replicate_add]; congr 1; omega

theorem World.new_call_of_none {α : Type} (w : World α) (h : w.allocs_left = none) :
    w.new_call = some w := by
  simp [World.new_call, h]

theorem World.fits_of_fault_free {α : Type} (w : World α) (hw : w.fault_free)
    (T : ElemType α) (n : Nat) : w.fits T n := by
  simp [World.fits, hw.2.2]

theorem World.block_slots_of_fits {α : Type} (w : World α) (T : ElemType α) (n : Nat)
    (h : w.fits T n) : w.block_slots T n = n := by
  unfold World.fits at h
  unfold World.block_slots
  cases hs : w.size_max with
  | none => rfl
  | some M =>
    rw [hs] at h
    show n * T.size_of % (M + 1) / T.size_of = n
    rw [Nat.mod_eq_of_lt (by omega), Nat.mul_div_cancel _ h.1]

theorem World.ops_left_destructor {α : Type} (m : RawMemory α) (w : World α) :
    (m.destructor w).ops_left = w.ops_left := by
  rcases m with ⟨_ | b, c⟩ <;> rfl

theorem World.allocs_left_destructor {α : Type} (m : RawMemory α) (w : World α) :
    (m.destructor w).allocs_left = w.allocs_left := by
  rcases m with ⟨_ | b, c⟩ <;> rfl

theorem create_ok {α : Type} (T : ElemType α) (n : Nat) (w : World α) (hn : n ≠ 0)
    (h : w.allocs_left = none) (hfit : w.fits T n) :
    RawMemory.create T n w = .ok ⟨some (List.replicate n none), n⟩ w := by
  simp [RawMemory.create, RawMemory.Allocate, hn, World.new_call_of_none w h,
    World.block_slots_of_fits w T n hfit]

/-- `Reserve` when nothing throws: a no-op for `c ≤ cap`; otherwise the
values move to a buffer of capacity `c` and the old buffer is released with
all of its slots destroyed. -/
theorem Reserve_ok {α : Type} (T : ElemType α) (xs : List α) (cap c : Nat) (w : World α)
    (h : xs.length ≤ cap) (hops : w.ops_left = none) (hal : w.allocs_left = none)
    (hfit : c ≤ cap ∨ w.fits T c) :
    Vector.Reserve T (Vector.of_values xs cap) c w =
      if c ≤ cap then .ok () (Vector.of_values xs cap, w)
      else .ok () (Vector.of_values xs c,
        RawMemory.destructor ⟨if cap = 0 then none else some (List.replicate cap none), cap⟩ w) := by
  unfold Vector.Reserve
  have hcap : (Vector.of_values xs cap).Capacity = cap := rfl
  rw [hcap]
  by_cases hc : c ≤ cap
  · simp [hc]
  · have hc0 : c ≠ 0 := by omega
    have hfit2 : w.fits T c := hfit.resolve_left hc
    have hcs := CopyAndSwap_ok T xs cap c (List.replicate (c - xs.length) none) w h hops
    rw [← replicate_split none xs.length c (by omega)] at hcs
    simp only [hc, if_false, create_ok T c w hc0 hal hfit2, hcs]
    simp [Vector.of_values, hc0]

theorem PushBack_ok {α : Type} (T : ElemType α) (xs : List α) (cap : Nat) (value : α)
    (w : World α) (h : xs.length ≤ cap) (hops : w.ops_left = none) (hal : w.allocs_left = none)
    (hfit : xs.length = cap → w.fits T (if xs.length = 0 then 1 else cap * 2)) :
    Vector.PushBack T (Vector.of_values xs cap) value w =
      if xs.length = cap then
        .ok () (Vector.of_values (xs ++ [value]) (if xs.length = 0 then 1 else cap * 2),
          RawMemory.destructor
            ⟨if cap = 0 then none else some (List.replicate cap none), cap⟩ w)
      else .ok () (Vector.of_values (xs ++ [value]) cap, w) := by
  unfold Vector.PushBack
  have hcap : (Vector.of_values xs cap).Capacity = cap := rfl
  have hsz : (Vector.of_values xs cap).size_ = xs.length := rfl
  rw [hcap, hsz]
  by_cases hc : xs.length = cap
  · subst hc
    generalize hn : (if xs.length = 0 then 1 else xs.length * 2) = n
    have hn1 : xs.length < n := by
      rw [← hn]; split <;> omega
    have hn0 : n ≠ 0 := by omega
    have hfit2 : w.fits T n := by rw [← hn]; exact hfit rfl
    have hcp := uninitialized_copy_n_eq [some value] [value] [] []
      (List.replicate xs.length none) (List.replicate (n - xs.length - 1) none)
      0 xs.length w rfl (by simp) rfl
    have hcs := CopyAndSwap_ok T xs xs.length n
      (some value :: List.replicate (n - xs.length - 1) none) w h hops
    simp only [List.length_singleton, List.replicate_one, List.singleton_append,
      List.map_cons, List.map_nil, World.affords_of_none w _ hops,
      World.spend_of_none w _ hops, if_true,
      ← replicate_split_succ none xs.length n hn1] at hcp
    simp only [if_true, create_ok T n w hn0 hal hfit2, RawMemory.slots, Option.getD_some, hcp,
      RawMemory.store, Option.map_some', hcs]
    simp only [Vector.of_values, hn0, if_false]
    simp
    omega
  · have hlt : xs.length < cap := by omega
    have hc0 : cap ≠ 0 := by omega
    have hcp := uninitialized_copy_n_eq [some value] [value] [] []
      (xs.map some) (List.replicate (cap - xs.length - 1) none)
      0 xs.length w rfl (by simp) rfl
    simp only [List.length_singleton, List.replicate_one, List.singleton_append,
      List.map_cons, List.map_nil, World.affords_of_none w _ hops,
      World.spend_of_none w _ hops, if_true] at hcp
    simp only [hc, if_false, slots_of_values xs cap h, store_of_values,
      replicate_split_succ none 0 (cap - xs.length) (by omega), List.replicate_zero,
      List.nil_append, Nat.sub_zero, hcp]
    simp [Vector.of_values, hc0]
    omega

theorem PushBack_move_ok {α : Type} (T : ElemType α) (xs : List α) (cap : Nat) (value : α)
    (w : World α) (h : xs.length ≤ cap) (hops : w.ops_left = none) (hal : w.allocs_left = none)
    (hfit : xs.length = cap → w.fits T (if xs.length = 0 then 1 else cap * 2)) :
    Vector.PushBack_move T (Vector.of_values xs cap) value w =
      if xs.length = cap then
        .ok () (Vector.of_values (xs ++ [value]) (if xs.length = 0 then 1 else cap * 2),
          RawMemory.destructor
            ⟨if cap = 0 then none else some (List.replicate cap none), cap⟩ w)
      else .ok () (Vector.of_values (xs ++ [value]) cap, w) := by
  unfold Vector.PushBack_move
  have hcap : (Vector.of_values xs cap).Capacity = cap := rfl
  have hsz : (Vector.of_values xs cap).size_ = xs.length := rfl
  rw [hcap, hsz]
  by_cases hc : xs.length = cap
  · subst hc
    generalize hn : (if xs.length = 0 then 1 else xs.length * 2) = n
    have hn1 : xs.length < n := by
      rw [← hn]; split <;> omega
    have hn0 : n ≠ 0 := by omega
    have hfit2 : w.fits T n := by rw [← hn]; exact hfit rfl
    have hcp := uninitialized_move_n_ok T [value] [] []
      (List.replicate xs.length none) (List.replicate (n - xs.length - 1) none)
      0 xs.length w rfl (by simp) (Or.inr hops)
    have hcs := CopyAndSwap_ok T xs xs.length n
      (some value :: List.replicate (n - xs.length - 1) none) w h hops
    simp only [List.length_singleton, List.replicate_one, List.singleton_append,
      List.map_cons, List.map_nil, List.nil_append, List.append_nil,
      ← replicate_split_succ none xs.length n hn1] at hcp
    simp only [if_true, create_ok T n w hn0 hal hfit2, RawMemory.slots, Option.getD_some, hcp,
      RawMemory.store, Option.map_some', hcs]
    simp only [Vector.of_values, hn0, if_false]
    simp
    omega
  · have hlt : xs.length < cap := by omega
    have hc0 : cap ≠ 0 := by omega
    have hcp := uninitialized_move_n_ok T [value] [] []
      (xs.map some) (List.replicate (cap - xs.length - 1) none)
      0 xs.length w rfl (by simp) (Or.inr hops)
    simp only [List.length_singleton, List.replicate_one, List.singleton_append,
      List.map_cons, List.map_nil, List.nil_append, List.append_nil] at hcp
    simp only [hc, if_false, slots_of_values xs cap h, store_of_values,
      replicate_split_succ none 0 (cap - xs.length) (by omega), List.replicate_zero,
      List.nil_append, Nat.sub_zero, hcp]
    simp [Vector.of_values, hc0]
    omega

theorem EmplaceBack_ok {α : Type} (T : ElemType α) (xs : List α) (cap : Nat) (value : α)
    (w : World α) (h : xs.length ≤ cap) (hops : w.ops_left = none) (hal : w.allocs_left = none)
    (hfit : xs.length = cap → w.fits T (if xs.length = 0 then 1 else cap * 2)) :
    Vector.EmplaceBack T (Vector.of_values xs cap) value w =
      if xs.length = cap then
        .ok xs.length
          (Vector.of_values (xs ++ [value]) (if xs.length = 0 then 1 else cap * 2),
          RawMemory.destructor
            ⟨if cap = 0 then none else some (List.replicate cap none), cap⟩ w)
      else .ok xs.length (Vector.of_values (xs ++ [value]) cap, w) := by
  unfold Vector.EmplaceBack
  have hcap : (Vector.of_values xs cap).Capacity = cap := rfl
  have hsz : (Vector.of_values xs cap).size_ = xs.length := rfl
  rw [hcap, hsz]
  by_cases hc : xs.length = cap
  · subst hc
    generalize hn : (if xs.length = 0 then 1 else xs.length * 2) = n
    have hn1 : xs.length < n := by
      rw [← hn]; split <;> omega
    have hn0 : n ≠ 0 := by omega
    have hfit2 : w.fits T n := by rw [← hn]; exact hfit rfl
    have hcp := Block.construct_mid (List.replicate xs.length none) value
      (List.replicate (n - xs.length - 1) none) xs.length (by simp)
    have hcs := CopyAndSwap_ok T xs xs.length n
      (some value :: List.replicate (n - xs.length - 1) none) w h hops
    rw [← replicate_split_succ none xs.length n hn1] at hcp
    simp only [if_true, create_ok T n w hn0 hal hfit2, RawMemory.slots, Option.getD_some, hcp,
      RawMemory.store, Option.map_some', hcs, World.tick_of_none w hops]
    simp [RawMemory.index, hn1, Vector.of_values, hn0]
    omega
  · have hlt : xs.length < cap := by omega
    have hc0 : cap ≠ 0 := by omega
    have hcp := Block.construct_mid (xs.map some) value
      (List.replicate (cap - xs.length - 1) none) xs.length (by simp)
    simp only [hc, if_false, slots_of_values xs cap h, store_of_values,
      replicate_split_succ none 0 (cap - xs.length) (by omega), List.replicate_zero,
      List.nil_append, Nat.sub_zero, hcp, World.tick_of_none w hops]
    simp [RawMemory.index, hlt, Vector.of_values, hc0]
    omega

/-! The same effects, for blocks given up to equality. -/

theorem uninitialized_move_n_ok' {α : Type} (T : ElemType α) (ys : List α)
    (A B C D src1 dst1 : Block α) {src dst : Block α} {first n d : Nat} {w : World α}
    (hsrc : src = A ++ (ys.map some ++ B))
    (hdst : dst = C ++ (List.replicate ys.length none ++ D))
    (hn : n = ys.length) (hf : first = A.length) (hd : d = C.length)
    (hm : T.nothrow_move_constructible = true ∨ w.ops_left = none)
    (hsrc1 : src1 = A ++ ((ys.map T.moved_from).map some ++ B))
    (hdst1 : dst1 = C ++ (ys.map some ++ D)) :
    uninitialized_move_n T src first n dst d w = .ok () (src1, dst1, w) := by
  subst hsrc hdst hn hsrc1 hdst1
  exact uninitialized_move_n_ok T ys A B C D first d w hf hd hm

theorem uninitialized_copy_n_ok' {α : Type} (ys : List α)
    (A B C D dst1 : Block α) {src dst : Block α} {first n d : Nat} {w : World α}
    (hsrc : src = A ++ (ys.map some ++ B))
    (hdst : dst = C ++ (List.replicate ys.length none ++ D))
    (hn : n = ys.length) (hf : first = A.length) (hd : d = C.length)
    (hw : w.ops_left = none)
    (hdst1 : dst1 = C ++ (ys.map some ++ D)) :
    uninitialized_copy_n src first n dst d w = .ok () (dst1, w) := by
  subst hdst hn hdst1
  rw [uninitialized_copy_n_eq src ys A B C D first d w hf hd hsrc]
  simp [World.affords_of_none w _ hw, World.spend_of_none w _ hw]

theorem destroy_n_ok' {α : Type} (ys : List α) (A B b1 : Block α) {b : Block α}
    {first n : Nat} (hb : b = A ++ (ys.map some ++ B)) (hn : n = ys.length)
    (hf : first = A.length) (hb1 : b1 = A ++ (List.replicate ys.length none ++ B)) :
    destroy_n b first n = some b1 := by
  subst hb hn hb1
  exact destroy_n_mid ys A B first hf

/-- `Emplace` when nothing throws, for an argument that has the value `value`
at the call and is not an element of the vector when the elements are
shifted in place. -/
theorem Emplace_ok {α : Type} (T : ElemType α) (pre post : List α) (cap : Nat)
    (arg : Arg α) (value : α)
    (w : World α) (h : (pre ++ post).length ≤ cap) (hops : w.ops_left = none)
    (hal : w.allocs_left = none)
    (hfit : (pre ++ post).length = cap →
      w.fits T (if (pre ++ post).length = 0 then 1 else cap * 2))
    (harg : arg.read (List.map some (pre ++ post) ++
      List.replicate (cap - (pre ++ post).length) none) = some value)
    (hsafe : arg = .object value ∨ post = [] ∨ (pre ++ post).length = cap) :
    Vector.Emplace T (Vector.of_values (pre ++ post) cap) pre.length arg w =
      if (pre ++ post).length = cap then
        .ok pre.length
          (Vector.of_values (pre ++ value :: post)
            (if (pre ++ post).length = 0 then 1 else cap * 2),
          RawMemory.destructor
            ⟨if cap = 0 then none else some (List.replicate cap none), cap⟩ w)
      else .ok pre.length (Vector.of_values (pre ++ value :: post) cap, w) := by
  unfold Vector.Emplace
  have hcap : (Vector.of_values (pre ++ post) cap).Capacity = cap := rfl
  have hsz : (Vector.of_values (pre ++ post) cap).size_ = (pre ++ post).length := rfl
  have hpos : pre.length ≤ (pre ++ post).length := by simp
  simp only [hcap, hsz, hpos, if_true, slots_of_values _ _ h, store_of_values, harg]
  by_cases hc : (pre ++ post).length = cap
  · subst hc
    generalize hn : (if (pre ++ post).length = 0 then 1 else (pre ++ post).length * 2) = n
    have hn1 : (pre ++ post).length < n := by
      rw [← hn]; split <;> omega
    have hn0 : n ≠ 0 := by omega
    have hfit2 : w.fits T n := by rw [← hn]; exact hfit rfl
    have hlen : (pre ++ post).length = pre.length + post.length := by simp
    have hcp := Block.construct_mid (List.replicate pre.length none) value
      (List.replicate (n - pre.length - 1) none) pre.length (by simp)
    rw [← replicate_split_succ none pre.length n (by omega)] at hcp
    have hD : List.replicate (n - pre.length - 1) (none : Option α) =
        List.replicate post.length none ++ List.replicate (n - (pre ++ post).length - 1) none := by
      rw [← List.replicate_add]; congr 1; omega
    have hm1 : uninitialized_move_n T
        (List.map some (pre ++ post) ++
          List.replicate ((pre ++ post).length - (pre ++ post).length) none) 0 pre.length
        (List.replicate pre.length none ++ some value :: List.replicate (n - pre.length - 1) none)
        0 w = .ok () ((pre.map T.moved_from).map some ++ post.map some,
          pre.map some ++ some value :: List.replicate (n - pre.length - 1) none, w) := by
      apply uninitialized_move_n_ok' T pre [] (post.map some) []
        (some value :: List.replicate (n - pre.length - 1) none) <;> simp [hops]
    have hm2 : uninitialized_move_n T ((pre.map T.moved_from).map some ++ post.map some)
        pre.length ((pre ++ post).length - pre.length)
        (pre.map some ++ some value :: List.replicate (n - pre.length - 1) none)
        (pre.length + 1) w = .ok () (((pre ++ post).map T.moved_from).map some,
          (pre ++ value :: post).map some ++
            List.replicate (n - (pre ++ post).length - 1) none, w) := by
      apply uninitialized_move_n_ok' T post ((pre.map T.moved_from).map some) []
        (pre.map some ++ [some value])
        (List.replicate (n - (pre ++ post).length - 1) none) <;> simp [hops, hD]
    have hc1 : uninitialized_copy_n
        (List.map some (pre ++ post) ++
          List.replicate ((pre ++ post).length - (pre ++ post).length) none) 0 pre.length
        (List.replicate pre.length none ++ some value :: List.replicate (n - pre.length - 1) none)
        0 w = .ok () (
          pre.map some ++ some value :: List.replicate (n - pre.length - 1) none, w) := by
      apply uninitialized_copy_n_ok' pre [] (post.map some) []
        (some value :: List.replicate (n - pre.length - 1) none) <;> simp [hops]
    have hc2 : uninitialized_copy_n
        (List.map some (pre ++ post) ++
          List.replicate ((pre ++ post).length - (pre ++ post).length) none)
        pre.length ((pre ++ post).length - pre.length)
        (pre.map some ++ some value :: List.replicate (n - pre.length - 1) none)
        (pre.length + 1) w = .ok () (
          (pre ++ value :: post).map some ++
            List.replicate (n - (pre ++ post).length - 1) none, w) := by
      apply uninitialized_copy_n_ok' post (pre.map some) []
        (pre.map some ++ [some value])
        (List.replicate (n - (pre ++ post).length - 1) none) <;> simp [hops, hD]
    have hd1 : destroy_n (((pre ++ post).map T.moved_from).map some) 0 (pre ++ post).length =
        some (List.replicate (pre ++ post).length none) := by
      apply destroy_n_ok' ((pre ++ post).map T.moved_from) [] [] <;> simp
    have hd2 : destroy_n (List.map some (pre ++ post) ++
          List.replicate ((pre ++ post).length - (pre ++ post).length) none) 0
          (pre ++ post).length =
        some (List.replicate (pre ++ post).length none) := by
      apply destroy_n_ok' (pre ++ post) [] [] <;> simp
    simp only [if_true, create_ok T n w hn0 hal hfit2, RawMemory.slots, Option.getD_some, hcp,
      RawMemory.store, Option.map_some', World.tick_of_none w hops]
    by_cases hT : (T.nothrow_move_constructible || !T.copy_constructible) = true
    · simp only [hT, if_true, hm1, hm2, hd1]
      clear hcap hsz
      simp [RawMemory.Swap, Vector.of_values, hn0]
      constructor <;> omega
    · simp only [hT, Bool.false_eq_true, if_false, hc1, hc2, hd2]
      clear hcap hsz
      simp [RawMemory.Swap, Vector.of_values, hn0]
      constructor <;> omega
  · have hlt : (pre ++ post).length < cap := by omega
    have hc0 : cap ≠ 0 := by omega
    simp only [hc, if_false]
    by_cases hend : post = []
    · subst hend
      have hcp := Block.construct_mid (pre.map some) value
        (List.replicate (cap - pre.length - 1) none) pre.length (by simp)
      simp only [List.append_nil] at hlt ⊢
      simp only [ne_eq, not_true_eq_false, if_false,
        replicate_split_succ none 0 (cap - pre.length) (by omega), List.replicate_zero,
        List.nil_append, Nat.sub_zero, hcp, World.tick_of_none w hops]
      simp [Vector.of_values, hc0]
      omega
    · have harg2 : arg = .object value := by
        rcases hsafe with h1 | h1 | h1
        · exact h1
        · exact absurd h1 hend
        · exact absurd h1 hc
      subst harg2
      obtain ⟨mid, last, rfl⟩ : ∃ mid last, post = mid ++ [last] :=
        ⟨post.dropLast, post.getLast hend, (List.dropLast_append_getLast hend).symm⟩
      have hne : pre.length ≠ (pre ++ (mid ++ [last])).length := by simp
      have hm1 : uninitialized_move_n_within T
          (List.map some (pre ++ (mid ++ [last])) ++
            List.replicate (cap - (pre ++ (mid ++ [last])).length) none)
          ((pre ++ (mid ++ [last])).length - 1) 1 (pre ++ (mid ++ [last])).length w =
          .ok () (pre.map some ++ (mid.map some ++ some (T.moved_from last) ::
            (some last :: List.replicate (cap - (pre ++ (mid ++ [last])).length - 1) none)), w) := by
        have := uninitialized_move_n_within_one T (pre.map some ++ mid.map some)
          (List.replicate (cap - (pre ++ (mid ++ [last])).length - 1) none) last
          ((pre ++ (mid ++ [last])).length - 1) (pre ++ (mid ++ [last])).length w
          (by simp) (by simp; omega) (Or.inr hops)
        rw [replicate_split_succ none 0 (cap - (pre ++ (mid ++ [last])).length) (by omega)]
        simpa using this
      have hlen2 : (pre ++ (mid ++ [last])).length - 1 - pre.length = mid.length := by
        simp
      have hm2 : move_backward T (pre.map some ++ (mid.map some ++ some (T.moved_from last) ::
            (some last :: List.replicate (cap - (pre ++ (mid ++ [last])).length - 1) none)))
          pre.length ((pre ++ (mid ++ [last])).length - 1) (pre ++ (mid ++ [last])).length w =
          .ok () (pre.map some ++ some ((mid.head?.map T.moved_from).getD (T.moved_from last)) ::
            (mid.map some ++
              some last :: List.replicate (cap - (pre ++ (mid ++ [last])).length - 1) none), w) := by
        unfold move_backward
        rw [if_pos (by simp), hlen2]
        exact move_backward_loop_ok T mid (pre.map some) _ (T.moved_from last) pre.length _ w
          (by simp) (by simp; omega) hops
      have hix : (Vector.of_values (pre ++ (mid ++ [last])) cap).data_.index pre.length =
          some pre.length := by
        simp only [RawMemory.index, Vector.of_values]
        rw [if_pos (by omega)]
      have has := Block.assign_mid (pre.map some)
        ((mid.head?.map T.moved_from).getD (T.moved_from last)) value
        (mid.map some ++
          some last :: List.replicate (cap - (pre ++ (mid ++ [last])).length - 1) none)
        pre.length (by simp)
      simp only [hne, ne_eq, not_false_eq_true, if_true, hm1, hm2, World.tick_of_none w hops,
        hix, has, Arg.read]
      simp [Vector.of_values, hc0]
      omega

theorem Block.read_map_some {α : Type} (ys : List α) (B : Block α) (j : Nat)
    (hj : j < ys.length) : Block.read (ys.map some ++ B) j = some ys[j] := by
  unfold Block.read
  have : (ys.map some ++ B)[j]? = some (some ys[j]) := by
    rw [List.getElem?_append_left (by simpa using hj), List.getElem?_map,
      List.getElem?_eq_getElem hj]
    rfl
  rw [this]

theorem Block.read_isSome_lt {α : Type} (ys : List α) (k : Nat) (j : Nat)
    (h : (Block.read (ys.map some ++ List.replicate k none) j).isSome) : j < ys.length := by
  by_contra hj
  have hj2 : ys.length ≤ j := by omega
  unfold Block.read at h
  rw [List.getElem?_append_right (by simpa using hj2)] at h
  simp only [List.length_map] at h
  by_cases hk : j - ys.length < k
  · rw [List.getElem?_replicate_of_lt hk] at h
    simp at h
  · rw [List.getElem?_eq_none (by simp; omega)] at h
    simp at h

/-- The branch of `Emplace` that shifts the elements in place, when nothing
throws: the value inserted is the one the argument has after the shift. -/
theorem Emplace_shift_ok {α : Type} (T : ElemType α) (pre mid : List α) (last : α)
    (cap : Nat) (arg : Arg α) (value : α) (w : World α)
    (hlt : (pre ++ (mid ++ [last])).length < cap) (hops : w.ops_left = none)
    (harg : arg.read (pre.map some ++
      some ((mid.head?.map T.moved_from).getD (T.moved_from last)) ::
        (mid.map some ++
          some last :: List.replicate (cap - (pre ++ (mid ++ [last])).length - 1) none)) =
      some value) :
    Vector.Emplace T (Vector.of_values (pre ++ (mid ++ [last])) cap) pre.length arg w =
      .ok pre.length (Vector.of_values (pre ++ value :: (mid ++ [last])) cap, w) := by
  unfold Vector.Emplace
  have hcap : (Vector.of_values (pre ++ (mid ++ [last])) cap).Capacity = cap := rfl
  have hsz : (Vector.of_values (pre ++ (mid ++ [last])) cap).size_ =
    (pre ++ (mid ++ [last])).length := rfl
  have hpos : pre.length ≤ (pre ++ (mid ++ [last])).length := by simp
  have h : (pre ++ (mid ++ [last])).length ≤ cap := by omega
  have hc : (pre ++ (mid ++ [last])).length ≠ cap := by omega
  have hc0 : cap ≠ 0 := by omega
  simp only [hcap, hsz, hpos, if_true, slots_of_values _ _ h, store_of_values, hc, if_false]
  have hne : pre.length ≠ (pre ++ (mid ++ [last])).length := by simp
  have hm1 : uninitialized_move_n_within T
      (List.map some (pre ++ (mid ++ [last])) ++
        List.replicate (cap - (pre ++ (mid ++ [last])).length) none)
      ((pre ++ (mid ++ [last])).length - 1) 1 (pre ++ (mid ++ [last])).length w =
      .ok () (pre.map some ++ (mid.map some ++ some (T.moved_from last) ::
        (some last :: List.replicate (cap - (pre ++ (mid ++ [last])).length - 1) none)), w) := by
    have := uninitialized_move_n_within_one T (pre.map some ++ mid.map some)
      (List.replicate (cap - (pre ++ (mid ++ [last])).length - 1) none) last
      ((pre ++ (mid ++ [last])).length - 1) (pre ++ (mid ++ [last])).length w
      (by simp) (by simp; omega) (Or.inr hops)
    rw [replicate_split_succ none 0 (cap - (pre ++ (mid ++ [last])).length) (by omega)]
    simpa using this
  have hlen2 : (pre ++ (mid ++ [last])).length - 1 - pre.length = mid.length := by
    simp
  have hm2 : move_backward T (pre.map some ++ (mid.map some ++ some (T.moved_from last) ::
        (some last :: List.replicate (cap - (pre ++ (mid ++ [last])).length - 1) none)))
      pre.length ((pre ++ (mid ++ [last])).length - 1) (pre ++ (mid ++ [last])).length w =
      .ok () (pre.map some ++ some ((mid.head?.map T.moved_from).getD (T.moved_from last)) ::
        (mid.map some ++
          some last :: List.replicate (cap - (pre ++ (mid ++ [last])).length - 1) none), w) := by
    unfold move_backward
    rw [if_pos (by simp), hlen2]
    exact move_backward_loop_ok T mid (pre.map some) _ (T.moved_from last) pre.length _ w
      (by simp) (by simp; omega) hops
  have hix : (Vector.of_values (pre ++ (mid ++ [last])) cap).data_.index pre.length =
      some pre.length := by
    simp only [RawMemory.index, Vector.of_values]
    rw [if_pos (by omega)]
  have has := Block.assign_mid (pre.map some)
    ((mid.head?.map T.moved_from).getD (T.moved_from last)) value
    (mid.map some ++
      some last :: List.replicate (cap - (pre ++ (mid ++ [last])).length - 1) none)
    pre.length (by simp)
  simp only [hne, ne_eq, not_false_eq_true, if_true, hm1, hm2, World.tick_of_none w hops,
    hix, has, harg]
  simp [Vector.of_values, hc0]
  omega

/-- `Emplace` when nothing throws, for any argument that refers to an object:
it returns the position, and the vector holds the old values with one value
inserted at the position. -/
theorem Emplace_any_ok {α : Type} (T : ElemType α) (pre post : List α) (cap : Nat)
    (arg : Arg α) (w : World α) (h : (pre ++ post).length ≤ cap)
    (hops : w.ops_left = none) (hal : w.allocs_left = none)
    (hfit : (pre ++ post).length = cap →
      w.fits T (if (pre ++ post).length = 0 then 1 else cap * 2))
    (harg : (arg.read (Vector.of_values (pre ++ post) cap).data_.slots).isSome) :
    ∃ value cap1 w1,
      Vector.Emplace T (Vector.of_values (pre ++ post) cap) pre.length arg w =
        .ok pre.length (Vector.of_values (pre ++ value :: post) cap1, w1) ∧
      (pre ++ value :: post).length ≤ cap1 ∧ w1.ops_left = none := by
  rw [slots_of_values _ _ h] at harg
  obtain ⟨value0, hv0⟩ := Option.isSome_iff_exists.mp harg
  have hnew : ∀ x, (pre ++ x :: post).length = (pre ++ post).length + 1 := by
    intro x; simp; omega
  by_cases hsafe : (∃ x, arg = .object x) ∨ post = [] ∨ (pre ++ post).length = cap
  · have hsafe2 : arg = .object value0 ∨ post = [] ∨ (pre ++ post).length = cap := by
      rcases hsafe with ⟨x, hx⟩ | h1
      · subst hx
        simp only [Arg.read, Option.some.injEq] at hv0
        subst hv0
        exact Or.inl rfl
      · exact Or.inr h1
    have key := Emplace_ok T pre post cap arg value0 w h hops hal hfit hv0 hsafe2
    by_cases hc : (pre ++ post).length = cap
    · rw [if_pos hc] at key
      refine ⟨value0, _, _, key, ?_, ?_⟩
      · rw [hnew]; split <;> omega
      · rw [World.ops_left_destructor]; exact hops
    · rw [if_neg hc] at key
      exact ⟨value0, _, _, key, by rw [hnew]; omega, hops⟩
  · simp only [not_or] at hsafe
    obtain ⟨hobj, hend, hc⟩ := hsafe
    obtain ⟨j, rfl⟩ : ∃ j, arg = .element j := by
      cases arg with
      | object x => exact absurd ⟨x, rfl⟩ hobj
      | element j => exact ⟨j, rfl⟩
    obtain ⟨mid, last, rfl⟩ : ∃ mid last, post = mid ++ [last] :=
      ⟨post.dropLast, post.getLast hend, (List.dropLast_append_getLast hend).symm⟩
    have hlt : (pre ++ (mid ++ [last])).length < cap := by omega
    have hj : j < (pre ++ (mid ++ [last])).length := by
      apply Block.read_isSome_lt _ (cap - (pre ++ (mid ++ [last])).length)
      exact harg
    have hj2 : j < (pre ++ (mid.head?.map T.moved_from).getD (T.moved_from last) ::
        (mid ++ [last])).length := by
      simp at hj ⊢; omega
    have hread := Block.read_map_some
      (pre ++ (mid.head?.map T.moved_from).getD (T.moved_from last) :: (mid ++ [last]))
      (List.replicate (cap - (pre ++ (mid ++ [last])).length - 1) none) j hj2
    have key := Emplace_shift_ok T pre mid last cap (.element j) _ w hlt hops
      (by simpa [Arg.read] using hread)
    exact ⟨_, _, _, key, by rw [hnew]; omega, hops⟩

theorem Erase_ok {α : Type} (T : ElemType α) (pre post : List α) (x : α) (cap : Nat)
    (w : World α) (h : (pre ++ x :: post).length ≤ cap) (hops : w.ops_left = none) :
    Vector.Erase T (Vector.of_values (pre ++ x :: post) cap) pre.length w =
      .ok pre.length (Vector.of_values (pre ++ post) cap, w) := by
  unfold Vector.Erase
  have hsz : (Vector.of_values (pre ++ x :: post) cap).size_ = (pre ++ x :: post).length := rfl
  have hpos : pre.length < (pre ++ x :: post).length := by simp
  have hc0 : cap ≠ 0 := by omega
  have hlen : (pre ++ x :: post).length - (pre.length + 1) = post.length := by
    simp; omega
  have hm : std_move T (List.map some (pre ++ x :: post) ++
        List.replicate (cap - (pre ++ x :: post).length) none)
      (pre.length + 1) (pre ++ x :: post).length pre.length w =
      .ok () (pre.map some ++ (post.map some ++
        some ((post.getLast?.map T.moved_from).getD x) ::
          List.replicate (cap - (pre ++ x :: post).length) none), w) := by
    unfold std_move
    rw [if_pos (by simp), hlen]
    have := std_move_loop_ok T post (pre.map some)
      (List.replicate (cap - (pre ++ x :: post).length) none) x (pre.length + 1) pre.length w
      (by simp) (by simp) hops
    simpa using this
  have hd : destroy_n (pre.map some ++ (post.map some ++
        some ((post.getLast?.map T.moved_from).getD x) ::
          List.replicate (cap - (pre ++ x :: post).length) none))
      ((pre ++ x :: post).length - 1) 1 =
      some (pre.map some ++ (post.map some ++
        none :: List.replicate (cap - (pre ++ x :: post).length) none)) := by
    have := Block.destroy_mid (pre.map some ++ post.map some)
      ((post.getLast?.map T.moved_from).getD x)
      (List.replicate (cap - (pre ++ x :: post).length) none)
      ((pre ++ x :: post).length - 1) (by simp)
    simp only [List.append_assoc] at this
    simp only [destroy_n, this]
  simp only [hsz, hpos, if_true, slots_of_values _ _ h, store_of_values, hm, hd]
  simp only [Vector.of_values, hc0, if_false]
  have hr : (none : Option α) :: List.replicate (cap - (pre ++ x :: post).length) none =
      List.replicate (cap - (pre ++ post).length) none := by
    rw [← List.replicate_succ]; congr 1; simp at h ⊢; omega
  rw [hr]
  simp

theorem PopBack_ok {α : Type} (xs : List α) (x : α) (cap : Nat)
    (w : World α) (h : (xs ++ [x]).length ≤ cap) :
    Vector.PopBack (Vector.of_values (xs ++ [x]) cap) w =
      .ok () (Vector.of_values xs cap, w) := by
  unfold Vector.PopBack
  have hsz : (Vector.of_values (xs ++ [x]) cap).size_ = (xs ++ [x]).length := rfl
  have hc0 : cap ≠ 0 := by simp at h; omega
  have hd : destroy_n (List.map some (xs ++ [x]) ++
        List.replicate (cap - (xs ++ [x]).length) none) ((xs ++ [x]).length - 1) 1 =
      some (xs.map some ++ none :: List.replicate (cap - (xs ++ [x]).length) none) := by
    have := Block.destroy_mid (xs.map some) x
      (List.replicate (cap - (xs ++ [x]).length) none) ((xs ++ [x]).length - 1) (by simp)
    simp only [destroy_n]
    simp at this ⊢
    rw [this]
  have hr : (none : Option α) :: List.replicate (cap - (xs ++ [x]).length) none =
      List.replicate (cap - xs.length) none := by
    rw [← List.replicate_succ]; congr 1; simp at h ⊢; omega
  simp only [hsz, slots_of_values _ _ h, store_of_values, hd, hr]
  simp [Vector.of_values, hc0]

theorem index_mid {α : Type} (pre post : List α) (x : α) (cap : Nat)
    (h : (pre ++ x :: post).length ≤ cap) :
    (Vector.of_values (pre ++ x :: post) cap).index pre.length = some x := by
  unfold Vector.index
  have hsz : (Vector.of_values (pre ++ x :: post) cap).size_ = (pre ++ x :: post).length := rfl
  have hcap : (Vector.of_values (pre ++ x :: post) cap).data_.capacity_ = cap := rfl
  have hlt : pre.length < (pre ++ x :: post).length := by simp
  have hr := Block.read_mid (pre.map some) x
    (post.map some ++ List.replicate (cap - (pre ++ x :: post).length) none) pre.length (by simp)
  rw [hsz, if_pos hlt, slots_of_values _ _ h]
  simp only [RawMemory.index, hcap]
  rw [if_pos (by omega)]
  simpa using hr

theorem fault_free_destructor {α : Type} (m : RawMemory α) (w : World α)
    (hw : w.fault_free) : (m.destructor w).fault_free := by
  rcases m with ⟨_ | b, c⟩ <;> exact hw

theorem size_of_Holds {α : Type} {v : Vector α} {xs : List α} (h : Holds v xs) :
    v.Size = xs.length := h.1

/-! ## The claims -/

/-- `Emplace` and both overloads of `Insert` at position `p ≤ size` of a
vector holding `xs`, when nothing throws and the argument has the value
`value` at the call and is not an element that the call shifts (it is an
object outside the vector, or the position is `end()`, or the buffer is full
and the call goes through the growth branch): the call returns the position
of index `p`, the vector then holds `xs[0..p) ++ [value] ++ xs[p..size)`,
`Size()` has grown by 1 and the returned position dereferences to `value`. -/
theorem Emplace_inserts {α : Type} (T : ElemType α) (v : Vector α)
    (xs : List α) (p : Nat) (arg : Arg α) (value : α) (w : World α)
    (hv : Holds v xs) (hp : p ≤ v.Size) (hops : w.ops_left = none)
    (hal : w.allocs_left = none)
    (hfit : v.Size = v.Capacity → w.fits T (if v.Size = 0 then 1 else v.Capacity * 2))
    (harg : arg.read v.data_.slots = some value)
    (hsafe : arg = .object value ∨ p = v.Size ∨ v.Size = v.Capacity) :
    ∃ v1 w1, Vector.Emplace T v p arg w = .ok p (v1, w1) ∧
      Vector.Insert T v p arg w = .ok p (v1, w1) ∧
      Holds v1 (xs.take p ++ [value] ++ xs.drop p) ∧
      v1.Size = v.Size + 1 ∧
      v1.index p = some value ∧
      v1.Capacity = (if v.Size = v.Capacity then (if v.Size = 0 then 1 else v.Capacity * 2)
        else v.Capacity) ∧
      w1.ops_left = none ∧ w1.allocs_left = none ∧ w1.size_max = w.size_max := by
  obtain ⟨hcap, hveq⟩ := (Holds_iff v xs).mp hv
  have hsz : v.Size = xs.length := size_of_Holds hv
  have hpx : p ≤ xs.length := by rw [← hsz]; exact hp
  have hlen : (xs.take p).length = p := by simp [hpx]
  have hxs : xs.take p ++ xs.drop p = xs := List.take_append_drop p xs
  have hcap2 : (xs.take p ++ xs.drop p).length ≤ v.Capacity := by rw [hxs]; exact hcap
  have hslots : v.data_.slots = List.map some (xs.take p ++ xs.drop p) ++
      List.replicate (v.Capacity - (xs.take p ++ xs.drop p).length) none := by
    rw [hxs]
    have := slots_of_values xs v.Capacity hcap
    rwa [← hveq] at this
  have hdrop : xs.drop p = [] ↔ p = xs.length := by
    constructor
    · intro h0
      have := congrArg List.length h0
      simp at this; omega
    · intro h0; simp [h0]
  have key := Emplace_ok T (xs.take p) (xs.drop p) v.Capacity arg value w hcap2 hops hal
    (by rw [hxs, ← hsz]; exact hfit) (by rw [← hslots]; exact harg)
    (by
      rcases hsafe with h1 | h1 | h1
      · exact Or.inl h1
      · exact Or.inr (Or.inl (hdrop.mpr (by rw [← hsz]; exact h1)))
      · exact Or.inr (Or.inr (by rw [hxs, ← hsz]; exact h1)))
  rw [hxs, hlen, ← hveq] at key
  have hnew : (xs.take p ++ value :: xs.drop p).length = xs.length + 1 := by
    have := congrArg List.length hxs
    simp only [List.length_append, List.length_cons] at this ⊢
    omega
  have hshape : xs.take p ++ [value] ++ xs.drop p = xs.take p ++ value :: xs.drop p := by simp
  rw [hshape, hsz]
  by_cases hc : xs.length = v.Capacity
  · rw [if_pos hc] at key ⊢
    have hle : (xs.take p ++ value :: xs.drop p).length ≤
        (if xs.length = 0 then 1 else v.Capacity * 2) := by
      rw [hnew]; split <;> omega
    refine ⟨_, _, key, key, Holds_of_values _ _ hle, ?_, ?_, rfl, ?_, ?_, ?_⟩
    · show (xs.take p ++ value :: xs.drop p).length = xs.length + 1
      rw [hnew]
    · have := index_mid (xs.take p) (xs.drop p) value _ hle
      rwa [hlen] at this
    · rw [World.ops_left_destructor]; exact hops
    · rw [World.allocs_left_destructor]; exact hal
    · generalize (if v.Capacity = 0 then (none : Option (Block α))
        else some (List.replicate v.Capacity none)) = buf
      cases buf <;> rfl
  · rw [if_neg hc] at key ⊢
    have hle : (xs.take p ++ value :: xs.drop p).length ≤ v.Capacity := by
      rw [hnew]; omega
    refine ⟨_, _, key, key, Holds_of_values _ _ hle, ?_, ?_, rfl, hops, hal, rfl⟩
    · show (xs.take p ++ value :: xs.drop p).length = xs.length + 1
      rw [hnew]
    · have := index_mid (xs.take p) (xs.drop p) value _ hle
      rwa [hlen] at this

/-- C1, evaluated on the code: `v.Insert(v.begin(), v[1])` on a vector of
`int` that holds `[1, 2, 3]`, the argument having the value 2 at the call.
With capacity 4 the call shifts the elements in place and reads its argument
only afterwards, when slot 1 holds the shifted element: it returns with the
vector holding `[1, 1, 2, 3]` and the returned position dereferencing to 1,
where the claim says `[2, 1, 2, 3]` and 2.  With capacity 3 the same call
goes through the growth branch, which constructs the new element before it
moves the others, and leaves `[2, 1, 2, 3]`; so does the call with capacity
4 for an object of value 2 outside the vector.  For an element type whose
moved-from objects hold 0, `v.Insert(v.begin(), v[0])` with capacity 4
inserts the moved-from value: `[0, 1, 2, 3]` in place of `[1, 1, 2, 3]`. -/
theorem C1_insert_of_own_element_reads_shifted_slot :
    Holds (Vector.of_values [1, 2, 3] 4) [(1 : Int), 2, 3] ∧
    (Arg.element 1).read (Vector.of_values [(1 : Int), 2, 3] 4).data_.slots = some 2 ∧
    Vector.Insert intType (Vector.of_values [1, 2, 3] 4) 0 (.element 1)
        ⟨none, none, [], none⟩ =
      .ok 0 (Vector.of_values [1, 1, 2, 3] 4, ⟨none, none, [], none⟩) ∧
    Vector.Emplace intType (Vector.of_values [1, 2, 3] 4) 0 (.element 1)
        ⟨none, none, [], none⟩ =
      .ok 0 (Vector.of_values [1, 1, 2, 3] 4, ⟨none, none, [], none⟩) ∧
    (Vector.of_values [(1 : Int), 1, 2, 3] 4).index 0 = some 1 ∧
    Vector.Insert intType (Vector.of_values [1, 2, 3] 3) 0 (.element 1)
        ⟨none, none, [], none⟩ =
      .ok 0 (Vector.of_values [2, 1, 2, 3] 6, ⟨none, none, [[none, none, none]], none⟩) ∧
    Vector.Insert intType (Vector.of_values [1, 2, 3] 4) 0 (.object 2)
        ⟨none, none, [], none⟩ =
      .ok 0 (Vector.of_values [2, 1, 2, 3] 4, ⟨none, none, [], none⟩) ∧
    (Arg.element 0).read (Vector.of_values [(1 : Int), 2, 3] 4).data_.slots = some 1 ∧
    Vector.Insert handleType (Vector.of_values [1, 2, 3] 4) 0 (.element 0)
        ⟨none, none, [], none⟩ =
      .ok 0 (Vector.of_values [0, 1, 2, 3] 4, ⟨none, none, [], none⟩) := by
  decide

theorem values_aux {α : Type} (xs : List α) :
    ∀ B : Block α, (List.range xs.length).mapM (fun i => Block.read (xs.map some ++ B) i) =
      some xs := by
  induction xs using List.reverseRecOn with
  | nil => intro B; rfl
  | append_singleton ys y ih =>
    intro B
    have h1 := ih (some y :: B)
    have h2 := Block.read_mid (ys.map some) y B ys.length (by simp)
    simp only [List.length_append, List.length_singleton, List.range_succ, List.mapM_append,
      List.map_append, List.map_cons, List.map_nil, List.append_assoc, List.singleton_append,
      List.mapM_cons, List.mapM_nil, h1, h2]
    rfl

theorem values_of_values {α : Type} (xs : List α) (cap : Nat) (h : xs.length ≤ cap) :
    (Vector.of_values xs cap).values = some xs := by
  unfold Vector.values
  rw [slots_of_values xs cap h]
  exact values_aux xs _

theorem values_of_Holds {α : Type} {v : Vector α} {xs : List α} (h : Holds v xs) :
    v.values = some xs := by
  obtain ⟨hcap, hveq⟩ := (Holds_iff v xs).mp h
  rw [hveq]; exact values_of_values xs _ hcap

/-- C2: for a vector holding `xs` and an index `p < size`, `Erase` at `p`
returns normally, leaves the vector holding `xs[0..p) ++ xs[p+1..size)`,
decreases `Size()` by exactly 1, leaves `Capacity()` unchanged, allocates and
releases nothing (the world is unchanged), and returns the position of
index `p`. -/
theorem C2_erase_removes_position {α : Type} (T : ElemType α) (v : Vector α)
    (xs : List α) (p : Nat) (w : World α)
    (hv : Holds v xs) (hp : p < v.Size) (hw : w.fault_free) :
    ∃ v1, Vector.Erase T v p w = .ok p (v1, w) ∧
      Holds v1 (xs.take p ++ xs.drop (p + 1)) ∧
      v1.Size + 1 = v.Size ∧
      v1.Capacity = v.Capacity := by
  obtain ⟨hcap, hveq⟩ := (Holds_iff v xs).mp hv
  have hsz : v.Size = xs.length := size_of_Holds hv
  have hpx : p < xs.length := by rw [← hsz]; exact hp
  have hlen : (xs.take p).length = p := by simp; omega
  have hxs : xs.take p ++ xs[p] :: xs.drop (p + 1) = xs := by
    rw [← List.drop_eq_getElem_cons hpx]; exact List.take_append_drop p xs
  have hcap2 : (xs.take p ++ xs[p] :: xs.drop (p + 1)).length ≤ v.Capacity := by
    rw [hxs]; exact hcap
  have key := Erase_ok T (xs.take p) (xs.drop (p + 1)) (xs[p]) v.Capacity w hcap2 hw.1
  rw [hxs, hlen, ← hveq] at key
  have hnew : (xs.take p ++ xs.drop (p + 1)).length + 1 = xs.length := by
    have := congrArg List.length hxs
    simp only [List.length_append, List.length_cons] at this ⊢
    omega
  refine ⟨_, key, Holds_of_values _ _ (by omega), ?_, rfl⟩
  show (xs.take p ++ xs.drop (p + 1)).length + 1 = v.Size
  rw [hnew, hsz]

/-- Witness of C2: erasing index 0 of `[1, 9, 2, 3]` held with capacity 4. -/
theorem C2_erase_removes_position_witness :
    ∃ v1, Vector.Erase intType (Vector.of_values [1, 9, 2, 3] 4) 0 ⟨none, none, [], none⟩ =
        .ok 0 (v1, ⟨none, none, [], none⟩) ∧
      Holds v1 ([1, 9, 2, 3].take 0 ++ [1, 9, 2, 3].drop (0 + 1)) ∧
      v1.Size + 1 = (Vector.of_values [1, 9, 2, 3] 4).Size ∧
      v1.Capacity = (Vector.of_values [1, 9, 2, 3] 4).Capacity :=
  C2_erase_removes_position intType (Vector.of_values [1, 9, 2, 3] 4) [1, 9, 2, 3] 0
    ⟨none, none, [], none⟩ (by decide) (by decide) (by decide)

/-- C3: for a vector holding `xs`, an index `p ≤ size` and an argument that
refers to an object (outside the vector or one of its elements), `Insert` at
`p` followed by `Erase` at `p` both return normally and leave a vector that
holds `xs` again, with the prior `Size()`; nothing is said of the
capacity. -/
theorem C3_insert_then_erase_restores {α : Type} (T : ElemType α) (v : Vector α)
    (xs : List α) (p : Nat) (arg : Arg α) (w : World α)
    (hv : Holds v xs) (hp : p ≤ v.Size) (harg : (arg.read v.data_.slots).isSome)
    (hw : w.fault_free) :
    ∃ v1 w1 v2 w2, Vector.Insert T v p arg w = .ok p (v1, w1) ∧
      Vector.Erase T v1 p w1 = .ok p (v2, w2) ∧
      Holds v2 xs ∧ v2.Size = v.Size ∧ v2.values = v.values := by
  obtain ⟨hcap, hveq⟩ := (Holds_iff v xs).mp hv
  have hsz : v.Size = xs.length := size_of_Holds hv
  have hpx : p ≤ xs.length := by rw [← hsz]; exact hp
  have hlen : (xs.take p).length = p := by simp [hpx]
  have hxs : xs.take p ++ xs.drop p = xs := List.take_append_drop p xs
  have hcap2 : (xs.take p ++ xs.drop p).length ≤ v.Capacity := by rw [hxs]; exact hcap
  obtain ⟨value, cap1, w1, h1, hle1, hw1⟩ :=
    Emplace_any_ok T (xs.take p) (xs.drop p) v.Capacity arg w hcap2 hw.1 hw.2.1
      (fun _ => World.fits_of_fault_free w hw _ _) (by rw [hxs, ← hveq]; exact harg)
  have h2 := Erase_ok T (xs.take p) (xs.drop p) value cap1 w1 hle1 hw1
  rw [hxs, hlen, ← hveq] at h1
  rw [hxs, hlen] at h2
  have hH : Holds (Vector.of_values xs cap1) xs :=
    Holds_of_values _ _ (by simp at hle1; have := congrArg List.length hxs; simp at this; omega)
  refine ⟨_, _, _, _, h1, h2, hH, ?_, ?_⟩
  · show xs.length = v.Size
    exact hsz.symm
  · rw [values_of_Holds hH, values_of_Holds hv]

/-- Witness of C3: inserting 9 at index 1 of `[1, 2, 3]` held with capacity 3
(the insertion grows the buffer), then erasing index 1; and inserting the
vector's own element of slot 2 at index 0 when the capacity is 4 (the
insertion shifts the elements in place), then erasing index 0. -/
theorem C3_insert_then_erase_restores_witness :
    (∃ v1 w1 v2 w2,
      Vector.Insert intType (Vector.of_values [1, 2, 3] 3) 1 (.object 9)
          ⟨none, none, [], none⟩ = .ok 1 (v1, w1) ∧
      Vector.Erase intType v1 1 w1 = .ok 1 (v2, w2) ∧
      Holds v2 [1, 2, 3] ∧ v2.Size = (Vector.of_values [1, 2, 3] 3).Size ∧
      v2.values = (Vector.of_values [1, 2, 3] 3).values) ∧
    (∃ v1 w1 v2 w2,
      Vector.Insert intType (Vector.of_values [1, 2, 3] 4) 0 (.element 2)
          ⟨none, none, [], none⟩ = .ok 0 (v1, w1) ∧
      Vector.Erase intType v1 0 w1 = .ok 0 (v2, w2) ∧
      Holds v2 [1, 2, 3] ∧ v2.Size = (Vector.of_values [1, 2, 3] 4).Size ∧
      v2.values = (Vector.of_values [1, 2, 3] 4).values) :=
  ⟨C3_insert_then_erase_restores intType (Vector.of_values [1, 2, 3] 3) [1, 2, 3] 1
      (.object 9) ⟨none, none, [], none⟩ (by decide) (by decide) (by decide) (by decide),
   C3_insert_then_erase_restores intType (Vector.of_values [1, 2, 3] 4) [1, 2, 3] 0
      (.element 2) ⟨none, none, [], none⟩ (by decide) (by decide) (by decide) (by decide)⟩

/-- C4: from a default-constructed vector of `int`, `PushBack(1)`,
`PushBack(2)`, `PushBack(3)` give `[1, 2, 3]` with `Size() == 3`; `Insert` of
9 at index 1 then gives `[1, 9, 2, 3]`; `Erase` at index 0 then gives
`[9, 2, 3]`; `PopBack()` then gives `[9, 2]`. -/
theorem C4_concrete_scenario :
    ∃ v1 w1 v2 w2 v3 w3 v4 w4 v5 w5 v6 w6,
      Vector.PushBack intType Vector.empty 1 ⟨none, none, [], none⟩ = .ok () (v1, w1) ∧
      Vector.PushBack intType v1 2 w1 = .ok () (v2, w2) ∧
      Vector.PushBack intType v2 3 w2 = .ok () (v3, w3) ∧
      v3.values = some [1, 2, 3] ∧ Holds v3 [1, 2, 3] ∧ v3.Size = 3 ∧
      Vector.Insert intType v3 1 (.object 9) w3 = .ok 1 (v4, w4) ∧
      v4.values = some [1, 9, 2, 3] ∧ Holds v4 [1, 9, 2, 3] ∧
      Vector.Erase intType v4 0 w4 = .ok 0 (v5, w5) ∧
      v5.values = some [9, 2, 3] ∧ Holds v5 [9, 2, 3] ∧
      Vector.PopBack v5 w5 = .ok () (v6, w6) ∧
      v6.values = some [9, 2] ∧ Holds v6 [9, 2] :=
  ⟨Vector.of_values [1] 1, ⟨none, none, [], none⟩,
   Vector.of_values [1, 2] 2, ⟨none, none, [[none]], none⟩,
   Vector.of_values [1, 2, 3] 4, ⟨none, none, [[none, none], [none]], none⟩,
   Vector.of_values [1, 9, 2, 3] 4, ⟨none, none, [[none, none], [none]], none⟩,
   Vector.of_values [9, 2, 3] 4, ⟨none, none, [[none, none], [none]], none⟩,
   Vector.of_values [9, 2] 4, ⟨none, none, [[none, none], [none]], none⟩,
   by decide, by decide, by decide, by decide, by decide, by decide, by decide, by decide,
   by decide, by decide, by decide, by decide, by decide, by decide, by decide⟩

/-- Both overloads of `PushBack` reach the same state, whose capacity is the
old one, or 1 or twice the old one when the buffer was full. -/
theorem PushBack_reaches {α : Type} (T : ElemType α) (xs : List α) (cap : Nat) (value : α)
    (w : World α) (h : xs.length ≤ cap) (hw : w.fault_free) :
    ∃ w1, w1.fault_free ∧
      Vector.PushBack T (Vector.of_values xs cap) value w =
        .ok () (Vector.of_values (xs ++ [value])
          (if xs.length = cap then (if xs.length = 0 then 1 else cap * 2) else cap), w1) ∧
      Vector.PushBack_move T (Vector.of_values xs cap) value w =
        .ok () (Vector.of_values (xs ++ [value])
          (if xs.length = cap then (if xs.length = 0 then 1 else cap * 2) else cap), w1) ∧
      Vector.EmplaceBack T (Vector.of_values xs cap) value w =
        .ok xs.length (Vector.of_values (xs ++ [value])
          (if xs.length = cap then (if xs.length = 0 then 1 else cap * 2) else cap), w1) := by
  have hfit := fun (_ : xs.length = cap) =>
    World.fits_of_fault_free w hw T (if xs.length = 0 then 1 else cap * 2)
  have k1 := PushBack_ok T xs cap value w h hw.1 hw.2.1 hfit
  have k2 := PushBack_move_ok T xs cap value w h hw.1 hw.2.1 hfit
  have k3 := EmplaceBack_ok T xs cap value w h hw.1 hw.2.1 hfit
  by_cases hc : xs.length = cap
  · rw [if_pos hc] at k1 k2 k3 ⊢
    exact ⟨_, fault_free_destructor _ _ hw, k1, k2, k3⟩
  · rw [if_neg hc] at k1 k2 k3 ⊢
    exact ⟨_, hw, k1, k2, k3⟩

theorem push_all_ok {α : Type} (T : ElemType α) (calls : List (Bool × α)) :
    ∀ (xs : List α) (cap : Nat) (w : World α), xs.length ≤ cap → w.fault_free →
      ((xs.length = 0 ∧ cap = 0) ∨ ∃ e, cap = 2 ^ e) →
      ∃ cap1 w1, Vector.push_all T calls (Vector.of_values xs cap) w =
          .ok () (Vector.of_values (xs ++ calls.map Prod.snd) cap1, w1) ∧
        (xs ++ calls.map Prod.snd).length ≤ cap1 ∧
        (((xs ++ calls.map Prod.snd).length = 0 ∧ cap1 = 0) ∨ ∃ e, cap1 = 2 ^ e) := by
  induction calls with
  | nil =>
    intro xs cap w h _ hcap
    exact ⟨cap, w, by simp [Vector.push_all], by simpa using h, by simpa using hcap⟩
  | cons c calls ih =>
    intro xs cap w h hw hcap
    obtain ⟨by_move, value⟩ := c
    obtain ⟨w1, hw1, k1, k2, _⟩ := PushBack_reaches T xs cap value w h hw
    have hle : (xs ++ [value]).length ≤
        (if xs.length = cap then (if xs.length = 0 then 1 else cap * 2) else cap) := by
      simp only [List.length_append, List.length_singleton]
      split
      · split <;> omega
      · omega
    have hpow : ((xs ++ [value]).length = 0 ∧
        (if xs.length = cap then (if xs.length = 0 then 1 else cap * 2) else cap) = 0) ∨
        ∃ e, (if xs.length = cap then (if xs.length = 0 then 1 else cap * 2) else cap) =
          2 ^ e := by
      right
      rcases hcap with ⟨h0, hc0⟩ | ⟨e, he⟩
      · exact ⟨0, by simp [h0, hc0]⟩
      · by_cases hc : xs.length = cap
        · have hx0 : xs.length ≠ 0 := by
            rw [hc, he]; exact (Nat.two_pow_pos e).ne.symm
          exact ⟨e + 1, by rw [if_pos hc, if_neg hx0, he, pow_succ]⟩
        · exact ⟨e, by rw [if_neg hc, he]⟩
    obtain ⟨cap2, w2, k, hle2, hpow2⟩ := ih (xs ++ [value]) _ w1 hle hw1 hpow
    refine ⟨cap2, w2, ?_, by simpa using hle2, by simpa using hpow2⟩
    simp only [Vector.push_all, k1, k2, ite_self, k]
    simp

/-- C5: any sequence of `k` calls of `PushBack` (either overload) on a
default-constructed vector returns normally and leaves `Size() == k`;
`Capacity()` is 0 when `k == 0` and otherwise a power of two that is at least
`k`.  The vector then holds the pushed values in order. -/
theorem C5_push_back_capacity_power_of_two {α : Type} (T : ElemType α)
    (calls : List (Bool × α)) (w : World α) (hw : w.fault_free) :
    ∃ v1 w1, Vector.push_all T calls Vector.empty w = .ok () (v1, w1) ∧
      v1.Size = calls.length ∧
      (calls.length = 0 → v1.Capacity = 0) ∧
      (calls.length ≠ 0 → ∃ e, v1.Capacity = 2 ^ e ∧ calls.length ≤ v1.Capacity) ∧
      Holds v1 (calls.map Prod.snd) := by
  obtain ⟨cap1, w1, k, hle, hpow⟩ :=
    push_all_ok T calls [] 0 w (Nat.le_refl _) hw (Or.inl ⟨rfl, rfl⟩)
  have he : (Vector.empty : Vector α) = Vector.of_values [] 0 := rfl
  simp only [List.nil_append, List.length_map] at k hle hpow
  rw [← he] at k
  refine ⟨_, _, k, ?_, ?_, ?_, Holds_of_values _ _ (by simpa using hle)⟩
  · show (calls.map Prod.snd).length = calls.length
    simp
  · intro h0
    rcases hpow with ⟨_, hc⟩ | ⟨e, he2⟩
    · exact hc
    · have h1 : calls = [] := List.length_eq_zero.mp h0
      subst h1
      simp only [Vector.push_all, Res.ok.injEq, Prod.mk.injEq, true_and] at k
      have h2 := congrArg Vector.Capacity k.1
      exact h2.symm
  · intro h0
    rcases hpow with ⟨hl, _⟩ | ⟨e, he2⟩
    · exact absurd hl h0
    · exact ⟨e, he2, hle⟩

/-- Witness of C5: three calls, the second one of the overload taking an
rvalue. -/
theorem C5_push_back_capacity_power_of_two_witness :
    ∃ v1 w1, Vector.push_all intType [(false, 1), (true, 2), (false, 3)] Vector.empty
        ⟨none, none, [], none⟩ = .ok () (v1, w1) ∧
      v1.Size = [(false, (1 : Int)), (true, 2), (false, 3)].length ∧
      ([(false, (1 : Int)), (true, 2), (false, 3)].length = 0 → v1.Capacity = 0) ∧
      ([(false, (1 : Int)), (true, 2), (false, 3)].length ≠ 0 →
        ∃ e, v1.Capacity = 2 ^ e ∧
          [(false, (1 : Int)), (true, 2), (false, 3)].length ≤ v1.Capacity) ∧
      Holds v1 ([(false, (1 : Int)), (true, 2), (false, 3)].map Prod.snd) :=
  C5_push_back_capacity_power_of_two intType [(false, 1), (true, 2), (false, 3)]
    ⟨none, none, [], none⟩ (by decide)

/-- C6: for a vector holding `xs` and a value `value`, both overloads of
`PushBack` and `EmplaceBack` return normally and leave the vector holding
`xs ++ [value]` with `Size()` increased by 1; when `size == capacity` before
the call the new capacity is 1 if the old one is 0 and twice the old one
otherwise; when `size < capacity` the capacity is unchanged.  `EmplaceBack`
returns a reference to the last element, which equals `value`. -/
theorem C6_push_back_appends {α : Type} (T : ElemType α) (v : Vector α) (xs : List α)
    (value : α) (w : World α) (hv : Holds v xs) (hw : w.fault_free) :
    ∃ v1 w1, Vector.PushBack T v value w = .ok () (v1, w1) ∧
      Vector.PushBack_move T v value w = .ok () (v1, w1) ∧
      Vector.EmplaceBack T v value w = .ok (v1.Size - 1) (v1, w1) ∧
      Holds v1 (xs ++ [value]) ∧
      v1.Size = v.Size + 1 ∧
      (v.Size = v.Capacity →
        v1.Capacity = if v.Capacity = 0 then 1 else v.Capacity * 2) ∧
      (v.Size < v.Capacity → v1.Capacity = v.Capacity) ∧
      v1.index (v1.Size - 1) = some value := by
  obtain ⟨hcap, hveq⟩ := (Holds_iff v xs).mp hv
  have hsz : v.Size = xs.length := size_of_Holds hv
  obtain ⟨w1, _, k1, k2, k3⟩ := PushBack_reaches T xs v.Capacity value w hcap hw
  rw [← hveq] at k1 k2 k3
  have hle : (xs ++ [value]).length ≤
      (if xs.length = v.Capacity then (if xs.length = 0 then 1 else v.Capacity * 2)
        else v.Capacity) := by
    simp only [List.length_append, List.length_singleton]
    split
    · split <;> omega
    · omega
  have hs1 : (Vector.of_values (xs ++ [value])
      (if xs.length = v.Capacity then (if xs.length = 0 then 1 else v.Capacity * 2)
        else v.Capacity)).Size - 1 = xs.length := by
    show (xs ++ [value]).length - 1 = xs.length
    simp
  refine ⟨_, _, k1, k2, by rw [hs1]; exact k3, Holds_of_values _ _ hle, ?_, ?_, ?_, ?_⟩
  · show (xs ++ [value]).length = v.Size + 1
    rw [hsz]; simp
  · intro h
    show (if xs.length = v.Capacity then (if xs.length = 0 then 1 else v.Capacity * 2)
        else v.Capacity) = _
    rw [hsz] at h
    rw [if_pos h, h]
  · intro h
    show (if xs.length = v.Capacity then (if xs.length = 0 then 1 else v.Capacity * 2)
        else v.Capacity) = _
    rw [hsz] at h
    rw [if_neg (by omega)]
  · rw [hs1]
    have := index_mid xs [] value _ hle
    exact this

/-- Witness of C6: appending 3 to `[1, 2]` held with capacity 2. -/
theorem C6_push_back_appends_witness :
    ∃ v1 w1, Vector.PushBack intType (Vector.of_values [1, 2] 2) 3 ⟨none, none, [], none⟩ =
        .ok () (v1, w1) ∧
      Vector.PushBack_move intType (Vector.of_values [1, 2] 2) 3 ⟨none, none, [], none⟩ =
        .ok () (v1, w1) ∧
      Vector.EmplaceBack intType (Vector.of_values [1, 2] 2) 3 ⟨none, none, [], none⟩ =
        .ok (v1.Size - 1) (v1, w1) ∧
      Holds v1 ([1, 2] ++ [3]) ∧
      v1.Size = (Vector.of_values [1, 2] 2).Size + 1 ∧
      ((Vector.of_values [(1 : Int), 2] 2).Size = (Vector.of_values [(1 : Int), 2] 2).Capacity →
        v1.Capacity = if (Vector.of_values [(1 : Int), 2] 2).Capacity = 0 then 1
          else (Vector.of_values [(1 : Int), 2] 2).Capacity * 2) ∧
      ((Vector.of_values [(1 : Int), 2] 2).Size < (Vector.of_values [(1 : Int), 2] 2).Capacity →
        v1.Capacity = (Vector.of_values [(1 : Int), 2] 2).Capacity) ∧
      v1.index (v1.Size - 1) = some 3 :=
  C6_push_back_appends intType (Vector.of_values [1, 2] 2) [1, 2] 3 ⟨none, none, [], none⟩
    (by decide) (by decide)

/-- C7, as amended: for a vector holding `xs` and a capacity `c`: when
`c ≤ Capacity()`, `Reserve(c)` returns with the vector and the world
unchanged; when `c > Capacity()`, the product `c * sizeof(T)` is
representable in `size_t` and nothing throws, it returns normally with
`Capacity() == c` exactly, the same `Size()` and the same values. -/
theorem C7_reserve {α : Type} (T : ElemType α) (v : Vector α) (xs : List α) (c : Nat)
    (w : World α) (hv : Holds v xs) :
    (c ≤ v.Capacity → Vector.Reserve T v c w = .ok () (v, w)) ∧
    (v.Capacity < c → w.fits T c → w.ops_left = none → w.allocs_left = none →
      ∃ v1 w1, Vector.Reserve T v c w = .ok () (v1, w1) ∧
        v1.Capacity = c ∧ v1.Size = v.Size ∧ Holds v1 xs ∧ v1.values = v.values) := by
  obtain ⟨hcap, hveq⟩ := (Holds_iff v xs).mp hv
  constructor
  · intro h
    unfold Vector.Reserve
    rw [if_pos h]
  · intro h hfit hops hal
    have k := Reserve_ok T xs v.Capacity c w hcap hops hal (Or.inr hfit)
    rw [← hveq] at k
    rw [if_neg (by omega)] at k
    have hH : Holds (Vector.of_values xs c) xs := Holds_of_values _ _ (by omega)
    exact ⟨_, _, k, rfl, (size_of_Holds hv).symm, hH,
      by rw [values_of_Holds hH, values_of_Holds hv]⟩

/-- Witness of C7: `Reserve(1)` and `Reserve(5)` on `[1, 2]` held with
capacity 2, with a 64-bit `size_t`. -/
theorem C7_reserve_witness :
    Vector.Reserve intType (Vector.of_values [1, 2] 2) 1
        ⟨none, none, [], some 18446744073709551615⟩ =
      .ok () (Vector.of_values [1, 2] 2, ⟨none, none, [], some 18446744073709551615⟩) ∧
    ∃ v1 w1, Vector.Reserve intType (Vector.of_values [1, 2] 2) 5
        ⟨none, none, [], some 18446744073709551615⟩ = .ok () (v1, w1) ∧
      v1.Capacity = 5 ∧ v1.Size = (Vector.of_values [(1 : Int), 2] 2).Size ∧
      Holds v1 [1, 2] ∧ v1.values = (Vector.of_values [(1 : Int), 2] 2).values :=
  ⟨(C7_reserve intType (Vector.of_values [1, 2] 2) [1, 2] 1
      ⟨none, none, [], some 18446744073709551615⟩ (by decide)).1 (by decide),
   (C7_reserve intType (Vector.of_values [1, 2] 2) [1, 2] 5
      ⟨none, none, [], some 18446744073709551615⟩ (by decide)).2
      (by decide) (by decide) rfl rfl⟩

/-- Counterexample to C7 as stated: with a 64-bit `size_t` and
`sizeof(T) == 4`, `Reserve(2^62)` on `[1, 2]` held with capacity 2.  The byte
count `2^62 * 4` wraps to 0, `operator new(0)` returns a block without a
single slot, and the transfer of the first element writes outside it:
undefined behaviour, with no exception injected.  On an empty vector the
same call returns, and leaves `Capacity() == 2^62` on that block. -/
theorem C7_reserve_wraps_counterexample :
    Holds (Vector.of_values [1, 2] 2) [(1 : Int), 2] ∧
    (Vector.of_values [(1 : Int), 2] 2).Capacity < 4611686018427387904 ∧
    RawMemory.create intType 4611686018427387904
        ⟨none, none, [], some 18446744073709551615⟩ =
      .ok ⟨some [], 4611686018427387904⟩ ⟨none, none, [], some 18446744073709551615⟩ ∧
    Vector.Reserve intType (Vector.of_values [1, 2] 2) 4611686018427387904
        ⟨none, none, [], some 18446744073709551615⟩ = .ub ∧
    Vector.Reserve intType Vector.empty 4611686018427387904
        ⟨none, none, [], some 18446744073709551615⟩ =
      .ok () (⟨⟨some [], 4611686018427387904⟩, 0⟩,
        ⟨none, none, [], some 18446744073709551615⟩) := by
  decide

/-! ## Failure on the growth path -/

theorem store_slots_of_values {α : Type} (xs : List α) (cap : Nat) :
    (⟨(Vector.of_values xs cap).data_.store
        (xs.map some ++ List.replicate (cap - xs.length) none), xs.length⟩ : Vector α) =
      Vector.of_values xs cap := by
  rw [store_of_values]
  rfl

theorem RawMemory.slots_some {α : Type} (b : Block α) (n : Nat) :
    (⟨some b, n⟩ : RawMemory α).slots = b := rfl

theorem RawMemory.store_some {α : Type} (b b1 : Block α) (n : Nat) :
    (⟨some b, n⟩ : RawMemory α).store b1 = ⟨some b1, n⟩ := rfl

/-- Outcome of `CopyAndSwap` under any budget of element operations, for an
element type that is nothrow move constructible or copy constructible: it
returns, or it throws and leaves the vector as it was. -/
theorem CopyAndSwap_strong {α : Type} (T : ElemType α)
    (hT : T.nothrow_move_constructible = true ∨ T.copy_constructible = true)
    (xs : List α) (cap n : Nat) (D : Block α) (w : World α) (h : xs.length ≤ cap) :
    (∃ old w1, Vector.CopyAndSwap T (Vector.of_values xs cap)
        ⟨some (List.replicate xs.length none ++ D), n⟩ w =
        .ok () (⟨⟨some (xs.map some ++ D), n⟩, xs.length⟩, old, w1)) ∨
    (∃ nd1 w1, Vector.CopyAndSwap T (Vector.of_values xs cap)
        ⟨some (List.replicate xs.length none ++ D), n⟩ w =
        .thrown .element_op (Vector.of_values xs cap, nd1, w1)) := by
  have hsz : (Vector.of_values xs cap).size_ = xs.length := rfl
  have hst := store_slots_of_values xs cap
  unfold Vector.CopyAndSwap
  by_cases hn : T.nothrow_move_constructible = true
  · left
    have hm := uninitialized_move_n_ok T xs [] (List.replicate (cap - xs.length) none) [] D 0 0 w
      rfl rfl (Or.inl hn)
    have hd := destroy_n_mid (xs.map T.moved_from) []
      (List.replicate (cap - xs.length) none) 0 rfl
    simp only [List.nil_append, List.length_map] at hm hd
    simp only [hn, Bool.true_or, if_true, hsz, slots_of_values xs cap h,
      RawMemory.slots_some, RawMemory.store_some, hm, hd, RawMemory.Swap]
    exact ⟨_, _, rfl⟩
  · have hcp : T.copy_constructible = true := by
      rcases hT with h1 | h1
      · exact absurd h1 hn
      · exact h1
    have hc := uninitialized_copy_n_eq (xs.map some ++ List.replicate (cap - xs.length) none)
      xs [] (List.replicate (cap - xs.length) none) [] D 0 0 w rfl rfl rfl
    have hd := destroy_n_mid xs [] (List.replicate (cap - xs.length) none) 0 rfl
    simp only [List.nil_append] at hc hd
    simp only [hn, hcp, Bool.not_true, Bool.or_false, Bool.false_eq_true, if_false, hsz,
      RawMemory.slots_some, RawMemory.store_some]
    by_cases ha : w.affords xs.length = true
    · left
      simp only [slots_of_values xs cap h, hc, ha, if_true, hd, RawMemory.Swap]
      exact ⟨_, _, rfl⟩
    · right
      refine ⟨⟨some (List.replicate xs.length none ++ D), n⟩, w.exhaust, ?_⟩
      simp only [slots_of_values xs cap h, hc, ha, Bool.false_eq_true, if_false, hst]

theorem create_cases {α : Type} (T : ElemType α) (n : Nat) (w : World α) (hn : n ≠ 0)
    (hfit : w.fits T n) :
    RawMemory.create T n w = .thrown .bad_alloc w ∨
      ∃ w1, RawMemory.create T n w = .ok ⟨some (List.replicate n none), n⟩ w1 := by
  unfold RawMemory.create RawMemory.Allocate
  cases hnc : w.new_call with
  | none => left; simp [hn]
  | some w1 => right; exact ⟨w1, by simp [hn, World.block_slots_of_fits w T n hfit]⟩

theorem grown_capacity_pos (len cap : Nat) (h : len ≤ cap) :
    len < (if len = 0 then 1 else cap * 2) := by
  split <;> omega

/-- `Reserve` returns, or throws and leaves the vector as it was. -/
theorem Reserve_outcome {α : Type} (T : ElemType α)
    (hT : T.nothrow_move_constructible = true ∨ T.copy_constructible = true)
    (xs : List α) (cap c : Nat) (w : World α) (h : xs.length ≤ cap)
    (hfit : c ≤ cap ∨ w.fits T c) :
    (∃ s, Vector.Reserve T (Vector.of_values xs cap) c w = .ok () s) ∨
    (∃ f w1, Vector.Reserve T (Vector.of_values xs cap) c w =
      .thrown f (Vector.of_values xs cap, w1)) := by
  unfold Vector.Reserve
  have hcap : (Vector.of_values xs cap).Capacity = cap := rfl
  rw [hcap]
  by_cases hc : c ≤ cap
  · left; exact ⟨_, by rw [if_pos hc]⟩
  · rw [if_neg hc]
    rcases create_cases T c w (by omega) (hfit.resolve_left hc) with hcr | ⟨w1, hcr⟩
    · right; exact ⟨_, _, by rw [hcr]⟩
    · rw [hcr, replicate_split none xs.length c (by omega)]
      rcases CopyAndSwap_strong T hT xs cap c (List.replicate (c - xs.length) none) w1 h with
        ⟨old, w2, hcs⟩ | ⟨nd1, w2, hcs⟩
      · simp only [hcs]; left; exact ⟨_, rfl⟩
      · simp only [hcs]; right; exact ⟨_, _, rfl⟩

/-- `PushBack(const T&)` on a full buffer returns, or throws and leaves the
vector as it was. -/
theorem PushBack_outcome {α : Type} (T : ElemType α)
    (hT : T.nothrow_move_constructible = true ∨ T.copy_constructible = true)
    (xs : List α) (value : α) (w : World α)
    (hfit : w.fits T (if xs.length = 0 then 1 else xs.length * 2)) :
    (∃ s, Vector.PushBack T (Vector.of_values xs xs.length) value w = .ok () s) ∨
    (∃ f w1, Vector.PushBack T (Vector.of_values xs xs.length) value w =
      .thrown f (Vector.of_values xs xs.length, w1)) := by
  unfold Vector.PushBack
  have hcap : (Vector.of_values xs xs.length).Capacity = xs.length := rfl
  have hsz : (Vector.of_values xs xs.length).size_ = xs.length := rfl
  rw [hcap, hsz, if_pos rfl]
  generalize hn : (if xs.length = 0 then 1 else xs.length * 2) = n
  have hn1 : xs.length < n := by rw [← hn]; exact grown_capacity_pos _ _ (Nat.le_refl _)
  rw [hn] at hfit
  rcases create_cases T n w (by omega) hfit with hcr | ⟨w1, hcr⟩
  · right; exact ⟨_, _, by rw [hcr]⟩
  · have hcp := uninitialized_copy_n_eq [some value] [value] [] []
      (List.replicate xs.length none) (List.replicate (n - xs.length - 1) none)
      0 xs.length w1 rfl (by simp) rfl
    simp only [List.length_singleton, List.replicate_one, List.singleton_append,
      List.map_cons, List.map_nil, ← replicate_split_succ none xs.length n hn1] at hcp
    rw [hcr]
    simp only [RawMemory.slots_some, RawMemory.store_some, hcp]
    by_cases ha : w1.affords 1 = true
    · simp only [ha, if_true]
      rcases CopyAndSwap_strong T hT xs xs.length n
          (some value :: List.replicate (n - xs.length - 1) none) (w1.spend 1)
          (Nat.le_refl _) with ⟨old, w2, hcs⟩ | ⟨nd1, w2, hcs⟩
      · simp only [hcs]; left; exact ⟨_, rfl⟩
      · simp only [hcs]; right; exact ⟨_, _, rfl⟩
    · right
      simp only [ha, Bool.false_eq_true, if_false]
      exact ⟨_, _, rfl⟩

theorem uninitialized_move_n_one {α : Type} (T : ElemType α) (value : α)
    (C D : Block α) (d : Nat) (w : World α) (hd : d = C.length) :
    uninitialized_move_n T [some value] 0 1 (C ++ none :: D) d w =
      match w.move_tick T with
      | none => .thrown .element_op ([some value], C ++ none :: D, w)
      | some w1 => .ok () ([some (T.moved_from value)], C ++ some value :: D, w1) := by
  have hr : Block.read [some value] 0 = some value := rfl
  have ha : Block.assign [some value] 0 (T.moved_from value) =
      some [some (T.moved_from value)] := rfl
  simp only [uninitialized_move_n, hr, Block.construct_mid C value D d hd, ha]

/-- `PushBack(T&&)` on a full buffer returns, or throws and leaves the vector
as it was. -/
theorem PushBack_move_outcome {α : Type} (T : ElemType α)
    (hT : T.nothrow_move_constructible = true ∨ T.copy_constructible = true)
    (xs : List α) (value : α) (w : World α)
    (hfit : w.fits T (if xs.length = 0 then 1 else xs.length * 2)) :
    (∃ s, Vector.PushBack_move T (Vector.of_values xs xs.length) value w = .ok () s) ∨
    (∃ f w1, Vector.PushBack_move T (Vector.of_values xs xs.length) value w =
      .thrown f (Vector.of_values xs xs.length, w1)) := by
  unfold Vector.PushBack_move
  have hcap : (Vector.of_values xs xs.length).Capacity = xs.length := rfl
  have hsz : (Vector.of_values xs xs.length).size_ = xs.length := rfl
  rw [hcap, hsz, if_pos rfl]
  generalize hn : (if xs.length = 0 then 1 else xs.length * 2) = n
  have hn1 : xs.length < n := by rw [← hn]; exact grown_capacity_pos _ _ (Nat.le_refl _)
  rw [hn] at hfit
  rcases create_cases T n w (by omega) hfit with hcr | ⟨w1, hcr⟩
  · right; exact ⟨_, _, by rw [hcr]⟩
  · have hcp := uninitialized_move_n_one T value (List.replicate xs.length none)
      (List.replicate (n - xs.length - 1) none) xs.length w1 (by simp)
    rw [← replicate_split_succ none xs.length n hn1] at hcp
    rw [hcr]
    simp only [RawMemory.slots_some, RawMemory.store_some, hcp]
    cases hmt : w1.move_tick T with
    | none => right; exact ⟨_, _, rfl⟩
    | some w2 =>
      simp only []
      rcases CopyAndSwap_strong T hT xs xs.length n
          (some value :: List.replicate (n - xs.length - 1) none) w2
          (Nat.le_refl _) with ⟨old, w3, hcs⟩ | ⟨nd1, w3, hcs⟩
      · simp only [hcs]; left; exact ⟨_, rfl⟩
      · simp only [hcs]; right; exact ⟨_, _, rfl⟩

/-- `EmplaceBack` on a full buffer returns, or throws and leaves the vector as
it was. -/
theorem EmplaceBack_outcome {α : Type} (T : ElemType α)
    (hT : T.nothrow_move_constructible = true ∨ T.copy_constructible = true)
    (xs : List α) (value : α) (w : World α)
    (hfit : w.fits T (if xs.length = 0 then 1 else xs.length * 2)) :
    (∃ r s, Vector.EmplaceBack T (Vector.of_values xs xs.length) value w = .ok r s) ∨
    (∃ f w1, Vector.EmplaceBack T (Vector.of_values xs xs.length) value w =
      .thrown f (Vector.of_values xs xs.length, w1)) := by
  unfold Vector.EmplaceBack
  have hcap : (Vector.of_values xs xs.length).Capacity = xs.length := rfl
  have hsz : (Vector.of_values xs xs.length).size_ = xs.length := rfl
  rw [hcap, hsz, if_pos rfl]
  generalize hn : (if xs.length = 0 then 1 else xs.length * 2) = n
  have hn1 : xs.length < n := by rw [← hn]; exact grown_capacity_pos _ _ (Nat.le_refl _)
  rw [hn] at hfit
  rcases create_cases T n w (by omega) hfit with hcr | ⟨w1, hcr⟩
  · right; exact ⟨_, _, by rw [hcr]⟩
  · have hcp := Block.construct_mid (List.replicate xs.length none) value
      (List.replicate (n - xs.length - 1) none) xs.length (by simp)
    rw [← replicate_split_succ none xs.length n hn1] at hcp
    rw [hcr]
    simp only [RawMemory.slots_some, RawMemory.store_some, hcp]
    cases hmt : w1.tick with
    | none => right; exact ⟨_, _, rfl⟩
    | some w2 =>
      simp only []
      rcases CopyAndSwap_strong T hT xs xs.length n
          (some value :: List.replicate (n - xs.length - 1) none) w2
          (Nat.le_refl _) with ⟨old, w3, hcs⟩ | ⟨nd1, w3, hcs⟩
      · simp only [hcs, RawMemory.index]
        rw [if_pos (by simp; omega)]
        left; exact ⟨_, _, rfl⟩
      · simp only [hcs]; right; exact ⟨_, _, rfl⟩

theorem uninitialized_copy_n_eq' {α : Type} (ys : List α)
    (A B C D dst1 src dst : Block α) (first n d : Nat) (w : World α)
    (hsrc : src = A ++ (ys.map some ++ B))
    (hdst : dst = C ++ (List.replicate ys.length none ++ D))
    (hn : n = ys.length) (hf : first = A.length) (hd : d = C.length)
    (hdst1 : dst1 = C ++ (ys.map some ++ D)) :
    uninitialized_copy_n src first n dst d w =
      if w.affords n then .ok () (dst1, w.spend n)
      else .thrown .element_op (dst, w.exhaust) := by
  subst hdst hn hdst1
  exact uninitialized_copy_n_eq src ys A B C D first d w hf hd hsrc

/-- `Emplace` on a full buffer returns, or throws and leaves the vector as it
was. -/
theorem Emplace_outcome {α : Type} (T : ElemType α)
    (hT : T.nothrow_move_constructible = true ∨ T.copy_constructible = true)
    (pre post : List α) (arg : Arg α) (value : α) (w : World α)
    (hfit : w.fits T (if (pre ++ post).length = 0 then 1 else (pre ++ post).length * 2))
    (harg : arg.read (Vector.of_values (pre ++ post) (pre ++ post).length).data_.slots =
      some value) :
    (∃ r s, Vector.Emplace T (Vector.of_values (pre ++ post) (pre ++ post).length)
        pre.length arg w = .ok r s) ∨
    (∃ f w1, Vector.Emplace T (Vector.of_values (pre ++ post) (pre ++ post).length)
        pre.length arg w =
      .thrown f (Vector.of_values (pre ++ post) (pre ++ post).length, w1)) := by
  unfold Vector.Emplace
  have hcap : (Vector.of_values (pre ++ post) (pre ++ post).length).Capacity =
    (pre ++ post).length := rfl
  have hsz : (Vector.of_values (pre ++ post) (pre ++ post).length).size_ =
    (pre ++ post).length := rfl
  have hpos : pre.length ≤ (pre ++ post).length := by simp
  have hst := store_slots_of_values (pre ++ post) (pre ++ post).length
  rw [slots_of_values _ _ (Nat.le_refl (pre ++ post).length)] at harg
  simp only [hcap, hsz, hpos, if_true, slots_of_values _ _ (Nat.le_refl (pre ++ post).length),
    harg]
  generalize hn : (if (pre ++ post).length = 0 then 1 else (pre ++ post).length * 2) = n
  have hn1 : (pre ++ post).length < n := by
    rw [← hn]; exact grown_capacity_pos _ _ (Nat.le_refl _)
  have hlen : (pre ++ post).length = pre.length + post.length := by simp
  rw [hn] at hfit
  rcases create_cases T n w (by omega) hfit with hcr | ⟨w1, hcr⟩
  · simp only [hcr]; right; exact ⟨_, _, rfl⟩
  · simp only [hcr, RawMemory.slots_some, RawMemory.store_some]
    cases htk : w1.tick with
    | none => simp only []; right; exact ⟨_, _, rfl⟩
    | some w2 =>
      have hcp := Block.construct_mid (List.replicate pre.length none) value
        (List.replicate (n - pre.length - 1) none) pre.length (by simp)
      rw [← replicate_split_succ none pre.length n (by omega)] at hcp
      have hD : List.replicate (n - pre.length - 1) (none : Option α) =
          List.replicate post.length none ++
            List.replicate (n - (pre ++ post).length - 1) none := by
        rw [← List.replicate_add]; congr 1; omega
      simp only [hcp]
      by_cases hnt : T.nothrow_move_constructible = true
      · have hm1 : uninitialized_move_n T
            (List.map some (pre ++ post) ++
              List.replicate ((pre ++ post).length - (pre ++ post).length) none) 0 pre.length
            (List.replicate pre.length none ++
              some value :: List.replicate (n - pre.length - 1) none)
            0 w2 = .ok () ((pre.map T.moved_from).map some ++ post.map some,
              pre.map some ++ some value :: List.replicate (n - pre.length - 1) none, w2) := by
          apply uninitialized_move_n_ok' T pre [] (post.map some) []
            (some value :: List.replicate (n - pre.length - 1) none) <;> simp [hnt]
        have hm2 : uninitialized_move_n T ((pre.map T.moved_from).map some ++ post.map some)
            pre.length ((pre ++ post).length - pre.length)
            (pre.map some ++ some value :: List.replicate (n - pre.length - 1) none)
            (pre.length + 1) w2 = .ok () (((pre ++ post).map T.moved_from).map some,
              (pre ++ value :: post).map some ++
                List.replicate (n - (pre ++ post).length - 1) none, w2) := by
          apply uninitialized_move_n_ok' T post ((pre.map T.moved_from).map some) []
            (pre.map some ++ [some value])
            (List.replicate (n - (pre ++ post).length - 1) none) <;> simp [hnt, hD]
        have hd1 : destroy_n (((pre ++ post).map T.moved_from).map some) 0
            (pre ++ post).length = some (List.replicate (pre ++ post).length none) := by
          apply destroy_n_ok' ((pre ++ post).map T.moved_from) [] [] <;> simp
        simp only [hnt, Bool.true_or, if_true, hm1, hm2, hd1]
        left; exact ⟨_, _, rfl⟩
      · have hcc : T.copy_constructible = true := by
          rcases hT with h1 | h1
          · exact absurd h1 hnt
          · exact h1
        have hc1 := uninitialized_copy_n_eq' pre [] (post.map some) []
          (some value :: List.replicate (n - pre.length - 1) none)
          (pre.map some ++ some value :: List.replicate (n - pre.length - 1) none)
          (List.map some (pre ++ post) ++
              List.replicate ((pre ++ post).length - (pre ++ post).length) none)
          (List.replicate pre.length none ++
              some value :: List.replicate (n - pre.length - 1) none)
          0 pre.length 0 w2
          (by simp) (by simp) rfl rfl rfl (by simp)
        have hc2 := uninitialized_copy_n_eq' post (pre.map some) []
          (pre.map some ++ [some value])
          (List.replicate (n - (pre ++ post).length - 1) none)
          ((pre ++ value :: post).map some ++
            List.replicate (n - (pre ++ post).length - 1) none)
          (List.map some (pre ++ post) ++
              List.replicate ((pre ++ post).length - (pre ++ post).length) none)
          (pre.map some ++ some value :: List.replicate (n - pre.length - 1) none)
          pre.length ((pre ++ post).length - pre.length) (pre.length + 1)
          (w2.spend pre.length)
          (by simp) (by simp [hD]) (by simp) (by simp) (by simp) (by simp)
        have hd2 : destroy_n (List.map some (pre ++ post) ++
              List.replicate ((pre ++ post).length - (pre ++ post).length) none) 0
              (pre ++ post).length =
            some (List.replicate (pre ++ post).length none) := by
          apply destroy_n_ok' (pre ++ post) [] [] <;> simp
        simp only [hnt, hcc, Bool.not_true, Bool.or_false, Bool.false_eq_true, if_false, hc1]
        by_cases ha1 : w2.affords pre.length = true
        · simp only [ha1, if_true, hc2]
          by_cases ha2 : (w2.spend pre.length).affords ((pre ++ post).length - pre.length) = true
          · simp only [ha2, if_true, hd2]
            left; exact ⟨_, _, rfl⟩
          · simp only [ha2, Bool.false_eq_true, if_false, hst]
            right; exact ⟨_, _, rfl⟩
        · simp only [ha1, Bool.false_eq_true, if_false, hst]
          right; exact ⟨_, _, rfl⟩

theorem strong_of_outcome {α ρ : Type} (r : Res (Vector α × World α) ρ) (v : Vector α)
    (h : (∃ x s, r = .ok x s) ∨ (∃ f w1, r = .thrown f (v, w1))) :
    r ≠ .ub ∧ ∀ f v1 w1, r = .thrown f (v1, w1) → v1 = v := by
  rcases h with ⟨x, s, rfl⟩ | ⟨f, w1, rfl⟩
  · exact ⟨by simp, by intro f v1 w1 h; simp at h⟩
  · refine ⟨by simp, ?_⟩
    intro f2 v1 w2 h
    simp only [Res.thrown.injEq, Prod.mk.injEq] at h
    exact h.2.1.symm

theorem strong_of_outcome_unit {α : Type} (r : Res (Vector α × World α) Unit) (v : Vector α)
    (h : (∃ s, r = .ok () s) ∨ (∃ f w1, r = .thrown f (v, w1))) :
    r ≠ .ub ∧ ∀ f v1 w1, r = .thrown f (v1, w1) → v1 = v := by
  apply strong_of_outcome
  rcases h with ⟨s, hs⟩ | h
  · exact Or.inl ⟨(), s, hs⟩
  · exact Or.inr h

/-- C8, as amended: for an element type that is nothrow move constructible
or copy constructible, a vector at rest and any budget of element operations
and allocations: `Reserve(c)` for a `c` with `c ≤ Capacity()` or with
`c * sizeof(T)` representable in `size_t`, and, on a full buffer
(`size == capacity`) whose grown capacity is so representable, `PushBack`
(both overloads), `EmplaceBack`, `Emplace` and `Insert` (both overloads; the
argument of `Emplace` and of `Insert(pos, const T&)` may be an element of the
vector itself), do not run into undefined behaviour, and whenever one of
them throws, the vector it leaves is the vector before the call: same
`Size()`, same `Capacity()`, same buffer contents. -/
theorem C8_growth_path_strong_guarantee {α : Type} (T : ElemType α)
    (hT : T.nothrow_move_constructible = true ∨ T.copy_constructible = true)
    (v : Vector α) (xs : List α) (hv : Holds v xs) (w : World α) :
    (∀ c, (c ≤ v.Capacity ∨ w.fits T c) → Vector.Reserve T v c w ≠ .ub ∧
      ∀ f v1 w1, Vector.Reserve T v c w = .thrown f (v1, w1) → v1 = v) ∧
    (v.Size = v.Capacity → w.fits T (if v.Size = 0 then 1 else v.Capacity * 2) → ∀ value,
      (Vector.PushBack T v value w ≠ .ub ∧
        ∀ f v1 w1, Vector.PushBack T v value w = .thrown f (v1, w1) → v1 = v) ∧
      (Vector.PushBack_move T v value w ≠ .ub ∧
        ∀ f v1 w1, Vector.PushBack_move T v value w = .thrown f (v1, w1) → v1 = v) ∧
      (Vector.EmplaceBack T v value w ≠ .ub ∧
        ∀ f v1 w1, Vector.EmplaceBack T v value w = .thrown f (v1, w1) → v1 = v) ∧
      ∀ p, p ≤ v.Size →
        (∀ arg, arg.read v.data_.slots = some value →
          (Vector.Emplace T v p arg w ≠ .ub ∧
            ∀ f v1 w1, Vector.Emplace T v p arg w = .thrown f (v1, w1) → v1 = v) ∧
          (Vector.Insert T v p arg w ≠ .ub ∧
            ∀ f v1 w1, Vector.Insert T v p arg w = .thrown f (v1, w1) → v1 = v)) ∧
        (Vector.Insert_move T v p value w ≠ .ub ∧
          ∀ f v1 w1, Vector.Insert_move T v p value w = .thrown f (v1, w1) → v1 = v)) := by
  obtain ⟨hcap, hveq⟩ := (Holds_iff v xs).mp hv
  have hsz : v.Size = xs.length := size_of_Holds hv
  constructor
  · intro c hfit
    have k := Reserve_outcome T hT xs v.Capacity c w hcap hfit
    rw [← hveq] at k
    exact strong_of_outcome_unit _ _ k
  · intro hfull hfit value
    have hc : v.Capacity = xs.length := by rw [← hfull, hsz]
    have hveq2 : v = Vector.of_values xs xs.length := by rw [← hc]; exact hveq
    rw [hsz, hc] at hfit
    have k1 := PushBack_outcome T hT xs value w hfit
    have k2 := PushBack_move_outcome T hT xs value w hfit
    have k3 := EmplaceBack_outcome T hT xs value w hfit
    rw [← hveq2] at k1 k2 k3
    refine ⟨strong_of_outcome_unit _ _ k1, strong_of_outcome_unit _ _ k2,
      strong_of_outcome _ _ k3, ?_⟩
    intro p hp
    have hpx : p ≤ xs.length := by rw [← hsz]; exact hp
    have hlen : (xs.take p).length = p := by simp [hpx]
    have hxs : xs.take p ++ xs.drop p = xs := List.take_append_drop p xs
    have key : ∀ arg : Arg α, arg.read v.data_.slots = some value →
        (Vector.Emplace T v p arg w ≠ .ub ∧
          ∀ f v1 w1, Vector.Emplace T v p arg w = .thrown f (v1, w1) → v1 = v) := by
      intro arg harg
      have k4 := Emplace_outcome T hT (xs.take p) (xs.drop p) arg value w
        (by rw [hxs]; exact hfit) (by rw [hxs, ← hveq2]; exact harg)
      rw [hxs, hlen, ← hveq2] at k4
      exact strong_of_outcome _ _ k4
    exact ⟨fun arg harg => ⟨key arg harg, key arg harg⟩, key (.object value) rfl⟩

/-- Witness of C8: `Reserve(4)` on `[1, 2]` held with capacity 2, for an
element type whose copy constructor throws on its second call; the vector
left by the exception is the one before the call. -/
theorem C8_growth_path_strong_guarantee_witness :
    Vector.Reserve copyOnlyType (Vector.of_values [1, 2] 2) 4
        ⟨some 1, none, [], some 18446744073709551615⟩ =
        .thrown .element_op (⟨⟨some [some 1, some 2], 2⟩, 2⟩,
          ⟨some 0, none, [[none, none, none, none]], some 18446744073709551615⟩) ∧
      (⟨⟨some [some 1, some 2], 2⟩, 2⟩ : Vector Int) = Vector.of_values [1, 2] 2 :=
  ⟨by decide,
   ((C8_growth_path_strong_guarantee copyOnlyType (Or.inr rfl) (Vector.of_values [1, 2] 2)
      [1, 2] (by decide) ⟨some 1, none, [], some 18446744073709551615⟩).1 4
        (Or.inr (by decide))).2 .element_op _
      ⟨some 0, none, [[none, none, none, none]], some 18446744073709551615⟩ (by decide)⟩

/-- Counterexample to C8 as stated.  For an element type that cannot be
copied and whose move constructor throws on its second call, `Reserve(4)` on
`[1, 2]` held with capacity 2 throws and leaves the values `[0, 2]`: the
first element has been moved from.  And for a copyable element type of 8
bytes with a 64-bit `size_t`, `Reserve(2^61)` on the same vector asks
`operator new` for `2^61 * 8` bytes, which wraps to 0: the first copy is
written outside the block, undefined behaviour before the second copy can
fail. -/
theorem C8_growth_path_counterexample :
    Holds (Vector.of_values [1, 2] 2) [(1 : Int), 2] ∧
    (Vector.of_values [(1 : Int), 2] 2).Capacity < 4 ∧
    Vector.Reserve moveOnlyType (Vector.of_values [1, 2] 2) 4
        ⟨some 1, none, [], some 18446744073709551615⟩ =
      .thrown .element_op (⟨⟨some [some 0, some 2], 2⟩, 2⟩,
        ⟨some 0, none, [[none, none, none, none]], some 18446744073709551615⟩) ∧
    (⟨⟨some [some 0, some 2], 2⟩, 2⟩ : Vector Int).values = some [0, 2] ∧
    (Vector.of_values [(1 : Int), 2] 2).values = some [1, 2] ∧
    Vector.Reserve copyOnlyType (Vector.of_values [1, 2] 2) 2305843009213693952
        ⟨some 1, none, [], some 18446744073709551615⟩ = .ub := by
  decide

/-- C9, evaluated on the code: `Insert` of 9 at index 0 of `[1, 2]` held with
capacity 4, for an element type whose second operation throws (the first
shift assignment, after the last element has been move-constructed into slot
2).  The exception leaves `Size() == 2` and slot 2 constructed: the
constructed slots are `[0, 3)`, not `[0, Size())`. -/
theorem C9_shifting_insert_leaves_element_outside_live_range :
    ∃ v1 w1, Vector.Insert copyOnlyType (Vector.of_values [1, 2] 4) 0 (.object 9)
        ⟨some 1, none, [], none⟩ = .thrown .element_op (v1, w1) ∧
      v1.Size = 2 ∧ v1.Capacity = 4 ∧
      v1.data_.slots = [some 1, some 2, some 2, none] ∧
      ¬ v1.live_range_exact :=
  ⟨⟨⟨some [some 1, some 2, some 2, none], 4⟩, 2⟩, ⟨some 0, none, [], none⟩,
    by decide, by decide, by decide, by decide, by decide⟩

/-- C10, evaluated on the code: move assignment of `[3]` into a vector that
holds `[1, 2]` hands the old buffer of the assigned vector to
`operator delete` with both of its elements still constructed; the destructor
of the same vector destroys them before it releases the buffer. -/
theorem C10_move_assign_releases_live_elements :
    Vector.move_assign (Vector.of_values [(1 : Int), 2] 2) (Vector.of_values [3] 1)
        ⟨none, none, [], none⟩ =
      (Vector.of_values [3] 1, ⟨⟨none, 0⟩, 0⟩, ⟨none, none, [[some 1, some 2]], none⟩) ∧
    Vector.destructor (Vector.of_values [(1 : Int), 2] 2) ⟨none, none, [], none⟩ =
      some ⟨none, none, [[none, none]], none⟩ := by
  decide

/-! ## Moves and swaps -/

/-- C11: for a vector `A` holding `xs`, move-constructing `B` from `A`, and
move-assigning `A` into another vector `B0`, both leave the target holding
`xs` with the `Size()`, the `Capacity()` and the buffer of `A`, and leave `A`
with `Size() == 0`, `Capacity() == 0` and a null buffer. -/
theorem C11_move_transfers_buffer {α : Type} (A B0 : Vector α) (xs : List α) (w : World α)
    (hA : Holds A xs) :
    (∃ B A1, Vector.move_construct A = (B, A1) ∧
      Holds B xs ∧ B.Size = A.Size ∧ B.Capacity = A.Capacity ∧
      B.data_.buffer_ = A.data_.buffer_ ∧
      A1.Size = 0 ∧ A1.Capacity = 0 ∧ A1.data_.buffer_ = none) ∧
    (∃ B A1 w1, Vector.move_assign B0 A w = (B, A1, w1) ∧
      Holds B xs ∧ B.Size = A.Size ∧ B.Capacity = A.Capacity ∧
      B.data_.buffer_ = A.data_.buffer_ ∧
      A1.Size = 0 ∧ A1.Capacity = 0 ∧ A1.data_.buffer_ = none) := by
  rcases A with ⟨⟨buf, cap⟩, size⟩
  constructor
  · exact ⟨_, _, rfl, hA, rfl, rfl, rfl, rfl, rfl, rfl⟩
  · exact ⟨_, _, _, rfl, hA, rfl, rfl, rfl, rfl, rfl, rfl⟩

/-- Witness of C11: `[1, 2]` held with capacity 4, moved into a new vector
and move-assigned into a vector holding `[7]`. -/
theorem C11_move_transfers_buffer_witness :
    (∃ B A1, Vector.move_construct (Vector.of_values [(1 : Int), 2] 4) = (B, A1) ∧
      Holds B [1, 2] ∧ B.Size = (Vector.of_values [(1 : Int), 2] 4).Size ∧
      B.Capacity = (Vector.of_values [(1 : Int), 2] 4).Capacity ∧
      B.data_.buffer_ = (Vector.of_values [(1 : Int), 2] 4).data_.buffer_ ∧
      A1.Size = 0 ∧ A1.Capacity = 0 ∧ A1.data_.buffer_ = none) ∧
    (∃ B A1 w1, Vector.move_assign (Vector.of_values [7] 1)
        (Vector.of_values [(1 : Int), 2] 4) ⟨none, none, [], none⟩ = (B, A1, w1) ∧
      Holds B [1, 2] ∧ B.Size = (Vector.of_values [(1 : Int), 2] 4).Size ∧
      B.Capacity = (Vector.of_values [(1 : Int), 2] 4).Capacity ∧
      B.data_.buffer_ = (Vector.of_values [(1 : Int), 2] 4).data_.buffer_ ∧
      A1.Size = 0 ∧ A1.Capacity = 0 ∧ A1.data_.buffer_ = none) :=
  C11_move_transfers_buffer (Vector.of_values [1, 2] 4) (Vector.of_values [7] 1) [1, 2]
    ⟨none, none, [], none⟩ (by decide)

theorem Swap_eq {α : Type} (a b : Vector α) (w : World α) :
    Vector.Swap a b w = (b, a, w) := by
  rcases a with ⟨⟨ba, ca⟩, sa⟩
  rcases b with ⟨⟨bb, cb⟩, sb⟩
  rfl

theorem Swap_self_eq {α : Type} (a : Vector α) (w : World α) :
    Vector.Swap_self a w = (a, w) := by
  rcases a with ⟨⟨ba, ca⟩, sa⟩
  rfl

/-- C16: for any two vectors `a` and `b`, `a.Swap(b)` leaves `a` with the
former state of `b` and `b` with the former state of `a` (values, size,
capacity and buffer), returns without an exception and hands no block to
`operator delete` (the world is unchanged); a second swap restores both
vectors, and `a.Swap(a)` leaves `a` unchanged. -/
theorem C16_swap_exchanges {α : Type} (a b : Vector α) (w : World α) :
    Vector.Swap a b w = (b, a, w) ∧
    (Vector.Swap a b w).1.values = b.values ∧
    (Vector.Swap a b w).1.Size = b.Size ∧
    (Vector.Swap a b w).1.Capacity = b.Capacity ∧
    (Vector.Swap a b w).2.1.values = a.values ∧
    (Vector.Swap a b w).2.1.Size = a.Size ∧
    (Vector.Swap a b w).2.1.Capacity = a.Capacity ∧
    (Vector.Swap a b w).2.2.released = w.released ∧
    Vector.Swap (Vector.Swap a b w).1 (Vector.Swap a b w).2.1 (Vector.Swap a b w).2.2 =
      (a, b, w) ∧
    Vector.Swap_self a w = (a, w) := by
  rw [Swap_eq a b w]
  exact ⟨rfl, rfl, rfl, rfl, rfl, rfl, rfl, rfl, Swap_eq b a w, Swap_self_eq a w⟩

/-! ## Appending at the end -/

/-- C19: for a vector holding `xs` and a value `value`, `PushBack` (both
overloads), `EmplaceBack` and `Emplace`/`Insert` at `end()` all return
normally in one and the same state of the vector and of the world: the same
values, the same `Size()` and the same `Capacity()`, whether the buffer was
full or not.  The argument of `Emplace` and of `Insert(pos, const T&)` is any
reference to an object of value `value`, an element of the vector itself
included. -/
theorem C19_append_operations_agree {α : Type} (T : ElemType α) (v : Vector α)
    (xs : List α) (value : α) (w : World α) (hv : Holds v xs) (hw : w.fault_free) :
    ∃ v1 w1, Vector.PushBack T v value w = .ok () (v1, w1) ∧
      Vector.PushBack_move T v value w = .ok () (v1, w1) ∧
      Vector.EmplaceBack T v value w = .ok (v1.Size - 1) (v1, w1) ∧
      (∀ arg, arg.read v.data_.slots = some value →
        Vector.Emplace T v v.Size arg w = .ok v.Size (v1, w1) ∧
        Vector.Insert T v v.Size arg w = .ok v.Size (v1, w1)) ∧
      Vector.Insert_move T v v.Size value w = .ok v.Size (v1, w1) ∧
      Holds v1 (xs ++ [value]) ∧
      v1.Capacity = (if v.Size = v.Capacity then (if v.Size = 0 then 1 else v.Capacity * 2)
        else v.Capacity) := by
  obtain ⟨hcap, hveq⟩ := (Holds_iff v xs).mp hv
  have hsz : v.Size = xs.length := size_of_Holds hv
  have hfit := fun (_ : xs.length = v.Capacity) =>
    World.fits_of_fault_free w hw T (if xs.length = 0 then 1 else v.Capacity * 2)
  have hslots : v.data_.slots =
      List.map some xs ++ List.replicate (v.Capacity - xs.length) none := by
    have := slots_of_values xs v.Capacity hcap
    rwa [← hveq] at this
  have k1 := PushBack_ok T xs v.Capacity value w hcap hw.1 hw.2.1 hfit
  have k2 := PushBack_move_ok T xs v.Capacity value w hcap hw.1 hw.2.1 hfit
  have k3 := EmplaceBack_ok T xs v.Capacity value w hcap hw.1 hw.2.1 hfit
  have k4 := fun (arg : Arg α) (harg : arg.read v.data_.slots = some value) =>
    Emplace_ok T xs [] v.Capacity arg value w (by simpa using hcap) hw.1 hw.2.1
      (by rw [List.append_nil]; exact hfit) (by simpa [hslots] using harg)
      (Or.inr (Or.inl rfl))
  simp only [List.append_nil] at k4
  rw [← hveq] at k1 k2 k3 k4
  rw [hsz]
  have hle : (xs ++ [value]).length ≤
      (if xs.length = v.Capacity then (if xs.length = 0 then 1 else v.Capacity * 2)
        else v.Capacity) := by
    simp only [List.length_append, List.length_singleton]
    split
    · split <;> omega
    · omega
  have hs1 : ∀ c, (Vector.of_values (xs ++ [value]) c).Size - 1 = xs.length := by
    intro c
    show (xs ++ [value]).length - 1 = xs.length
    simp
  by_cases hc : xs.length = v.Capacity
  · simp only [if_pos hc] at k1 k2 k3 k4 hle ⊢
    exact ⟨_, _, k1, k2, by rw [hs1]; exact k3,
      fun arg harg => ⟨k4 arg harg, k4 arg harg⟩, k4 (.object value) rfl,
      Holds_of_values _ _ hle, rfl⟩
  · simp only [if_neg hc] at k1 k2 k3 k4 hle ⊢
    exact ⟨_, _, k1, k2, by rw [hs1]; exact k3,
      fun arg harg => ⟨k4 arg harg, k4 arg harg⟩, k4 (.object value) rfl,
      Holds_of_values _ _ hle, rfl⟩

/-- Witness of C19: appending 3 to `[1, 2]` held with capacity 2 (growth). -/
theorem C19_append_operations_agree_witness :
    ∃ v1 w1, Vector.PushBack intType (Vector.of_values [1, 2] 2) 3 ⟨none, none, [], none⟩ =
        .ok () (v1, w1) ∧
      Vector.PushBack_move intType (Vector.of_values [1, 2] 2) 3 ⟨none, none, [], none⟩ =
        .ok () (v1, w1) ∧
      Vector.EmplaceBack intType (Vector.of_values [1, 2] 2) 3 ⟨none, none, [], none⟩ =
        .ok (v1.Size - 1) (v1, w1) ∧
      (∀ arg : Arg Int, arg.read (Vector.of_values [(1 : Int), 2] 2).data_.slots = some 3 →
        Vector.Emplace intType (Vector.of_values [1, 2] 2)
            (Vector.of_values [(1 : Int), 2] 2).Size arg ⟨none, none, [], none⟩ =
          .ok (Vector.of_values [(1 : Int), 2] 2).Size (v1, w1) ∧
        Vector.Insert intType (Vector.of_values [1, 2] 2)
            (Vector.of_values [(1 : Int), 2] 2).Size arg ⟨none, none, [], none⟩ =
          .ok (Vector.of_values [(1 : Int), 2] 2).Size (v1, w1)) ∧
      Vector.Insert_move intType (Vector.of_values [1, 2] 2)
          (Vector.of_values [(1 : Int), 2] 2).Size 3 ⟨none, none, [], none⟩ =
        .ok (Vector.of_values [(1 : Int), 2] 2).Size (v1, w1) ∧
      Holds v1 ([1, 2] ++ [3]) ∧
      v1.Capacity =
        (if (Vector.of_values [(1 : Int), 2] 2).Size =
            (Vector.of_values [(1 : Int), 2] 2).Capacity then
          (if (Vector.of_values [(1 : Int), 2] 2).Size = 0 then 1
            else (Vector.of_values [(1 : Int), 2] 2).Capacity * 2)
        else (Vector.of_values [(1 : Int), 2] 2).Capacity) :=
  C19_append_operations_agree intType (Vector.of_values [1, 2] 2) [1, 2] 3
    ⟨none, none, [], none⟩ (by decide) (by decide)

/-! ## Allocation failure -/

theorem create_fails {α : Type} (T : ElemType α) (n : Nat) (w : World α) (hn : n ≠ 0)
    (h : w.allocs_left = some 0) :
    RawMemory.create T n w = .thrown .bad_alloc w := by
  simp [RawMemory.create, RawMemory.Allocate, hn, World.new_call, h]

/-- C18: when `operator new` fails (no allocation succeeds any more), each
operation that has to allocate throws `std::bad_alloc` and leaves the vector
and the world exactly as before the call, so no element operation has run:
`Reserve` with a larger capacity, `PushBack` (both overloads), `EmplaceBack`,
`Emplace` and `Insert` (both overloads, whatever the argument refers to) on a
full buffer, `Resize` beyond the capacity, and copy assignment from a vector
larger than the capacity. -/
theorem C18_allocation_failure_leaves_vector {α : Type} (T : ElemType α) (v : Vector α)
    (w : World α) (hinv : v.Size ≤ v.Capacity) (hal : w.allocs_left = some 0) :
    (∀ c, v.Capacity < c → Vector.Reserve T v c w = .thrown .bad_alloc (v, w)) ∧
    (v.Size = v.Capacity → ∀ value,
      Vector.PushBack T v value w = .thrown .bad_alloc (v, w) ∧
      Vector.PushBack_move T v value w = .thrown .bad_alloc (v, w) ∧
      Vector.EmplaceBack T v value w = .thrown .bad_alloc (v, w) ∧
      ∀ p, p ≤ v.Size →
        (∀ arg, Vector.Emplace T v p arg w = .thrown .bad_alloc (v, w) ∧
          Vector.Insert T v p arg w = .thrown .bad_alloc (v, w)) ∧
        Vector.Insert_move T v p value w = .thrown .bad_alloc (v, w)) ∧
    (∀ n, v.Capacity < n → Vector.Resize T v n w = .thrown .bad_alloc (v, w)) ∧
    (∀ rhs : Vector α, v.Capacity < rhs.Size →
      Vector.copy_assign T v (some rhs) w = .thrown .bad_alloc (v, w)) := by
  have hres : ∀ c, v.Capacity < c → Vector.Reserve T v c w = .thrown .bad_alloc (v, w) := by
    intro c hc
    unfold Vector.Reserve
    rw [if_neg (by omega), create_fails T c w (by omega) hal]
  refine ⟨hres, ?_, ?_, ?_⟩
  · intro hfull value
    have hsz : v.size_ = v.Capacity := hfull
    have hn : (if v.size_ = 0 then 1 else v.Capacity * 2) ≠ 0 := by
      split <;> omega
    have hcr := create_fails T _ w hn hal
    refine ⟨?_, ?_, ?_, ?_⟩
    · unfold Vector.PushBack
      rw [if_pos hsz, hcr]
    · unfold Vector.PushBack_move
      rw [if_pos hsz, hcr]
    · unfold Vector.EmplaceBack
      simp only [hsz, if_true]
      rw [hsz] at hcr
      simp only [hcr]
    · intro p hp
      have hp2 : p ≤ v.size_ := hp
      have he : ∀ arg, Vector.Emplace T v p arg w = .thrown .bad_alloc (v, w) := by
        intro arg
        unfold Vector.Emplace
        simp only [hp2, if_true]
        simp only [hsz, if_true]
        rw [hsz] at hcr
        simp only [hcr]
      exact ⟨fun arg => ⟨he arg, he arg⟩, he (.object value)⟩
  · intro n hn
    have h1 : v.size_ ≤ v.Capacity := hinv
    unfold Vector.Resize
    rw [if_neg (by omega), hres n hn]
  · intro rhs hr
    have h1 : rhs.size_ > v.Capacity := hr
    unfold Vector.copy_assign Vector.copy_construct
    simp only [h1, if_true]
    rw [create_fails T rhs.size_ w (by omega) hal]

/-- Witness of C18: `Reserve(5)` on `[1, 2]` held with capacity 2 when no
allocation succeeds. -/
theorem C18_allocation_failure_leaves_vector_witness :
    Vector.Reserve intType (Vector.of_values [1, 2] 2) 5
        ⟨none, some 0, [], some 18446744073709551615⟩ =
      .thrown .bad_alloc (Vector.of_values [1, 2] 2,
        ⟨none, some 0, [], some 18446744073709551615⟩) :=
  (C18_allocation_failure_leaves_vector intType (Vector.of_values [1, 2] 2)
    ⟨none, some 0, [], some 18446744073709551615⟩ (by decide) rfl).1 5 (by decide)

/-- C20, evaluated on the code: `PushBack(5)` on `[1, 2]` held with capacity
2, for an element type whose third copy throws (the copy of the second
element into the new buffer, after the new element has been constructed in
slot 2 of it).  The vector is left as it was, but the new buffer is handed to
`operator delete` with the new element still constructed in it; the same
happens with `EmplaceBack` and with `Emplace` at index 1, where the element
copied before the failure stays constructed as well. -/
theorem C20_growth_failure_releases_constructed_element :
    Vector.PushBack copyOnlyType (Vector.of_values [1, 2] 2) 5 ⟨some 2, none, [], none⟩ =
      .thrown .element_op (Vector.of_values [1, 2] 2,
        ⟨some 0, none, [[none, none, some 5, none]], none⟩) ∧
    Vector.EmplaceBack copyOnlyType (Vector.of_values [1, 2] 2) 5 ⟨some 2, none, [], none⟩ =
      .thrown .element_op (Vector.of_values [1, 2] 2,
        ⟨some 0, none, [[none, none, some 5, none]], none⟩) ∧
    Vector.Emplace copyOnlyType (Vector.of_values [1, 2] 2) 1 (.object 5) ⟨some 2, none, [], none⟩ =
      .thrown .element_op (Vector.of_values [1, 2] 2,
        ⟨some 0, none, [[some 1, some 5, none, none]], none⟩) := by
  decide

/-! ## Copy construction -/

/-- Copy construction when no element operation throws and `operator new`,
if it is called, leaves the world `w1`: the copy holds the same values in a
block of exactly that many slots. -/
theorem copy_construct_eq {α : Type} (T : ElemType α) (xs : List α) (cap : Nat)
    (w w1 : World α) (h : xs.length ≤ cap) (hnew : w.new_call = some w1)
    (hw1 : w1.ops_left = none) (hfit : w.fits T xs.length) :
    Vector.copy_construct T (Vector.of_values xs cap) w =
      .ok (Vector.of_values xs xs.length) (if xs.length = 0 then w else w1) := by
  unfold Vector.copy_construct
  have hsz : (Vector.of_values xs cap).size_ = xs.length := rfl
  rw [hsz]
  by_cases h0 : xs.length = 0
  · have hx : xs = [] := List.length_eq_zero.mp h0
    subst hx
    simp [RawMemory.create, RawMemory.Allocate, uninitialized_copy_n, RawMemory.store,
      RawMemory.slots, Vector.of_values]
  · have hcr : RawMemory.create T xs.length w =
        .ok ⟨some (List.replicate xs.length none), xs.length⟩ w1 := by
      simp [RawMemory.create, RawMemory.Allocate, h0, hnew,
        World.block_slots_of_fits w T _ hfit]
    have hc : uninitialized_copy_n (Vector.of_values xs cap).data_.slots 0 xs.length
        (List.replicate xs.length none) 0 w1 = .ok () (xs.map some, w1) := by
      apply uninitialized_copy_n_ok' xs [] (List.replicate (cap - xs.length) none) [] []
        <;> simp [slots_of_values xs cap h, hw1]
    simp only [hcr, RawMemory.slots_some, RawMemory.store_some, hc, h0, if_false]
    simp [Vector.of_values, h0]

theorem copy_construct_ok {α : Type} (T : ElemType α) (xs : List α) (cap : Nat)
    (w : World α) (h : xs.length ≤ cap) (hops : w.ops_left = none)
    (hal : w.allocs_left = none) (hfit : w.fits T xs.length) :
    Vector.copy_construct T (Vector.of_values xs cap) w =
      .ok (Vector.of_values xs xs.length) w := by
  have := copy_construct_eq T xs cap w w h (World.new_call_of_none w hal) hops hfit
  simpa using this

/-- C17: for a vector `other` holding `xs`, copy construction returns a
vector that holds `xs`, with `Size()` and `Capacity()` both equal to the size
of `other`, whatever the capacity of `other`; nothing is released.  When
`xs` is not empty the buffer of the copy is a block obtained from
`operator new` during the call (one allocation is used up).  `other` is read
only, and a later `PushBack` on the copy yields a state of the copy alone:
the values of `other` stay `xs`. -/
theorem C17_copy_construction {α : Type} (T : ElemType α) (other : Vector α) (xs : List α)
    (w : World α) (hv : Holds other xs) (hw : w.fault_free) :
    ∃ copy, Vector.copy_construct T other w = .ok copy w ∧
      Holds copy xs ∧ copy.values = some xs ∧ other.values = some xs ∧
      copy.Size = other.Size ∧ copy.Capacity = other.Size ∧
      (xs ≠ [] → ∀ k rel, Vector.copy_construct T other ⟨none, some (k + 1), rel, none⟩ =
        .ok copy ⟨none, some k, rel, none⟩) ∧
      (∀ value, ∃ copy2 w2, Vector.PushBack T copy value w = .ok () (copy2, w2) ∧
        copy2.values = some (xs ++ [value]) ∧ other.values = some xs) := by
  obtain ⟨hcap, hveq⟩ := (Holds_iff other xs).mp hv
  have hsz : other.Size = xs.length := size_of_Holds hv
  have k := copy_construct_ok T xs other.Capacity w hcap hw.1 hw.2.1
    (World.fits_of_fault_free w hw _ _)
  rw [← hveq] at k
  have hH : Holds (Vector.of_values xs xs.length) xs := Holds_of_values _ _ (Nat.le_refl _)
  refine ⟨_, k, hH, values_of_Holds hH, values_of_Holds hv, hsz.symm, hsz.symm, ?_, ?_⟩
  · intro hne k rel
    have k2 := copy_construct_eq T xs other.Capacity ⟨none, some (k + 1), rel, none⟩
      ⟨none, some k, rel, none⟩ hcap rfl rfl trivial
    rw [← hveq] at k2
    rw [k2, if_neg]
    intro h0
    exact hne (List.length_eq_zero.mp h0)
  · intro value
    obtain ⟨w1, _, k1, _, _⟩ := PushBack_reaches T xs xs.length value w (Nat.le_refl _) hw
    refine ⟨_, _, k1, ?_, values_of_Holds hv⟩
    apply values_of_values
    rw [if_pos rfl]
    simp only [List.length_append, List.length_singleton]
    split <;> omega

/-- Witness of C17: copying `[1, 2]` held with capacity 4. -/
theorem C17_copy_construction_witness :
    ∃ copy, Vector.copy_construct intType (Vector.of_values [(1 : Int), 2] 4)
        ⟨none, none, [], none⟩ =
        .ok copy ⟨none, none, [], none⟩ ∧
      Holds copy [1, 2] ∧ copy.values = some [1, 2] ∧
      (Vector.of_values [(1 : Int), 2] 4).values = some [1, 2] ∧
      copy.Size = (Vector.of_values [(1 : Int), 2] 4).Size ∧
      copy.Capacity = (Vector.of_values [(1 : Int), 2] 4).Size ∧
      ([(1 : Int), 2] ≠ [] → ∀ k rel,
        Vector.copy_construct intType (Vector.of_values [(1 : Int), 2] 4)
            ⟨none, some (k + 1), rel, none⟩ =
          .ok copy ⟨none, some k, rel, none⟩) ∧
      (∀ value, ∃ copy2 w2, Vector.PushBack intType copy value ⟨none, none, [], none⟩ =
          .ok () (copy2, w2) ∧
        copy2.values = some ([1, 2] ++ [value]) ∧
        (Vector.of_values [(1 : Int), 2] 4).values = some [1, 2]) :=
  C17_copy_construction intType (Vector.of_values [1, 2] 4) [1, 2] ⟨none, none, [], none⟩
    (by decide) (by decide)

/-! ## Copy assignment -/

theorem copy_n_ok {α : Type} (src : Block α) (ys : List α) :
    ∀ (zs : List α) (A B C D : Block α) (first d : Nat) (w : World α),
      zs.length = ys.length → first = A.length → d = C.length →
      src = A ++ (ys.map some ++ B) → w.ops_left = none →
      copy_n src first ys.length (C ++ (zs.map some ++ D)) d w =
        .ok (d + ys.length) (C ++ (ys.map some ++ D), w) := by
  induction ys with
  | nil =>
    intro zs A B C D first d w hz _ _ _ _
    have : zs = [] := List.length_eq_zero.mp hz
    subst this
    simp [copy_n]
  | cons y ys ih =>
    intro zs A B C D first d w hz hf hd hs hw
    obtain ⟨z, zs1, rfl⟩ : ∃ z zs1, zs = z :: zs1 := by
      cases zs with
      | nil => simp at hz
      | cons z zs1 => exact ⟨z, zs1, rfl⟩
    have hr : src.read first = some y := by
      rw [hs]; exact Block.read_mid A y _ first hf
    have h2 := ih zs1 (A ++ [some y]) B (C ++ [some y]) D (first + 1) (d + 1) w
      (by simpa using hz) (by simp [hf]) (by simp [hd]) (by simp [hs]) hw
    simp only [List.append_assoc, List.singleton_append] at h2
    simp only [List.length_cons, List.map_cons, List.cons_append, copy_n, hr,
      World.tick_of_none w hw, Block.assign_mid C z y _ d hd, h2]
    congr 1
    omega

theorem copy_n_ok' {α : Type} (ys zs : List α) (A B C D dst1 : Block α)
    {src dst : Block α} {first n d it : Nat} {w : World α}
    (hsrc : src = A ++ (ys.map some ++ B)) (hdst : dst = C ++ (zs.map some ++ D))
    (hz : zs.length = ys.length) (hn : n = ys.length) (hf : first = A.length)
    (hd : d = C.length) (hw : w.ops_left = none)
    (hdst1 : dst1 = C ++ (ys.map some ++ D)) (hit : it = d + ys.length) :
    copy_n src first n dst d w = .ok it (dst1, w) := by
  subst hdst hn hdst1 hit
  exact copy_n_ok src ys zs A B C D first d w hz hf hd hsrc hw

/-- The destructor of a vector at rest destroys its elements and releases
the buffer with every slot raw. -/
theorem destructor_ok {α : Type} (xs : List α) (cap : Nat) (w : World α)
    (h : xs.length ≤ cap) :
    Vector.destructor (Vector.of_values xs cap) w =
      some (RawMemory.destructor
        ⟨if cap = 0 then none else some (List.replicate cap none), cap⟩ w) := by
  unfold Vector.destructor
  have hsz : (Vector.of_values xs cap).size_ = xs.length := rfl
  have hd : destroy_n (xs.map some ++ List.replicate (cap - xs.length) none) 0 xs.length =
      some (List.replicate cap none) := by
    apply destroy_n_ok' xs [] (List.replicate (cap - xs.length) none) <;> simp
    omega
  rw [hsz, slots_of_values xs cap h, hd]
  simp only [store_of_values]

theorem map_take_drop {α β : Type} (f : α → β) (xs : List α) (k : Nat) (R : List β) :
    xs.map f ++ R = (xs.take k).map f ++ ((xs.drop k).map f ++ R) := by
  rw [← List.append_assoc, ← List.map_append, List.take_append_drop]

/-- Copy assignment from another vector when nothing throws. -/
theorem copy_assign_ok {α : Type} (T : ElemType α) (xs ys : List α) (capr capl : Nat)
    (w : World α) (hr : xs.length ≤ capr) (hl : ys.length ≤ capl)
    (hops : w.ops_left = none) (hal : w.allocs_left = none)
    (hfit : capl < xs.length → w.fits T xs.length) :
    Vector.copy_assign T (Vector.of_values ys capl) (some (Vector.of_values xs capr)) w =
      if capl < xs.length then
        .ok () (Vector.of_values xs xs.length,
          RawMemory.destructor
            ⟨if capl = 0 then none else some (List.replicate capl none), capl⟩ w)
      else .ok () (Vector.of_values xs capl, w) := by
  unfold Vector.copy_assign
  have hcapl : (Vector.of_values ys capl).Capacity = capl := rfl
  have hszl : (Vector.of_values ys capl).size_ = ys.length := rfl
  have hszr : (Vector.of_values xs capr).size_ = xs.length := rfl
  simp only [hcapl, hszl, hszr, gt_iff_lt]
  by_cases h1 : capl < xs.length
  · simp only [h1, if_true, copy_construct_ok T xs capr w hr hops hal (hfit h1), Swap_eq,
      destructor_ok ys capl w hl]
  · simp only [h1, if_false, slots_of_values xs capr hr, slots_of_values ys capl hl,
      store_of_values]
    have hc0 : xs.length ≤ capl := by omega
    by_cases h2 : xs.length ≤ ys.length
    · have hcn : copy_n (List.map some xs ++ List.replicate (capr - xs.length) none) 0
          xs.length (List.map some ys ++ List.replicate (capl - ys.length) none) 0 w =
          .ok xs.length (xs.map some ++ ((ys.drop xs.length).map some ++
            List.replicate (capl - ys.length) none), w) := by
        apply copy_n_ok' xs (ys.take xs.length) [] (List.replicate (capr - xs.length) none) []
          ((ys.drop xs.length).map some ++ List.replicate (capl - ys.length) none)
        · simp
        · rw [List.nil_append]; exact map_take_drop some ys xs.length _
        · simp [h2]
        · rfl
        · rfl
        · rfl
        · exact hops
        · simp
        · simp
      have hds : destroy_n (xs.map some ++ ((ys.drop xs.length).map some ++
            List.replicate (capl - ys.length) none)) xs.length (ys.length - xs.length) =
          some (xs.map some ++ List.replicate (capl - xs.length) none) := by
        apply destroy_n_ok' (ys.drop xs.length) (xs.map some)
          (List.replicate (capl - ys.length) none)
        · rfl
        · simp
        · simp
        · rw [← List.replicate_add]; congr 2; simp; omega
      simp only [h2, if_true, hcn, hds]
      rfl
    · have hlt : ys.length < xs.length := by omega
      have hcn : copy_n (List.map some xs ++ List.replicate (capr - xs.length) none) 0
          ys.length (List.map some ys ++ List.replicate (capl - ys.length) none) 0 w =
          .ok ys.length ((xs.take ys.length).map some ++
            List.replicate (capl - ys.length) none, w) := by
        apply copy_n_ok' (xs.take ys.length) ys []
          ((xs.drop ys.length).map some ++ List.replicate (capr - xs.length) none) []
          (List.replicate (capl - ys.length) none)
        · rw [List.nil_append]; exact map_take_drop some xs ys.length _
        · simp
        · simp; omega
        · simp; omega
        · rfl
        · rfl
        · exact hops
        · simp
        · simp; omega
      have huc : uninitialized_copy_n
          (List.map some xs ++ List.replicate (capr - xs.length) none) ys.length
          (xs.length - ys.length)
          ((xs.take ys.length).map some ++ List.replicate (capl - ys.length) none)
          ys.length w =
          .ok () (xs.map some ++ List.replicate (capl - xs.length) none, w) := by
        apply uninitialized_copy_n_ok' (xs.drop ys.length) ((xs.take ys.length).map some)
          (List.replicate (capr - xs.length) none) ((xs.take ys.length).map some)
          (List.replicate (capl - xs.length) none)
        · exact map_take_drop some xs ys.length _
        · congr 1
          rw [← List.replicate_add]; congr 1; simp; omega
        · simp
        · simp; omega
        · simp; omega
        · exact hops
        · exact map_take_drop some xs ys.length _
      simp only [h2, if_false, hcn, huc]
      rfl

/-- C12: for a vector `lhs` holding `ys` and another vector `rhs` holding
`xs`, the copy assignment `lhs = rhs` returns normally and leaves `lhs`
holding `xs` with `Size() == rhs.Size()`, in each of its three branches;
`rhs` is only read.  The capacity of `lhs` becomes `rhs.Size()` when
`rhs.Size() > lhs.Capacity()` and is unchanged otherwise, in which case
nothing is allocated or released.  Self-assignment returns with the vector
and the world unchanged. -/
theorem C12_copy_assignment {α : Type} (T : ElemType α) (lhs rhs : Vector α)
    (xs ys : List α) (w : World α)
    (hl : Holds lhs ys) (hr : Holds rhs xs) (hw : w.fault_free) :
    (∃ lhs1 w1, Vector.copy_assign T lhs (some rhs) w = .ok () (lhs1, w1) ∧
      Holds lhs1 xs ∧ lhs1.values = rhs.values ∧ lhs1.Size = rhs.Size ∧
      (lhs.Capacity < rhs.Size → lhs1.Capacity = rhs.Size) ∧
      (rhs.Size ≤ lhs.Capacity → lhs1.Capacity = lhs.Capacity ∧ w1 = w)) ∧
    Vector.copy_assign T lhs none w = .ok () (lhs, w) := by
  obtain ⟨hcapl, hleq⟩ := (Holds_iff lhs ys).mp hl
  obtain ⟨hcapr, hreq⟩ := (Holds_iff rhs xs).mp hr
  have hszr : rhs.Size = xs.length := size_of_Holds hr
  have k := copy_assign_ok T xs ys rhs.Capacity lhs.Capacity w hcapr hcapl hw.1 hw.2.1
    (fun _ => World.fits_of_fault_free w hw _ _)
  rw [← hleq, ← hreq] at k
  refine ⟨?_, rfl⟩
  by_cases h1 : lhs.Capacity < xs.length
  · rw [if_pos h1] at k
    have hH : Holds (Vector.of_values xs xs.length) xs := Holds_of_values _ _ (Nat.le_refl _)
    refine ⟨_, _, k, hH, ?_, hszr.symm, ?_, ?_⟩
    · rw [values_of_Holds hH, values_of_Holds hr]
    · intro _; exact hszr.symm
    · intro h2; rw [hszr] at h2; omega
  · rw [if_neg h1] at k
    have hH : Holds (Vector.of_values xs lhs.Capacity) xs :=
      Holds_of_values _ _ (by omega)
    refine ⟨_, _, k, hH, ?_, hszr.symm, ?_, ?_⟩
    · rw [values_of_Holds hH, values_of_Holds hr]
    · intro h2; rw [hszr] at h2; omega
    · intro _; exact ⟨rfl, rfl⟩

/-- Witness of C12: assigning `[7, 8, 9]` to a vector that holds `[1]` with
capacity 1 (the branch that builds a replacement). -/
theorem C12_copy_assignment_witness :
    (∃ lhs1 w1, Vector.copy_assign intType (Vector.of_values [(1 : Int)] 1)
        (some (Vector.of_values [7, 8, 9] 5)) ⟨none, none, [], none⟩ = .ok () (lhs1, w1) ∧
      Holds lhs1 [7, 8, 9] ∧ lhs1.values = (Vector.of_values [(7 : Int), 8, 9] 5).values ∧
      lhs1.Size = (Vector.of_values [(7 : Int), 8, 9] 5).Size ∧
      ((Vector.of_values [(1 : Int)] 1).Capacity < (Vector.of_values [(7 : Int), 8, 9] 5).Size →
        lhs1.Capacity = (Vector.of_values [(7 : Int), 8, 9] 5).Size) ∧
      ((Vector.of_values [(7 : Int), 8, 9] 5).Size ≤ (Vector.of_values [(1 : Int)] 1).Capacity →
        lhs1.Capacity = (Vector.of_values [(1 : Int)] 1).Capacity ∧
          w1 = ⟨none, none, [], none⟩)) ∧
    Vector.copy_assign intType (Vector.of_values [(1 : Int)] 1) none ⟨none, none, [], none⟩ =
      .ok () (Vector.of_values [(1 : Int)] 1, ⟨none, none, [], none⟩) :=
  C12_copy_assignment intType (Vector.of_values [1] 1) (Vector.of_values [7, 8, 9] 5)
    [7, 8, 9] [1]
    ⟨none, none, [], none⟩ (by decide) (by decide) (by decide)

/-! ## Resize -/

theorem uninitialized_value_construct_n_ok {α : Type} (T : ElemType α) (k : Nat) :
    ∀ (A B : Block α) (first : Nat) (w : World α), first = A.length → w.ops_left = none →
      uninitialized_value_construct_n T (A ++ (List.replicate k none ++ B)) first k w =
        .ok () (A ++ (List.replicate k (some T.default_value) ++ B), w) := by
  induction k with
  | zero => intro A B first w _ _; simp [uninitialized_value_construct_n]
  | succ k ih =>
    intro A B first w hf hw
    have h2 := ih (A ++ [some T.default_value]) B (first + 1) w (by simp [hf]) hw
    simp only [List.append_assoc, List.singleton_append] at h2
    simp only [List.replicate_succ, List.cons_append, uninitialized_value_construct_n,
      World.tick_of_none w hw, ite_self, Block.construct_mid A T.default_value _ first hf, h2]

theorem uninitialized_default_construct_n_ok {α : Type} (T : ElemType α) (k : Nat) :
    ∀ (A B : Block α) (first : Nat) (w : World α), first = A.length →
      (T.trivially_default_constructible = true ∨ w.ops_left = none) →
      uninitialized_default_construct_n T (A ++ (List.replicate k none ++ B)) first k w =
        .ok () (A ++ (((List.range' first k).map T.default_initialized).map some ++ B), w) := by
  induction k with
  | zero => intro A B first w _ _; simp [uninitialized_default_construct_n]
  | succ k ih =>
    intro A B first w hf hw
    have h2 := ih (A ++ [some (T.default_initialized first)]) B (first + 1) w
      (by simp [hf]) hw
    simp only [List.append_assoc, List.singleton_append] at h2
    have htk : (if T.trivially_default_constructible = true then some w else w.tick) =
        some w := by
      rcases hw with h1 | h1
      · simp [h1]
      · simp [World.tick_of_none w h1]
    simp only [List.replicate_succ, List.cons_append, uninitialized_default_construct_n,
      htk, Block.construct_mid A (T.default_initialized first) _ first hf, h2,
      List.range'_succ, List.map_cons]

theorem default_initialized_of_class {α : Type} (T : ElemType α)
    (hT : T.trivially_default_constructible = false) (first k : Nat) :
    (List.range' first k).map T.default_initialized = List.replicate k T.default_value := by
  have : T.default_initialized = fun _ => T.default_value := by
    funext i
    simp [ElemType.default_initialized, hT]
  rw [this, List.map_const', List.length_range']

/-- `Resize` when nothing throws. -/
theorem Resize_ok {α : Type} (T : ElemType α) (xs : List α) (cap n : Nat) (w : World α)
    (h : xs.length ≤ cap) (hops : w.ops_left = none) (hal : w.allocs_left = none)
    (hfit : n ≤ cap ∨ w.fits T n) :
    Vector.Resize T (Vector.of_values xs cap) n w =
      if n < xs.length then .ok () (Vector.of_values (xs.take n) cap, w)
      else if n ≤ cap then
        .ok () (Vector.of_values
          (xs ++ (List.range' xs.length (n - xs.length)).map T.default_initialized) cap, w)
      else
        .ok () (Vector.of_values
          (xs ++ (List.range' xs.length (n - xs.length)).map T.default_initialized) n,
          RawMemory.destructor
            ⟨if cap = 0 then none else some (List.replicate cap none), cap⟩ w) := by
  unfold Vector.Resize
  have hsz : (Vector.of_values xs cap).size_ = xs.length := rfl
  rw [hsz]
  by_cases h1 : n < xs.length
  · have hc0 : cap ≠ 0 := by omega
    have hd : destroy_n (xs.map some ++ List.replicate (cap - xs.length) none) n
        (xs.length - n) =
        some ((xs.take n).map some ++ List.replicate (cap - (xs.take n).length) none) := by
      apply destroy_n_ok' (xs.drop n) ((xs.take n).map some)
        (List.replicate (cap - xs.length) none)
      · exact map_take_drop some xs n _
      · simp
      · simp; omega
      · congr 1
        rw [← List.replicate_add]; congr 1; simp; omega
    simp only [h1, if_true, slots_of_values xs cap h, hd, store_of_values]
    simp [Vector.of_values, hc0]
    omega
  · simp only [h1, if_false, Reserve_ok T xs cap n w h hops hal hfit]
    by_cases h2 : n ≤ cap
    · have hsz2 : (Vector.of_values xs cap).size_ = xs.length := rfl
      have hv : uninitialized_default_construct_n T
          (xs.map some ++ List.replicate (cap - xs.length) none) xs.length
          (n - xs.length) w =
          .ok () (xs.map some ++
            (((List.range' xs.length (n - xs.length)).map T.default_initialized).map some ++
            List.replicate (cap - n) none), w) := by
        have := uninitialized_default_construct_n_ok T (n - xs.length) (xs.map some)
          (List.replicate (cap - n) none) xs.length w (by simp) (Or.inr hops)
        rw [← this]
        congr 2
        rw [← List.replicate_add]; congr 1; omega
      simp only [h2, if_true, hsz2, slots_of_values xs cap h, hv, store_of_values]
      by_cases hc0 : cap = 0
      · have hn0 : n = 0 := by omega
        have hx : xs = [] := List.length_eq_zero.mp (by omega)
        subst hn0 hx hc0
        rfl
      · simp [Vector.of_values, hc0]
        constructor
        · congr 1; omega
        · omega
    · have hn0 : n ≠ 0 := by omega
      have hle : xs.length ≤ n := by omega
      have hsz2 : (Vector.of_values xs n).size_ = xs.length := rfl
      have hops1 : (RawMemory.destructor
          ⟨if cap = 0 then none else some (List.replicate cap none), cap⟩ w).ops_left =
          none := by
        rw [World.ops_left_destructor]; exact hops
      have hv : uninitialized_default_construct_n T
          (xs.map some ++ List.replicate (n - xs.length) none) xs.length
          (n - xs.length) (RawMemory.destructor
            ⟨if cap = 0 then none else some (List.replicate cap none), cap⟩ w) =
          .ok () (xs.map some ++
            (((List.range' xs.length (n - xs.length)).map T.default_initialized).map some ++
            []), RawMemory.destructor
            ⟨if cap = 0 then none else some (List.replicate cap none), cap⟩ w) := by
        have := uninitialized_default_construct_n_ok T (n - xs.length) (xs.map some)
          [] xs.length _ (by simp) (Or.inr hops1)
        simpa using this
      simp only [h2, if_false, hsz2, slots_of_values xs n hle, hv, store_of_values]
      simp [Vector.of_values, hn0]
      omega

/-- C13, as amended: for a vector holding `xs` and an `n` with
`n ≤ Capacity()` or with `n * sizeof(T)` representable in `size_t`, when
nothing throws, `Resize(n)` returns normally and leaves `Size() == n`; the
vector then holds the first `min(size, n)` values of `xs` followed, when
`n > size`, by `n - size` default-initialised elements: each has the value
the default constructor gives, and for a trivially default constructible
type, such as `int`, an indeterminate value; `Capacity()` afterwards is the
larger of the old capacity and `n`, so shrinking leaves it unchanged. -/
theorem C13_resize {α : Type} (T : ElemType α) (v : Vector α) (xs : List α) (n : Nat)
    (w : World α) (hv : Holds v xs) (hops : w.ops_left = none)
    (hal : w.allocs_left = none) (hfit : n ≤ v.Capacity ∨ w.fits T n) :
    ∃ v1 w1, Vector.Resize T v n w = .ok () (v1, w1) ∧
      v1.Size = n ∧
      Holds v1 (xs.take n ++
        (List.range' xs.length (n - xs.length)).map T.default_initialized) ∧
      (T.trivially_default_constructible = false →
        Holds v1 (xs.take n ++ List.replicate (n - xs.length) T.default_value)) ∧
      (xs.take n).length = min v.Size n ∧
      v1.Capacity = max v.Capacity n := by
  obtain ⟨hcap, hveq⟩ := (Holds_iff v xs).mp hv
  have hsz : v.Size = xs.length := size_of_Holds hv
  have k := Resize_ok T xs v.Capacity n w hcap hops hal hfit
  rw [← hveq] at k
  have hmin : (xs.take n).length = min v.Size n := by
    rw [hsz, List.length_take, Nat.min_comm]
  have hcls : T.trivially_default_constructible = false →
      (List.range' xs.length (n - xs.length)).map T.default_initialized =
        List.replicate (n - xs.length) T.default_value :=
    fun hT => default_initialized_of_class T hT _ _
  by_cases h1 : n < xs.length
  · rw [if_pos h1] at k
    have hz : n - xs.length = 0 := by omega
    have hlen : (xs.take n).length = n := by simp; omega
    rw [hz, List.range'_zero, List.map_nil, List.replicate_zero, List.append_nil]
    have hH := Holds_of_values (xs.take n) v.Capacity (by omega)
    refine ⟨_, _, k, hlen, hH, fun _ => hH, hmin, ?_⟩
    show v.Capacity = max v.Capacity n
    omega
  · rw [if_neg h1] at k
    have ht : xs.take n = xs := List.take_of_length_le (by omega)
    have hlen : (xs ++
        (List.range' xs.length (n - xs.length)).map T.default_initialized).length = n := by
      simp; omega
    rw [ht] at hmin ⊢
    by_cases h2 : n ≤ v.Capacity
    · rw [if_pos h2] at k
      have hH := Holds_of_values
        (xs ++ (List.range' xs.length (n - xs.length)).map T.default_initialized)
        v.Capacity (by omega)
      refine ⟨_, _, k, hlen, hH, fun hT => by rw [← hcls hT]; exact hH, hmin, ?_⟩
      show v.Capacity = max v.Capacity n
      omega
    · rw [if_neg h2] at k
      have hH := Holds_of_values
        (xs ++ (List.range' xs.length (n - xs.length)).map T.default_initialized)
        n (by omega)
      refine ⟨_, _, k, hlen, hH, fun hT => by rw [← hcls hT]; exact hH, hmin, ?_⟩
      show n = max v.Capacity n
      omega

/-- Witness of C13: `Resize(6)` on `[1, 2, 3]` held with capacity 4, for an
element type with a default constructor, with a 64-bit `size_t`. -/
theorem C13_resize_witness :
    ∃ v1 w1, Vector.Resize copyOnlyType (Vector.of_values [1, 2, 3] 4) 6
        ⟨none, none, [], some 18446744073709551615⟩ = .ok () (v1, w1) ∧
      v1.Size = 6 ∧
      Holds v1 ([(1 : Int), 2, 3].take 6 ++
        (List.range' [(1 : Int), 2, 3].length (6 - [(1 : Int), 2, 3].length)).map
          copyOnlyType.default_initialized) ∧
      (copyOnlyType.trivially_default_constructible = false →
        Holds v1 ([(1 : Int), 2, 3].take 6 ++
          List.replicate (6 - [(1 : Int), 2, 3].length) copyOnlyType.default_value)) ∧
      ([(1 : Int), 2, 3].take 6).length = min (Vector.of_values [(1 : Int), 2, 3] 4).Size 6 ∧
      v1.Capacity = max (Vector.of_values [(1 : Int), 2, 3] 4).Capacity 6 :=
  C13_resize copyOnlyType (Vector.of_values [1, 2, 3] 4) [1, 2, 3] 6
    ⟨none, none, [], some 18446744073709551615⟩ (by decide) rfl rfl (Or.inr (by decide))

/-- Counterexample to C13 as stated: with a 64-bit `size_t` and
`sizeof(T) == 8`, `Resize(2^61)` on `[1, 2]` held with capacity 2.  `Resize`
passes `2^61` to `Reserve`, the byte count `2^61 * 8` wraps to 0, and the
transfer of the first element writes outside the block that `operator new(0)`
returned: undefined behaviour, with no exception injected. -/
theorem C13_resize_wraps_counterexample :
    Holds (Vector.of_values [1, 2] 2) [(1 : Int), 2] ∧
    Vector.Resize copyOnlyType (Vector.of_values [1, 2] 2) 2305843009213693952
        ⟨none, none, [], some 18446744073709551615⟩ = .ub := by
  decide

/-! ## Failure during `Erase` -/

/-- The left shift under any budget of element operations: it returns or
throws, and in both cases every slot of the range still holds an object and
the slots outside the range are as before. -/
theorem std_move_loop_shape {α : Type} (T : ElemType α) (ys : List α) :
    ∀ (A B : Block α) (z : α) (first d_first : Nat) (w : World α),
      first = A.length + 1 → d_first = A.length →
      ∃ (zs : List α) (w1 : World α), zs.length = ys.length + 1 ∧
        (std_move_loop T ys.length (A ++ some z :: (ys.map some ++ B)) first d_first w =
            .ok () (A ++ (zs.map some ++ B), w1) ∨
         std_move_loop T ys.length (A ++ some z :: (ys.map some ++ B)) first d_first w =
            .thrown .element_op (A ++ (zs.map some ++ B), w1)) := by
  induction ys with
  | nil =>
    intro A B z first d_first w _ _
    exact ⟨[z], w, rfl, Or.inl (by simp [std_move_loop])⟩
  | cons y ys ih =>
    intro A B z first d_first w hf hd
    have hf2 : first = (A ++ [some z]).length := by simp [hf]
    have hf3 : first = (A ++ [some y]).length := by simp [hf]
    have hr := Block.read_mid (A ++ [some z]) y (ys.map some ++ B) first hf2
    have ha := Block.assign_mid A z y (some y :: (ys.map some ++ B)) d_first hd
    have hb := Block.assign_mid (A ++ [some y]) y (T.moved_from y) (ys.map some ++ B) first hf3
    simp only [List.append_assoc, List.singleton_append, List.cons_append,
      List.nil_append] at hr ha hb
    cases htk : w.tick with
    | none =>
      refine ⟨z :: y :: ys, w, by simp, Or.inr ?_⟩
      simp only [List.length_cons, List.map_cons, List.cons_append, std_move_loop, hr, htk]
    | some w1 =>
      obtain ⟨zs, w2, hz, h2⟩ := ih (A ++ [some y]) B (T.moved_from y) (first + 1)
        (d_first + 1) w1 (by simp [hf]) (by simp [hd])
      simp only [List.append_assoc, List.singleton_append, List.cons_append,
        List.nil_append] at h2
      refine ⟨y :: zs, w2, by simp [hz], ?_⟩
      simp only [List.length_cons, List.map_cons, List.cons_append, std_move_loop, hr, htk,
        ha, hb]
      exact h2

/-- `Erase` under any budget of element operations: it returns, or it throws
and leaves a vector at rest of the same size and capacity whose values before
the erased position are unchanged. -/
theorem Erase_outcome {α : Type} (T : ElemType α) (pre post : List α) (x : α) (cap : Nat)
    (w : World α) (h : (pre ++ x :: post).length ≤ cap) :
    (∃ s, Vector.Erase T (Vector.of_values (pre ++ x :: post) cap) pre.length w =
      .ok pre.length s) ∨
    (∃ (zs : List α) (w1 : World α), zs.length = post.length + 1 ∧
      Vector.Erase T (Vector.of_values (pre ++ x :: post) cap) pre.length w =
        .thrown .element_op (Vector.of_values (pre ++ zs) cap, w1)) := by
  unfold Vector.Erase
  have hsz : (Vector.of_values (pre ++ x :: post) cap).size_ = (pre ++ x :: post).length := rfl
  have hpos : pre.length < (pre ++ x :: post).length := by simp
  have hc0 : cap ≠ 0 := by omega
  have hlen : (pre ++ x :: post).length - (pre.length + 1) = post.length := by
    simp; omega
  obtain ⟨zs, w1, hz, hm⟩ := std_move_loop_shape T post (pre.map some)
    (List.replicate (cap - (pre ++ x :: post).length) none) x (pre.length + 1) pre.length w
    (by simp) (by simp)
  have hblk : List.map some (pre ++ x :: post) ++
      List.replicate (cap - (pre ++ x :: post).length) none =
      pre.map some ++ some x :: (post.map some ++
        List.replicate (cap - (pre ++ x :: post).length) none) := by simp
  simp only [hsz, hpos, if_true, slots_of_values _ _ h, store_of_values, std_move,
    hlen, hblk]
  rw [if_pos (by simp)]
  rcases hm with hm | hm
  · left
    obtain ⟨zs0, l, rfl⟩ : ∃ zs0 l, zs = zs0 ++ [l] := by
      have hne : zs ≠ [] := by intro h0; rw [h0] at hz; simp at hz
      exact ⟨zs.dropLast, zs.getLast hne, (List.dropLast_append_getLast hne).symm⟩
    have hd := Block.destroy_mid (pre.map some ++ zs0.map some) l
      (List.replicate (cap - (pre ++ x :: post).length) none)
      ((pre ++ x :: post).length - 1) (by simp at hz ⊢; omega)
    simp only [List.append_assoc] at hd
    simp only [hm, destroy_n, List.map_append, List.map_cons, List.map_nil,
      List.append_assoc, List.singleton_append, hd]
    exact ⟨_, rfl⟩
  · right
    refine ⟨zs, w1, hz, ?_⟩
    simp only [hm, Vector.of_values, hc0, if_false]
    simp [hz]

/-- C15: for a vector holding `xs` and a position `p < size`, under any
budget of element operations `Erase` never runs into undefined behaviour, and
when a move assignment of the left shift throws, `Size()` and `Capacity()`
are unchanged and the vector is still at rest: every slot of `[0, Size())`
holds a constructed element, the values at the indices below `p` are the
original ones, and only the `size - p` values from `p` onward may differ. -/
theorem C15_erase_weak_guarantee {α : Type} (T : ElemType α) (v : Vector α) (xs : List α)
    (p : Nat) (w : World α) (hv : Holds v xs) (hp : p < v.Size) :
    Vector.Erase T v p w ≠ .ub ∧
    ∀ f v1 w1, Vector.Erase T v p w = .thrown f (v1, w1) →
      v1.Size = v.Size ∧ v1.Capacity = v.Capacity ∧
      ∃ zs : List α, zs.length = xs.length - p ∧ Holds v1 (xs.take p ++ zs) := by
  obtain ⟨hcap, hveq⟩ := (Holds_iff v xs).mp hv
  have hsz : v.Size = xs.length := size_of_Holds hv
  have hpx : p < xs.length := by rw [← hsz]; exact hp
  have hlen : (xs.take p).length = p := by simp; omega
  have hxs : xs.take p ++ xs[p] :: xs.drop (p + 1) = xs := by
    rw [← List.drop_eq_getElem_cons hpx]; exact List.take_append_drop p xs
  have hcap2 : (xs.take p ++ xs[p] :: xs.drop (p + 1)).length ≤ v.Capacity := by
    rw [hxs]; exact hcap
  have key := Erase_outcome T (xs.take p) (xs.drop (p + 1)) xs[p] v.Capacity w hcap2
  rw [hxs, hlen, ← hveq] at key
  rcases key with ⟨s, hs⟩ | ⟨zs, w2, hz, hth⟩
  · refine ⟨by rw [hs]; simp, ?_⟩
    intro f v1 w1 h
    rw [hs] at h
    simp at h
  · refine ⟨by rw [hth]; simp, ?_⟩
    intro f v1 w1 h
    rw [hth] at h
    simp only [Res.thrown.injEq, Prod.mk.injEq] at h
    obtain ⟨_, hv1, _⟩ := h
    subst hv1
    have hzl : zs.length = xs.length - p := by
      rw [hz, List.length_drop]; omega
    have hl : (xs.take p ++ zs).length = xs.length := by
      rw [List.length_append, hlen, hzl]; omega
    refine ⟨?_, rfl, zs, hzl, Holds_of_values _ _ (by rw [hl]; exact hcap)⟩
    show (xs.take p ++ zs).length = v.Size
    rw [hl, hsz]

/-- Witness of C15: erasing index 1 of `[1, 2, 3, 4]` held with capacity 4,
for an element type whose second assignment throws. -/
theorem C15_erase_weak_guarantee_witness :
    Vector.Erase copyOnlyType (Vector.of_values [1, 2, 3, 4] 4) 1 ⟨some 1, none, [], none⟩ =
      .thrown .element_op (Vector.of_values [1, 3, 3, 4] 4, ⟨some 0, none, [], none⟩) ∧
    ((Vector.of_values [(1 : Int), 3, 3, 4] 4).Size =
        (Vector.of_values [(1 : Int), 2, 3, 4] 4).Size ∧
      (Vector.of_values [(1 : Int), 3, 3, 4] 4).Capacity =
        (Vector.of_values [(1 : Int), 2, 3, 4] 4).Capacity ∧
      ∃ zs : List Int, zs.length = [(1 : Int), 2, 3, 4].length - 1 ∧
        Holds (Vector.of_values [(1 : Int), 3, 3, 4] 4) ([(1 : Int), 2, 3, 4].take 1 ++ zs)) :=
  ⟨by decide,
   (C15_erase_weak_guarantee copyOnlyType (Vector.of_values [1, 2, 3, 4] 4) [1, 2, 3, 4] 1
      ⟨some 1, none, [], none⟩ (by decide) (by decide)).2 .element_op
      (Vector.of_values [1, 3, 3, 4] 4) ⟨some 0, none, [], none⟩ (by decide)⟩

/-! ## The invariant `Size() <= Capacity()` -/

/-- Constructor `Vector(size)` when nothing throws. -/
theorem sized_ok {α : Type} (T : ElemType α) (n : Nat) (w : World α)
    (hops : w.ops_left = none) (hal : w.allocs_left = none) (hfit : w.fits T n) :
    Vector.sized T n w = .ok (Vector.of_values (List.replicate n T.default_value) n) w := by
  unfold Vector.sized
  by_cases h0 : n = 0
  · subst h0
    simp [RawMemory.create, RawMemory.Allocate, uninitialized_value_construct_n,
      RawMemory.store, RawMemory.slots, Vector.of_values]
  · have hv := uninitialized_value_construct_n_ok T n [] [] 0 w rfl hops
    simp only [List.nil_append, List.append_nil] at hv
    simp only [create_ok T n w h0 hal hfit, RawMemory.slots_some, RawMemory.store_some, hv]
    simp [Vector.of_values, h0]

/-- A vector at rest satisfies `Size() <= Capacity()`. -/
theorem at_rest_of_values {α : Type} (xs : List α) (cap : Nat) (h : xs.length ≤ cap) :
    AtRest (Vector.of_values xs cap) ∧
      (Vector.of_values xs cap).Size ≤ (Vector.of_values xs cap).Capacity :=
  ⟨⟨xs, Holds_of_values xs cap h⟩, h⟩

theorem at_rest_empty {α : Type} :
    AtRest (⟨⟨none, 0⟩, 0⟩ : Vector α) ∧
      (⟨⟨none, 0⟩, 0⟩ : Vector α).Size ≤ (⟨⟨none, 0⟩, 0⟩ : Vector α).Capacity :=
  at_rest_of_values [] 0 (Nat.le_refl _)

theorem at_rest_of_Holds {α : Type} {v : Vector α} {xs : List α} (h : Holds v xs) :
    AtRest v ∧ v.Size ≤ v.Capacity := by
  refine ⟨⟨xs, h⟩, ?_⟩
  have h1 : v.size_ = xs.length := h.1
  have h2 : xs.length ≤ v.data_.capacity_ := h.2.1
  show v.size_ ≤ v.data_.capacity_
  omega


/-! ## The invariant `Size() <= Capacity()` under every outcome -/

theorem create_capacity {α : Type} (T : ElemType α) (n : Nat) (w w1 : World α)
    (m : RawMemory α) (h : RawMemory.create T n w = .ok m w1) : m.capacity_ = n := by
  unfold RawMemory.create at h
  split at h
  · simp only [Res.ok.injEq] at h
    rw [← h.1]
  · simp at h
  · simp at h

theorem CopyAndSwap_ok_fields {α : Type} (T : ElemType α) (self s1 : Vector α)
    (nd nd1 : RawMemory α) (w w1 : World α)
    (h : Vector.CopyAndSwap T self nd w = .ok () (s1, nd1, w1)) :
    s1.size_ = self.size_ ∧ s1.data_.capacity_ = nd.capacity_ ∧
      nd1.capacity_ = self.data_.capacity_ := by
  unfold Vector.CopyAndSwap at h
  simp only at h
  split at h
  · simp at h
  · simp at h
  · split at h
    · simp at h
    · simp only [RawMemory.Swap, RawMemory.store, Res.ok.injEq, Prod.mk.injEq, true_and] at h
      obtain ⟨h1, h2, _⟩ := h
      subst h1 h2
      exact ⟨rfl, rfl, rfl⟩

theorem CopyAndSwap_thrown_fields {α : Type} (T : ElemType α) (self s1 : Vector α)
    (nd nd1 : RawMemory α) (w w1 : World α) (f : Fault)
    (h : Vector.CopyAndSwap T self nd w = .thrown f (s1, nd1, w1)) :
    s1.size_ = self.size_ ∧ s1.data_.capacity_ = self.data_.capacity_ := by
  unfold Vector.CopyAndSwap at h
  simp only at h
  split at h
  · simp at h
  · simp only [RawMemory.store, Res.thrown.injEq, Prod.mk.injEq] at h
    obtain ⟨_, h1, _⟩ := h
    subst h1
    exact ⟨rfl, rfl⟩
  · split at h
    · simp at h
    · simp at h

theorem sized_fields {α : Type} (T : ElemType α) (n : Nat) (w w1 : World α) (v1 : Vector α)
    (h : Vector.sized T n w = .ok v1 w1) : v1.size_ = n ∧ v1.data_.capacity_ = n := by
  unfold Vector.sized at h
  split at h
  · simp at h
  · simp at h
  · rename_i data w2 hcr
    have hcap := create_capacity T n w w2 data hcr
    split at h
    · simp only [Res.ok.injEq] at h
      rw [← h.1]
      exact ⟨rfl, hcap⟩
    · simp at h
    · simp at h

theorem copy_construct_fields {α : Type} (T : ElemType α) (other v1 : Vector α)
    (w w1 : World α) (h : Vector.copy_construct T other w = .ok v1 w1) :
    v1.size_ = other.size_ ∧ v1.data_.capacity_ = other.size_ := by
  unfold Vector.copy_construct at h
  split at h
  · simp at h
  · simp at h
  · rename_i data w2 hcr
    have hcap := create_capacity T other.size_ w w2 data hcr
    split at h
    · simp only [Res.ok.injEq] at h
      rw [← h.1]
      exact ⟨rfl, hcap⟩
    · simp at h
    · simp at h

theorem Reserve_leaves {α : Type} (T : ElemType α) (self v1 : Vector α) (c : Nat)
    (w w1 : World α) (h : (Vector.Reserve T self c w).leaves (v1, w1)) :
    v1.size_ = self.size_ ∧
      (v1.data_.capacity_ = self.data_.capacity_ ∨
        (self.data_.capacity_ < c ∧ v1.data_.capacity_ = c)) := by
  unfold Vector.Reserve at h
  split at h
  · simp only [Res.leaves, Prod.mk.injEq] at h
    rw [← h.1]
    exact ⟨rfl, Or.inl rfl⟩
  · rename_i hc
    split at h
    · simp only [Res.leaves, Prod.mk.injEq] at h
      rw [← h.1]
      exact ⟨rfl, Or.inl rfl⟩
    · exact h.elim
    · rename_i nd w2 hcr
      have hcap := create_capacity T c w w2 nd hcr
      split at h
      · exact h.elim
      · rename_i f s1 nd1 w3 hcs
        have := CopyAndSwap_thrown_fields T self s1 nd nd1 w2 w3 f hcs
        simp only [Res.leaves, Prod.mk.injEq] at h
        rw [← h.1]
        exact ⟨this.1, Or.inl this.2⟩
      · rename_i u s1 nd1 w3 hcs
        have := CopyAndSwap_ok_fields T self s1 nd nd1 w2 w3 hcs
        simp only [Res.leaves, Prod.mk.injEq] at h
        rw [← h.1]
        refine ⟨this.1, Or.inr ⟨?_, ?_⟩⟩
        · simp only [Vector.Capacity, RawMemory.Capacity] at hc; omega
        · rw [this.2.1, hcap]

theorem Reserve_ok_capacity {α : Type} (T : ElemType α) (self v1 : Vector α) (c : Nat)
    (w w1 : World α) (h : Vector.Reserve T self c w = .ok () (v1, w1)) :
    c ≤ v1.data_.capacity_ := by
  have hl : (Vector.Reserve T self c w).leaves (v1, w1) := by rw [h]; rfl
  have := Reserve_leaves T self v1 c w w1 hl
  unfold Vector.Reserve at h
  split at h
  · rename_i hc
    simp only [Res.ok.injEq, Prod.mk.injEq, true_and] at h
    rw [← h.1]
    exact hc
  · rename_i hc
    rcases this.2 with h2 | h2
    · exfalso
      split at h
      · simp at h
      · simp at h
      · rename_i nd w2 hcr
        have hcap := create_capacity T c w w2 nd hcr
        split at h
        · simp at h
        · simp at h
        · rename_i u s1 nd1 w3 hcs
          have hf := CopyAndSwap_ok_fields T self s1 nd nd1 w2 w3 hcs
          simp only [Res.ok.injEq, Prod.mk.injEq, true_and] at h
          rw [← h.1] at h2
          simp only [Vector.Capacity, RawMemory.Capacity] at hc
          omega
    · omega

theorem Resize_leaves {α : Type} (T : ElemType α) (self v1 : Vector α) (n : Nat)
    (w w1 : World α) (hinv : self.size_ ≤ self.data_.capacity_)
    (h : (Vector.Resize T self n w).leaves (v1, w1)) :
    v1.size_ ≤ v1.data_.capacity_ := by
  unfold Vector.Resize at h
  split at h
  · rename_i hlt
    split at h
    · exact h.elim
    · simp only [Res.leaves, Prod.mk.injEq] at h
      rw [← h.1]
      show n ≤ self.data_.capacity_
      omega
  · split at h
    · exact h.elim
    · rename_i f s hres
      have hl : (Vector.Reserve T self n w).leaves s := by rw [hres]; rfl
      obtain ⟨s1, s2⟩ := s
      have := Reserve_leaves T self s1 n w s2 hl
      simp only [Res.leaves, Prod.mk.injEq] at h
      rw [← h.1]
      omega
    · rename_i u self1 w2 hres
      have hl : (Vector.Reserve T self n w).leaves (self1, w2) := by rw [hres]; rfl
      have hf := Reserve_leaves T self self1 n w w2 hl
      have hc := Reserve_ok_capacity T self self1 n w w2 hres
      split at h
      · exact h.elim
      · simp only [Res.leaves, Prod.mk.injEq] at h
        rw [← h.1]
        show self1.size_ ≤ self1.data_.capacity_
        omega
      · simp only [Res.leaves, Prod.mk.injEq] at h
        rw [← h.1]
        exact hc

theorem grown_capacity_fits (size cap : Nat) (h : size = cap) :
    size + 1 ≤ (if size = 0 then 1 else cap * 2) := by
  split <;> omega

theorem PushBack_leaves {α : Type} (T : ElemType α) (self v1 : Vector α) (value : α)
    (w w1 : World α) (hinv : self.size_ ≤ self.data_.capacity_)
    (h : (Vector.PushBack T self value w).leaves (v1, w1)) :
    v1.size_ ≤ v1.data_.capacity_ := by
  unfold Vector.PushBack at h
  split at h
  · rename_i hfull
    split at h
    · exact h.elim
    · simp only [Res.leaves, Prod.mk.injEq] at h
      rw [← h.1]; exact hinv
    · rename_i nd w2 hcr
      have hcap := create_capacity T _ w w2 nd hcr
      split at h
      · exact h.elim
      · simp only [Res.leaves, Prod.mk.injEq] at h
        rw [← h.1]; exact hinv
      · rename_i u b w3 hcp
        split at h
        · exact h.elim
        · rename_i f s1 nd1 w4 hcs
          have := CopyAndSwap_thrown_fields T self s1 _ nd1 w3 w4 f hcs
          simp only [Res.leaves, Prod.mk.injEq] at h
          rw [← h.1]; omega
        · rename_i u2 s1 nd1 w4 hcs
          have hf := CopyAndSwap_ok_fields T self s1 _ nd1 w3 w4 hcs
          have hg := grown_capacity_fits self.size_ self.Capacity hfull
          simp only [Res.leaves, Prod.mk.injEq] at h
          rw [← h.1]
          show s1.size_ + 1 ≤ s1.data_.capacity_
          rw [hf.1, hf.2.1]
          show self.size_ + 1 ≤ nd.capacity_
          rw [hcap]; exact hg
  · rename_i hfull
    have hlt : self.size_ < self.data_.capacity_ := by
      simp only [Vector.Capacity, RawMemory.Capacity] at hfull; omega
    split at h
    · exact h.elim
    · simp only [Res.leaves, Prod.mk.injEq] at h
      rw [← h.1]; exact hinv
    · simp only [Res.leaves, Prod.mk.injEq] at h
      rw [← h.1]; exact hlt

theorem PushBack_move_leaves {α : Type} (T : ElemType α) (self v1 : Vector α) (value : α)
    (w w1 : World α) (hinv : self.size_ ≤ self.data_.capacity_)
    (h : (Vector.PushBack_move T self value w).leaves (v1, w1)) :
    v1.size_ ≤ v1.data_.capacity_ := by
  unfold Vector.PushBack_move at h
  split at h
  · rename_i hfull
    split at h
    · exact h.elim
    · simp only [Res.leaves, Prod.mk.injEq] at h
      rw [← h.1]; exact hinv
    · rename_i nd w2 hcr
      have hcap := create_capacity T _ w w2 nd hcr
      split at h
      · exact h.elim
      · simp only [Res.leaves, Prod.mk.injEq] at h
        rw [← h.1]; exact hinv
      · rename_i u src b w3 hcp
        split at h
        · exact h.elim
        · rename_i f s1 nd1 w4 hcs
          have := CopyAndSwap_thrown_fields T self s1 _ nd1 w3 w4 f hcs
          simp only [Res.leaves, Prod.mk.injEq] at h
          rw [← h.1]; omega
        · rename_i u2 s1 nd1 w4 hcs
          have hf := CopyAndSwap_ok_fields T self s1 _ nd1 w3 w4 hcs
          have hg := grown_capacity_fits self.size_ self.Capacity hfull
          simp only [Res.leaves, Prod.mk.injEq] at h
          rw [← h.1]
          show s1.size_ + 1 ≤ s1.data_.capacity_
          rw [hf.1, hf.2.1]
          show self.size_ + 1 ≤ nd.capacity_
          rw [hcap]; exact hg
  · rename_i hfull
    have hlt : self.size_ < self.data_.capacity_ := by
      simp only [Vector.Capacity, RawMemory.Capacity] at hfull; omega
    split at h
    · exact h.elim
    · simp only [Res.leaves, Prod.mk.injEq] at h
      rw [← h.1]; exact hinv
    · simp only [Res.leaves, Prod.mk.injEq] at h
      rw [← h.1]; exact hlt

theorem PopBack_leaves {α : Type} (self v1 : Vector α)
    (w w1 : World α) (hinv : self.size_ ≤ self.data_.capacity_)
    (h : (Vector.PopBack self w).leaves (v1, w1)) :
    v1.size_ ≤ v1.data_.capacity_ := by
  unfold Vector.PopBack at h
  split at h
  · split at h
    · exact h.elim
    · simp only [Res.leaves, Prod.mk.injEq] at h
      rw [← h.1]
      show self.size_ - 1 ≤ self.data_.capacity_
      omega
  · exact h.elim

theorem Erase_leaves {α : Type} (T : ElemType α) (self v1 : Vector α) (p : Nat)
    (w w1 : World α) (hinv : self.size_ ≤ self.data_.capacity_)
    (h : (Vector.Erase T self p w).leaves (v1, w1)) :
    v1.size_ ≤ v1.data_.capacity_ := by
  unfold Vector.Erase at h
  split at h
  · simp only at h
    split at h
    · exact h.elim
    · simp only [Res.leaves, Prod.mk.injEq] at h
      rw [← h.1]; exact hinv
    · split at h
      · exact h.elim
      · simp only [Res.leaves, Prod.mk.injEq] at h
        rw [← h.1]
        show self.size_ - 1 ≤ self.data_.capacity_
        omega
  · exact h.elim

theorem copy_assign_leaves {α : Type} (T : ElemType α) (self v1 : Vector α)
    (rhs : Option (Vector α)) (w w1 : World α) (hinv : self.size_ ≤ self.data_.capacity_)
    (h : (Vector.copy_assign T self rhs w).leaves (v1, w1)) :
    v1.size_ ≤ v1.data_.capacity_ := by
  unfold Vector.copy_assign at h
  split at h
  · simp only [Res.leaves, Prod.mk.injEq] at h
    rw [← h.1]; exact hinv
  · rename_i r
    split at h
    · split at h
      · exact h.elim
      · simp only [Res.leaves, Prod.mk.injEq] at h
        rw [← h.1]; exact hinv
      · rename_i rc w2 hcc
        have hf := copy_construct_fields T r rc w w2 hcc
        simp only [Swap_eq] at h
        split at h
        · exact h.elim
        · simp only [Res.leaves, Prod.mk.injEq] at h
          rw [← h.1]; omega
    · rename_i hbig
      simp only [Vector.Capacity, RawMemory.Capacity] at hbig
      split at h
      · split at h
        · exact h.elim
        · simp only [Res.leaves, Prod.mk.injEq] at h
          rw [← h.1]; exact hinv
        · split at h
          · exact h.elim
          · simp only [Res.leaves, Prod.mk.injEq] at h
            rw [← h.1]
            show r.size_ ≤ self.data_.capacity_
            omega
      · split at h
        · exact h.elim
        · simp only [Res.leaves, Prod.mk.injEq] at h
          rw [← h.1]; exact hinv
        · split at h
          · exact h.elim
          · simp only [Res.leaves, Prod.mk.injEq] at h
            rw [← h.1]; exact hinv
          · simp only [Res.leaves, Prod.mk.injEq] at h
            rw [← h.1]
            show r.size_ ≤ self.data_.capacity_
            omega

theorem EmplaceBack_leaves {α : Type} (T : ElemType α) (self v1 : Vector α) (value : α)
    (w w1 : World α) (hinv : self.size_ ≤ self.data_.capacity_)
    (h : (Vector.EmplaceBack T self value w).leaves (v1, w1)) :
    v1.size_ ≤ v1.data_.capacity_ := by
  unfold Vector.EmplaceBack at h
  simp only at h
  split at h
  · exact h.elim
  · rename_i f s hcon
    simp only [Res.leaves] at h
    subst h
    split at hcon
    · rename_i hfull
      split at hcon
      · simp at hcon
      · simp only [Res.thrown.injEq, Prod.mk.injEq] at hcon
        rw [← hcon.2.1]; exact hinv
      · split at hcon
        · simp only [Res.thrown.injEq, Prod.mk.injEq] at hcon
          rw [← hcon.2.1]; exact hinv
        · split at hcon
          · simp at hcon
          · split at hcon
            · simp at hcon
            · rename_i f2 s1 nd1 w4 hcs
              have := CopyAndSwap_thrown_fields T self s1 _ nd1 _ w4 f2 hcs
              simp only [Res.thrown.injEq, Prod.mk.injEq] at hcon
              rw [← hcon.2.1]; omega
            · simp at hcon
    · split at hcon
      · simp only [Res.thrown.injEq, Prod.mk.injEq] at hcon
        rw [← hcon.2.1]; exact hinv
      · split at hcon
        · simp at hcon
        · simp at hcon
  · rename_i u self1 w2 hcon
    have key : self1.size_ + 1 ≤ self1.data_.capacity_ := by
      split at hcon
      · rename_i hfull
        split at hcon
        · simp at hcon
        · simp at hcon
        · rename_i nd w3 hcr
          have hcap := create_capacity T _ w w3 nd hcr
          split at hcon
          · simp at hcon
          · split at hcon
            · simp at hcon
            · split at hcon
              · simp at hcon
              · simp at hcon
              · rename_i u2 s1 nd1 w5 hcs
                have hf := CopyAndSwap_ok_fields T self s1 _ nd1 _ w5 hcs
                have hg := grown_capacity_fits self.size_ self.Capacity hfull
                simp only [Res.ok.injEq, Prod.mk.injEq, true_and] at hcon
                rw [← hcon.1, hf.1, hf.2.1]
                show self.size_ + 1 ≤ nd.capacity_
                rw [hcap]; exact hg
      · rename_i hfull
        have hlt : self.size_ < self.data_.capacity_ := by
          simp only [Vector.Capacity, RawMemory.Capacity] at hfull; omega
        split at hcon
        · simp at hcon
        · split at hcon
          · simp at hcon
          · simp only [Res.ok.injEq, Prod.mk.injEq, true_and] at hcon
            rw [← hcon.1]; exact hlt
    split at h
    · exact h.elim
    · simp only [Res.leaves, Prod.mk.injEq] at h
      rw [← h.1]; exact key

theorem Emplace_leaves {α : Type} (T : ElemType α) (self v1 : Vector α) (p : Nat)
    (arg : Arg α) (w w1 : World α) (hinv : self.size_ ≤ self.data_.capacity_)
    (h : (Vector.Emplace T self p arg w).leaves (v1, w1)) :
    v1.size_ ≤ v1.data_.capacity_ := by
  unfold Vector.Emplace at h
  split at h
  · simp only at h
    split at h
    · exact h.elim
    · rename_i f s hem
      simp only [Res.leaves] at h
      subst h
      split at hem
      · rename_i hfull
        split at hem
        · simp at hem
        · simp only [Res.thrown.injEq, Prod.mk.injEq] at hem
          rw [← hem.2.1]; exact hinv
        · split at hem
          · simp at hem
          · split at hem
            · simp only [Res.thrown.injEq, Prod.mk.injEq] at hem
              rw [← hem.2.1]; exact hinv
            · split at hem
              · simp at hem
              · split at hem
                · simp at hem
                · simp only [Res.thrown.injEq, Prod.mk.injEq] at hem
                  rw [← hem.2.1]; exact hinv
                · split at hem
                  · simp at hem
                  · simp at hem
      · split at hem
        · split at hem
          · simp at hem
          · simp only [Res.thrown.injEq, Prod.mk.injEq] at hem
            rw [← hem.2.1]; exact hinv
          · split at hem
            · simp at hem
            · simp only [Res.thrown.injEq, Prod.mk.injEq] at hem
              rw [← hem.2.1]; exact hinv
            · split at hem
              · simp at hem
              · split at hem
                · simp only [Res.thrown.injEq, Prod.mk.injEq] at hem
                  rw [← hem.2.1]; exact hinv
                · split at hem
                  · simp at hem
                  · split at hem
                    · simp only [Res.thrown.injEq, Prod.mk.injEq] at hem
                      rw [← hem.2.1]; exact hinv
                    · split at hem
                      · simp at hem
                      · simp at hem
        · split at hem
          · simp at hem
          · split at hem
            · simp only [Res.thrown.injEq, Prod.mk.injEq] at hem
              rw [← hem.2.1]; exact hinv
            · split at hem
              · simp at hem
              · simp at hem
    · rename_i u self1 w2 hem
      simp only [Res.leaves, Prod.mk.injEq] at h
      rw [← h.1]
      show self1.size_ + 1 ≤ self1.data_.capacity_
      split at hem
      · rename_i hfull
        split at hem
        · simp at hem
        · simp at hem
        · rename_i nd w3 hcr
          have hcap := create_capacity T _ w w3 nd hcr
          have hg := grown_capacity_fits self.size_ self.Capacity hfull
          split at hem
          · simp at hem
          · split at hem
            · simp at hem
            · split at hem
              · simp at hem
              · split at hem
                · simp at hem
                · simp at hem
                · split at hem
                  · simp at hem
                  · simp only [RawMemory.Swap, RawMemory.store, Res.ok.injEq, Prod.mk.injEq,
                      true_and] at hem
                    rw [← hem.1]
                    show self.size_ + 1 ≤ nd.capacity_
                    rw [hcap]; exact hg
      · rename_i hfull
        have hlt : self.size_ < self.data_.capacity_ := by
          simp only [Vector.Capacity, RawMemory.Capacity] at hfull; omega
        split at hem
        · split at hem
          · simp at hem
          · simp at hem
          · split at hem
            · simp at hem
            · simp at hem
            · split at hem
              · simp at hem
              · split at hem
                · simp at hem
                · split at hem
                  · simp at hem
                  · split at hem
                    · simp at hem
                    · split at hem
                      · simp at hem
                      · simp only [Res.ok.injEq, Prod.mk.injEq, true_and] at hem
                        rw [← hem.1]; exact hlt
        · split at hem
          · simp at hem
          · split at hem
            · simp at hem
            · split at hem
              · simp at hem
              · simp only [Res.ok.injEq, Prod.mk.injEq, true_and] at hem
                rw [← hem.1]; exact hlt
  · exact h.elim

/-- C14: `Size() <= Capacity()` is an invariant of `Vector`.

First part, for any budget of element operations and of allocations and any
`SIZE_MAX`: the invariant holds for the result of every constructor that
returns, and for vectors `v` and `u` that satisfy it, every state in which a
public operation ends, by a normal return or by an exception, satisfies it
again, for the target and for the other operand: `Reserve`, `Resize`,
`PushBack` (both overloads), `EmplaceBack`, `PopBack`, `Emplace`, `Insert`
(both overloads), `Erase`, copy assignment, move assignment and `Swap`, the
last three also with the vector itself as the other operand (the right-hand
side of a copy assignment is a `const` operand, which the call does not
change).  Undefined behaviour, that is a call outside its precondition or a
byte count that wraps so that an element is written outside the block, ends
in no state.

Second part, within the preconditions: from vectors at rest, when nothing
throws and each requested byte count is representable in `size_t`, every
constructor and every operation returns normally and leaves vectors at
rest. -/
theorem C14_size_le_capacity_invariant {α : Type} (T : ElemType α) (v u : Vector α)
    (w : World α) (hv : v.Size ≤ v.Capacity) (hu : u.Size ≤ u.Capacity) :
    ((Vector.empty : Vector α).Size ≤ (Vector.empty : Vector α).Capacity ∧
     (∀ n v1 w1, Vector.sized T n w = .ok v1 w1 → v1.Size ≤ v1.Capacity) ∧
     (∀ v1 w1, Vector.copy_construct T v w = .ok v1 w1 → v1.Size ≤ v1.Capacity) ∧
     ((Vector.move_construct v).1.Size ≤ (Vector.move_construct v).1.Capacity ∧
      (Vector.move_construct v).2.Size ≤ (Vector.move_construct v).2.Capacity) ∧
     (∀ c v1 w1, (Vector.Reserve T v c w).leaves (v1, w1) → v1.Size ≤ v1.Capacity) ∧
     (∀ n v1 w1, (Vector.Resize T v n w).leaves (v1, w1) → v1.Size ≤ v1.Capacity) ∧
     (∀ value v1 w1, (Vector.PushBack T v value w).leaves (v1, w1) →
       v1.Size ≤ v1.Capacity) ∧
     (∀ value v1 w1, (Vector.PushBack_move T v value w).leaves (v1, w1) →
       v1.Size ≤ v1.Capacity) ∧
     (∀ value v1 w1, (Vector.EmplaceBack T v value w).leaves (v1, w1) →
       v1.Size ≤ v1.Capacity) ∧
     (∀ v1 w1, (Vector.PopBack v w).leaves (v1, w1) → v1.Size ≤ v1.Capacity) ∧
     (∀ p arg v1 w1, (Vector.Emplace T v p arg w).leaves (v1, w1) →
       v1.Size ≤ v1.Capacity) ∧
     (∀ p arg v1 w1, (Vector.Insert T v p arg w).leaves (v1, w1) →
       v1.Size ≤ v1.Capacity) ∧
     (∀ p value v1 w1, (Vector.Insert_move T v p value w).leaves (v1, w1) →
       v1.Size ≤ v1.Capacity) ∧
     (∀ p v1 w1, (Vector.Erase T v p w).leaves (v1, w1) → v1.Size ≤ v1.Capacity) ∧
     (∀ v1 w1, (Vector.copy_assign T v (some u) w).leaves (v1, w1) →
       v1.Size ≤ v1.Capacity) ∧
     (∀ v1 w1, (Vector.copy_assign T v none w).leaves (v1, w1) → v1.Size ≤ v1.Capacity) ∧
     ((Vector.move_assign v u w).1.Size ≤ (Vector.move_assign v u w).1.Capacity ∧
      (Vector.move_assign v u w).2.1.Size ≤ (Vector.move_assign v u w).2.1.Capacity) ∧
     (Vector.move_assign_self v w).1.Size ≤ (Vector.move_assign_self v w).1.Capacity ∧
     ((Vector.Swap v u w).1.Size ≤ (Vector.Swap v u w).1.Capacity ∧
      (Vector.Swap v u w).2.1.Size ≤ (Vector.Swap v u w).2.1.Capacity) ∧
     (Vector.Swap_self v w).1.Size ≤ (Vector.Swap_self v w).1.Capacity) ∧
    (AtRest v → AtRest u → w.ops_left = none → w.allocs_left = none →
     (AtRest (Vector.empty : Vector α)) ∧
     (∀ n, w.fits T n → ∃ v1 w1, Vector.sized T n w = .ok v1 w1 ∧ AtRest v1) ∧
     (w.fits T v.Size → ∃ v1 w1, Vector.copy_construct T v w = .ok v1 w1 ∧ AtRest v1) ∧
     (AtRest (Vector.move_construct v).1 ∧ AtRest (Vector.move_construct v).2) ∧
     (∀ c, c ≤ v.Capacity ∨ w.fits T c →
       ∃ v1 w1, Vector.Reserve T v c w = .ok () (v1, w1) ∧ AtRest v1) ∧
     (∀ n, n ≤ v.Capacity ∨ w.fits T n →
       ∃ v1 w1, Vector.Resize T v n w = .ok () (v1, w1) ∧ AtRest v1) ∧
     ((v.Size = v.Capacity → w.fits T (if v.Size = 0 then 1 else v.Capacity * 2)) →
       (∀ value, ∃ v1 w1, Vector.PushBack T v value w = .ok () (v1, w1) ∧
         Vector.PushBack_move T v value w = .ok () (v1, w1) ∧
         Vector.EmplaceBack T v value w = .ok v.Size (v1, w1) ∧ AtRest v1) ∧
       (∀ p arg, p ≤ v.Size → (arg.read v.data_.slots).isSome →
         ∃ v1 w1, Vector.Emplace T v p arg w = .ok p (v1, w1) ∧
           Vector.Insert T v p arg w = .ok p (v1, w1) ∧ AtRest v1) ∧
       (∀ p value, p ≤ v.Size →
         ∃ v1 w1, Vector.Insert_move T v p value w = .ok p (v1, w1) ∧ AtRest v1)) ∧
     (v.Size ≠ 0 → ∃ v1 w1, Vector.PopBack v w = .ok () (v1, w1) ∧ AtRest v1) ∧
     (∀ p, p < v.Size → ∃ v1 w1, Vector.Erase T v p w = .ok p (v1, w1) ∧ AtRest v1) ∧
     ((v.Capacity < u.Size → w.fits T u.Size) →
       ∃ v1 w1, Vector.copy_assign T v (some u) w = .ok () (v1, w1) ∧ AtRest v1) ∧
     (∃ v1 w1, Vector.copy_assign T v none w = .ok () (v1, w1) ∧ AtRest v1) ∧
     (AtRest (Vector.move_assign v u w).1 ∧ AtRest (Vector.move_assign v u w).2.1) ∧
     AtRest (Vector.move_assign_self v w).1 ∧
     (AtRest (Vector.Swap v u w).1 ∧ AtRest (Vector.Swap v u w).2.1) ∧
     AtRest (Vector.Swap_self v w).1) := by
  have hv2 : v.size_ ≤ v.data_.capacity_ := hv
  have hu2 : u.size_ ≤ u.data_.capacity_ := hu
  constructor
  · refine ⟨Nat.le_refl _, ?_, ?_, ?_, ?_, ?_, ?_, ?_, ?_, ?_, ?_, ?_, ?_, ?_, ?_, ?_, ?_, ?_,
      ?_, ?_⟩
    · intro n v1 w1 h
      have := sized_fields T n w w1 v1 h
      show v1.size_ ≤ v1.data_.capacity_
      omega
    · intro v1 w1 h
      have := copy_construct_fields T v v1 w w1 h
      show v1.size_ ≤ v1.data_.capacity_
      omega
    · exact ⟨hv, Nat.le_refl _⟩
    · intro c v1 w1 h
      have := Reserve_leaves T v v1 c w w1 h
      show v1.size_ ≤ v1.data_.capacity_
      omega
    · intro n v1 w1 h
      exact Resize_leaves T v v1 n w w1 hv2 h
    · intro value v1 w1 h
      exact PushBack_leaves T v v1 value w w1 hv2 h
    · intro value v1 w1 h
      exact PushBack_move_leaves T v v1 value w w1 hv2 h
    · intro value v1 w1 h
      exact EmplaceBack_leaves T v v1 value w w1 hv2 h
    · intro v1 w1 h
      exact PopBack_leaves v v1 w w1 hv2 h
    · intro p arg v1 w1 h
      exact Emplace_leaves T v v1 p arg w w1 hv2 h
    · intro p arg v1 w1 h
      exact Emplace_leaves T v v1 p arg w w1 hv2 h
    · intro p value v1 w1 h
      exact Emplace_leaves T v v1 p (.object value) w w1 hv2 h
    · intro p v1 w1 h
      exact Erase_leaves T v v1 p w w1 hv2 h
    · intro v1 w1 h
      exact copy_assign_leaves T v v1 (some u) w w1 hv2 h
    · intro v1 w1 h
      exact copy_assign_leaves T v v1 none w w1 hv2 h
    · exact ⟨hu, Nat.le_refl _⟩
    · exact Nat.le_refl _
    · rw [Swap_eq]; exact ⟨hu, hv⟩
    · rw [Swap_self_eq]; exact hv
  · rintro ⟨xs, hvx⟩ ⟨ys, huy⟩ hops hal
    obtain ⟨hcap, hveq⟩ := (Holds_iff v xs).mp hvx
    obtain ⟨hcapu, hueq⟩ := (Holds_iff u ys).mp huy
    have hsz : v.Size = xs.length := size_of_Holds hvx
    have hszu : u.Size = ys.length := size_of_Holds huy
    have rest : ∀ (zs : List α) (cap : Nat), zs.length ≤ cap →
        AtRest (Vector.of_values zs cap) := fun zs cap h => (at_rest_of_values zs cap h).1
    have hempty : AtRest (⟨⟨none, 0⟩, 0⟩ : Vector α) := at_rest_empty.1
    refine ⟨hempty, ?_, ?_, ?_, ?_, ?_, ?_, ?_, ?_, ?_, ?_, ?_, ?_, ?_, ?_⟩
    · intro n hfit
      exact ⟨_, _, sized_ok T n w hops hal hfit, rest _ n (by simp)⟩
    · intro hfit
      have k := copy_construct_ok T xs v.Capacity w hcap hops hal (by rw [← hsz]; exact hfit)
      rw [← hveq] at k
      exact ⟨_, _, k, rest _ _ (Nat.le_refl _)⟩
    · exact ⟨⟨xs, hvx⟩, hempty⟩
    · intro c hfit
      have k := Reserve_ok T xs v.Capacity c w hcap hops hal hfit
      rw [← hveq] at k
      by_cases hc : c ≤ v.Capacity
      · rw [if_pos hc] at k; exact ⟨_, _, k, ⟨xs, hvx⟩⟩
      · rw [if_neg hc] at k; exact ⟨_, _, k, rest _ _ (by omega)⟩
    · intro n hfit
      have k := Resize_ok T xs v.Capacity n w hcap hops hal hfit
      rw [← hveq] at k
      by_cases h1 : n < xs.length
      · rw [if_pos h1] at k
        exact ⟨_, _, k, rest _ _ (by simp; omega)⟩
      · rw [if_neg h1] at k
        by_cases h2 : n ≤ v.Capacity
        · rw [if_pos h2] at k
          exact ⟨_, _, k, rest _ _ (by simp; omega)⟩
        · rw [if_neg h2] at k
          exact ⟨_, _, k, rest _ _ (by simp; omega)⟩
    · intro hfit
      have hfit2 : xs.length = v.Capacity →
          w.fits T (if xs.length = 0 then 1 else v.Capacity * 2) := by
        rw [← hsz]; exact hfit
      have hgrow : ∀ z : α, (xs ++ [z]).length ≤
          (if xs.length = v.Capacity then (if xs.length = 0 then 1 else v.Capacity * 2)
            else v.Capacity) := by
        intro z
        simp only [List.length_append, List.length_singleton]
        split
        · split <;> omega
        · omega
      refine ⟨?_, ?_, ?_⟩
      · intro value
        have k1 := PushBack_ok T xs v.Capacity value w hcap hops hal hfit2
        have k2 := PushBack_move_ok T xs v.Capacity value w hcap hops hal hfit2
        have k3 := EmplaceBack_ok T xs v.Capacity value w hcap hops hal hfit2
        rw [← hveq] at k1 k2 k3
        rw [hsz]
        by_cases hc : xs.length = v.Capacity
        · rw [if_pos hc] at k1 k2 k3
          exact ⟨_, _, k1, k2, k3, rest _ _ (by have := hgrow value; rwa [if_pos hc] at this)⟩
        · rw [if_neg hc] at k1 k2 k3
          exact ⟨_, _, k1, k2, k3, rest _ _ (by have := hgrow value; rwa [if_neg hc] at this)⟩
      · intro p arg hp harg
        have hpx : p ≤ xs.length := by rw [← hsz]; exact hp
        have hlen : (xs.take p).length = p := by simp [hpx]
        have hxs : xs.take p ++ xs.drop p = xs := List.take_append_drop p xs
        have hcap2 : (xs.take p ++ xs.drop p).length ≤ v.Capacity := by rw [hxs]; exact hcap
        obtain ⟨value, cap1, w1, k, hle, _⟩ :=
          Emplace_any_ok T (xs.take p) (xs.drop p) v.Capacity arg w hcap2 hops hal
            (by rw [hxs]; exact hfit2) (by rw [hxs, ← hveq]; exact harg)
        rw [hxs, hlen, ← hveq] at k
        exact ⟨_, _, k, k, rest _ _ hle⟩
      · intro p value hp
        have hpx : p ≤ xs.length := by rw [← hsz]; exact hp
        have hlen : (xs.take p).length = p := by simp [hpx]
        have hxs : xs.take p ++ xs.drop p = xs := List.take_append_drop p xs
        have hcap2 : (xs.take p ++ xs.drop p).length ≤ v.Capacity := by rw [hxs]; exact hcap
        obtain ⟨value1, cap1, w1, k, hle, _⟩ :=
          Emplace_any_ok T (xs.take p) (xs.drop p) v.Capacity (.object value) w hcap2 hops hal
            (by rw [hxs]; exact hfit2) rfl
        rw [hxs, hlen, ← hveq] at k
        exact ⟨_, _, k, rest _ _ hle⟩
    · intro h0
      have hne : xs ≠ [] := by
        intro hx; rw [hsz, hx] at h0; exact h0 rfl
      have hx : xs.dropLast ++ [xs.getLast hne] = xs := List.dropLast_append_getLast hne
      have hcap2 : (xs.dropLast ++ [xs.getLast hne]).length ≤ v.Capacity := by
        rw [hx]; exact hcap
      have k := PopBack_ok xs.dropLast (xs.getLast hne) v.Capacity w hcap2
      rw [hx, ← hveq] at k
      exact ⟨_, _, k, rest _ _ (by simp at hcap2 ⊢; omega)⟩
    · intro p hp
      have hpx : p < xs.length := by rw [← hsz]; exact hp
      have hlen : (xs.take p).length = p := by simp; omega
      have hxs : xs.take p ++ xs[p] :: xs.drop (p + 1) = xs := by
        rw [← List.drop_eq_getElem_cons hpx]; exact List.take_append_drop p xs
      have hcap2 : (xs.take p ++ xs[p] :: xs.drop (p + 1)).length ≤ v.Capacity := by
        rw [hxs]; exact hcap
      have k := Erase_ok T (xs.take p) (xs.drop (p + 1)) xs[p] v.Capacity w hcap2 hops
      rw [hxs, hlen, ← hveq] at k
      exact ⟨_, _, k, rest _ _ (by simp at hcap2 ⊢; omega)⟩
    · intro hfit
      have k := copy_assign_ok T ys xs u.Capacity v.Capacity w hcapu hcap hops hal
        (by rw [← hszu]; exact hfit)
      rw [← hveq, ← hueq] at k
      by_cases h1 : v.Capacity < ys.length
      · rw [if_pos h1] at k; exact ⟨_, _, k, rest _ _ (Nat.le_refl _)⟩
      · rw [if_neg h1] at k; exact ⟨_, _, k, rest _ _ (by omega)⟩
    · exact ⟨_, _, rfl, ⟨xs, hvx⟩⟩
    · exact ⟨⟨ys, huy⟩, hempty⟩
    · exact hempty
    · rw [Swap_eq]; exact ⟨⟨ys, huy⟩, ⟨xs, hvx⟩⟩
    · rw [Swap_self_eq]; exact ⟨xs, hvx⟩

/-- Witness of C14.  `Insert` of 9 at index 0 of `[1, 2]` held with capacity
4, for an element type whose second operation throws: the exception leaves a
vector that is not at rest (slot 2 holds an element), with
`Size() == 2 <= Capacity() == 4`.  And `Resize(6)` on `[1, 2]` held with
capacity 2, when nothing throws: it returns with a vector at rest. -/
theorem C14_size_le_capacity_invariant_witness :
    (∃ v1 w1, (Vector.Insert copyOnlyType (Vector.of_values [1, 2] 4) 0 (.object 9)
        ⟨some 1, none, [], some 18446744073709551615⟩).leaves (v1, w1) ∧
      v1.data_.slots = [some 1, some 2, some 2, none] ∧ v1.Size = 2 ∧ v1.Capacity = 4 ∧
      v1.Size ≤ v1.Capacity) ∧
    (∃ v1 w1, Vector.Resize copyOnlyType (Vector.of_values [1, 2] 2) 6
        ⟨none, none, [], some 18446744073709551615⟩ = .ok () (v1, w1) ∧ AtRest v1) := by
  constructor
  · obtain ⟨⟨_, _, _, _, _, _, _, _, _, _, _, hins, _⟩, _⟩ :=
      C14_size_le_capacity_invariant copyOnlyType (Vector.of_values [1, 2] 4)
        (Vector.of_values [7] 3) ⟨some 1, none, [], some 18446744073709551615⟩
        (by decide) (by decide)
    exact ⟨⟨⟨some [some 1, some 2, some 2, none], 4⟩, 2⟩,
      ⟨some 0, none, [], some 18446744073709551615⟩, by decide, by decide, by decide,
      by decide, hins 0 (.object 9) ⟨⟨some [some 1, some 2, some 2, none], 4⟩, 2⟩
        ⟨some 0, none, [], some 18446744073709551615⟩ (by decide)⟩
  · obtain ⟨_, hrest⟩ :=
      C14_size_le_capacity_invariant copyOnlyType (Vector.of_values [1, 2] 2)
        (Vector.of_values [7] 3) ⟨none, none, [], some 18446744073709551615⟩
        (by decide) (by decide)
    obtain ⟨_, _, _, _, _, hres, _⟩ := hrest ⟨[1, 2], by decide⟩ ⟨[7], by decide⟩ rfl rfl
    exact hres 6 (Or.inr (by decide))

end AdvancedVector
